import Mathlib

/-!
# Tamp: digram, Huffman and LZW text encoders

A shallow embedding of the Go package `encoders` (files `encoder.go`,
`digramencoder.go`, `prefixencoder.go`, `huffmanencoder.go`, `lzwencoder.go`) and of
the pure parts of `tamp.go` (`WriteCode`, `ReadCode`).

Conventions of the embedding.

* A Go `string` (`Source`, `Code`, map keys of type `string`) is a `Str`, the list of its
  code points: the embedding covers strings that are valid UTF-8.  Where the Go code
  works on bytes (`[]byte(source)`, `string(b)` for a byte `b`) the UTF-8 bytes are
  computed by `stringBytes`.  A `Code` is a string of single-byte characters, so byte
  offsets into a `Code` are character offsets.
* A `rune` is an `Int` (Go: `int32`); `-1` is the marker of inner Huffman nodes.
* A Go `map` is an association list with distinct keys (`GoMap`).  The order in which
  a `range` loop visits a map is not fixed by Go: every function that ranges over a map
  takes the order as an argument (`MapOrder`), and theorems hold for every order.
* Go `int` values that only count or measure (sizes, bit widths, frequencies) are `Nat`;
  values that are subtracted or compared after a subtraction are `Int`.
* Loops that may fail to advance take a fuel argument and return `none` when it runs out.
* A finite `float64` is the rational number it denotes, and an operation on `float64`
  values is the exact operation followed by rounding to 53 significant bits.
-/

namespace Tamp

/-! ## Strings, runes and bytes -/

/-- A Go `rune`. -/
abbrev Rune := Int

/-- A Go `string`, as the list of its code points. -/
abbrev Str := List Char

/-- Go `type Source string`. -/
abbrev Source := Str

/-- Go `type Code string`. -/
abbrev Code := Str

/-- Go `string(r)` for a rune `r`: the UTF-8 text of the code point, and of U+FFFD when `r`
is not a valid code point. -/
def runeString (r : Rune) : Str :=
  if 0 ≤ r ∧ r.toNat.isValidChar then [Char.ofNat r.toNat] else [Char.ofNat 0xFFFD]

/-- The runes produced by `range s` (and by `[]rune(s)`) for a string `s`. -/
def stringRunes (s : Str) : List Rune :=
  s.map (fun c => (c.toNat : Int))

/-- UTF-8 bytes of one code point. -/
def utf8Bytes (c : Char) : List Nat :=
  let v := c.toNat
  if v < 0x80 then [v]
  else if v < 0x800 then [0xC0 + v / 64, 0x80 + v % 64]
  else if v < 0x10000 then [0xE0 + v / 4096, 0x80 + v / 64 % 64, 0x80 + v % 64]
  else [0xF0 + v / 262144, 0x80 + v / 4096 % 64, 0x80 + v / 64 % 64, 0x80 + v % 64]

/-- Go `[]byte(s)`. -/
def stringBytes (s : Str) : List Nat :=
  s.flatMap utf8Bytes

/-- Go `string(b)` for a byte `b`: the text of the code point `b`. -/
def byteString (b : Nat) : Str :=
  [Char.ofNat b]

/-! ## Maps -/

/-- A Go `map`: association list, keys distinct. -/
abbrev GoMap (κ ν : Type) := List (κ × ν)

namespace GoMap

variable {κ ν : Type} [DecidableEq κ]

/-- Go `v, ok := m[k]`. -/
def find? : GoMap κ ν → κ → Option ν
  | [], _ => none
  | (k', v) :: rest, k => if k' = k then some v else find? rest k

/-- Go `m[k]`, with the zero value of the value type when `k` is absent. -/
def get (m : GoMap κ ν) (k : κ) (zero : ν) : ν :=
  (m.find? k).getD zero

/-- Go `m[k] = v`. -/
def set : GoMap κ ν → κ → ν → GoMap κ ν
  | [], k, v => [(k, v)]
  | (k', v') :: rest, k, v => if k' = k then (k, v) :: rest else (k', v') :: set rest k v

/-- Go `delete(m, k)`. -/
def delete (m : GoMap κ ν) (k : κ) : GoMap κ ν :=
  m.filter (fun e => decide (e.1 ≠ k))

end GoMap

/-- The order in which a `range` loop visits the entries of a map. -/
structure MapOrder where
  range : {α : Type} → List α → List α

/-- A `range` loop visits every entry exactly once. -/
def MapOrder.Valid (ord : MapOrder) : Prop :=
  ∀ (α : Type) (l : List α), (ord.range l).Perm l

/-- The order of insertion. -/
def MapOrder.insertion : MapOrder :=
  ⟨fun l => l⟩

/-- The reverse of the order of insertion. -/
def MapOrder.reversed : MapOrder :=
  ⟨fun l => l.reverse⟩

/-- The order of insertion, except that a map of two entries is visited in reverse. -/
def MapOrder.pairsReversed : MapOrder :=
  ⟨fun l => if l.length = 2 then l.reverse else l⟩

/-! ## Binary numerals -/

/-- The character of one binary digit. -/
def digitChar (d : Nat) : Char :=
  if d = 0 then '0' else '1'

/-- Binary digits of `n`, most significant first, no leading zero (`0` gives `"0"`). -/
def binDigits : Nat → Nat → Str
  | 0, _ => []
  | fuel + 1, n => if n < 2 then [digitChar n] else binDigits fuel (n / 2) ++ [digitChar (n % 2)]

/-- Go `strconv.FormatInt(i, 2)`. -/
def formatInt2 (i : Int) : Str :=
  if i < 0 then '-' :: binDigits (i.natAbs + 1) i.natAbs else binDigits (i.toNat + 1) i.toNat

/-- Left padding with `'0'` up to `length` characters, as done after every `FormatInt`. -/
def padZeros (codeword : Str) (length : Nat) : Str :=
  if codeword.length < length then List.replicate (length - codeword.length) '0' ++ codeword
  else codeword

/-- Go `intToCodeword` (lzwencoder.go). -/
def intToCodeword (n : Int) (length : Nat) : Str :=
  padZeros (formatInt2 n) length

/-- Value of a string of binary digits; `none` when a character is not a binary digit. -/
def binValue : Str → Nat → Option Nat
  | [], acc => some acc
  | c :: rest, acc =>
    if c = '0' then binValue rest (2 * acc)
    else if c = '1' then binValue rest (2 * acc + 1)
    else none

/-- Go `strconv.ParseInt(s, 2, 64)`: the value and whether an error was returned.  On a
syntax error the value is `0`; on a range error it is the nearest `int64`. -/
def parseInt2 (s : Str) : Int × Bool :=
  let (neg, digits) :=
    match s with
    | '+' :: rest => (false, rest)
    | '-' :: rest => (true, rest)
    | _ => (false, s)
  match digits with
  | [] => (0, true)
  | _ =>
    match binValue digits 0 with
    | none => (0, true)
    | some v =>
      if neg then
        if v > 2 ^ 63 then (-(2 ^ 63 : Int), true) else (-(v : Int), false)
      else
        if v ≥ 2 ^ 63 then ((2 ^ 63 : Int) - 1, true) else ((v : Int), false)

/-! ## The codeword width: `int(math.Log2(float64(size)))`

A finite `float64` is the rational number it denotes. The arithmetic is that of IEEE 754
binary64 in the normal range: the result of every operation is the exact result rounded to
53 significant bits, ties to even, each operation on its own (no fused multiply-add, as
on amd64). The functions of the package `math` are those of the Go library (`frexp.go`,
`log.go`, `log10.go`, `const.go`), for positive finite arguments. -/

/-- The floor of the binary logarithm of a positive `n`. -/
def floorLog2 : Nat → Nat → Nat
  | 0, _ => 0
  | fuel + 1, n => if n < 2 then 0 else floorLog2 fuel (n / 2) + 1

/-- The binary exponent of a rational `q ≠ 0`: the `e` with `2 ^ e ≤ |q| < 2 ^ (e + 1)`. -/
def binaryExponent (q : ℚ) : Int :=
  let e0 : Int := (floorLog2 q.num.natAbs q.num.natAbs : Int) - (floorLog2 q.den q.den : Int)
  if (2 : ℚ) ^ e0 ≤ |q| then e0 else e0 - 1

/-- Rounding to the nearest integer, ties to the even one. -/
def roundHalfEven (q : ℚ) : Int :=
  if q - ⌊q⌋ < 1 / 2 then ⌊q⌋
  else if 1 / 2 < q - ⌊q⌋ then ⌊q⌋ + 1
  else if ⌊q⌋ % 2 = 0 then ⌊q⌋ else ⌊q⌋ + 1

/-- The `float64` nearest to `q`: 53 significant bits, ties to even. Go `float64(q)`, and
the rounding of the exact result of an operation on `float64` values. -/
def roundFloat64 (q : ℚ) : ℚ :=
  if q = 0 then 0
  else (roundHalfEven (q / 2 ^ (binaryExponent q - 52)) : ℚ) * 2 ^ (binaryExponent q - 52)

/-- Go `math.Frexp` for a positive finite `f`: `frac` in `[1/2, 1)` and `exp` with
`f = frac * 2 ^ exp`. -/
def mathFrexp (f : ℚ) : ℚ × Int :=
  (f / 2 ^ (binaryExponent f + 1), binaryExponent f + 1)

/-- Go `math.Ln2`. -/
def Ln2 : ℚ := 693147180559945309417232121458176568075500134360255254120680009 / 10 ^ 63

/-- Go `math.Sqrt2`. -/
def Sqrt2 : ℚ := 141421356237309504880168872420969807856967187537694807317667974 / 10 ^ 62

/-- Go `math.Log` (`log.go`) for a positive finite `x`. -/
def mathLog (x : ℚ) : ℚ :=
  let Ln2Hi := roundFloat64 (693147180369123816490 / 10 ^ 21)
  let Ln2Lo := roundFloat64 (190821492927058770002 / 10 ^ 30)
  let L1 := roundFloat64 (6666666666666735130 / 10 ^ 19)
  let L2 := roundFloat64 (3999999999940941908 / 10 ^ 19)
  let L3 := roundFloat64 (2857142874366239149 / 10 ^ 19)
  let L4 := roundFloat64 (2222219843214978396 / 10 ^ 19)
  let L5 := roundFloat64 (1818357216161805012 / 10 ^ 19)
  let L6 := roundFloat64 (1531383769920937332 / 10 ^ 19)
  let L7 := roundFloat64 (1479819860511658591 / 10 ^ 19)
  let f1 := if (mathFrexp x).1 < roundFloat64 (Sqrt2 / 2) then roundFloat64 ((mathFrexp x).1 * 2)
    else (mathFrexp x).1
  let ki := if (mathFrexp x).1 < roundFloat64 (Sqrt2 / 2) then (mathFrexp x).2 - 1
    else (mathFrexp x).2
  let f := roundFloat64 (f1 - 1)
  let k : ℚ := ki
  let s := roundFloat64 (f / roundFloat64 (2 + f))
  let s2 := roundFloat64 (s * s)
  let s4 := roundFloat64 (s2 * s2)
  let t1 := roundFloat64 (s2 * roundFloat64 (L1 + roundFloat64 (s4 * roundFloat64 (L3
    + roundFloat64 (s4 * roundFloat64 (L5 + roundFloat64 (s4 * L7)))))))
  let t2 := roundFloat64 (s4 * roundFloat64 (L2 + roundFloat64 (s4 * roundFloat64 (L4
    + roundFloat64 (s4 * L6)))))
  let R := roundFloat64 (t1 + t2)
  let hfsq := roundFloat64 (roundFloat64 (1 / 2 * f) * f)
  roundFloat64 (roundFloat64 (k * Ln2Hi)
    - roundFloat64 (roundFloat64 (hfsq
        - roundFloat64 (roundFloat64 (s * roundFloat64 (hfsq + R)) + roundFloat64 (k * Ln2Lo)))
      - f))

/-- Go `math.Log2` (`log10.go`) for a positive finite `x`: exact when `x` is a power of
two, otherwise `Log(frac)*(1/Ln2) + float64(exp)`. -/
def mathLog2 (x : ℚ) : ℚ :=
  if (mathFrexp x).1 = 1 / 2 then (((mathFrexp x).2 - 1 : Int) : ℚ)
  else roundFloat64 (roundFloat64 (mathLog (mathFrexp x).1 * roundFloat64 (1 / Ln2))
    + (((mathFrexp x).2 : Int) : ℚ))

/-- Go `int(math.Log2(float64(size)))`, the width of the codewords of a dictionary of
`size` entries; the conversion to `int` drops the fraction. At `size = 0` Go converts
`-Inf`, whose result the language leaves open; the model gives 0 there. -/
def codelengthOf (size : Nat) : Nat :=
  if size = 0 then 0 else ⌊mathLog2 (roundFloat64 (size : ℚ))⌋.toNat

/-! ## Digram encoder (digramencoder.go) -/

structure DigramEncoder where
  Alphabet : List Rune
  Codewords : GoMap Str Str
  Size : Nat

/-- The map `valid` built from the alphabet in `digramFrequencies` and `cleanSource`. -/
def validMap (alphabet : List Rune) : GoMap Rune Bool :=
  alphabet.foldl (fun valid character => valid.set character true) []

/-- The loop of `digramFrequencies` over the positions `i < len(runes) - 1`. -/
def digramFrequenciesLoop (valid : GoMap Rune Bool) : List Rune → GoMap Str Nat → GoMap Str Nat
  | r1 :: r2 :: rest, frequencies =>
    let frequencies1 :=
      if valid.get r1 false && valid.get r2 false then
        let digram := runeString r1 ++ runeString r2
        frequencies.set digram (frequencies.get digram 0 + 1)
      else frequencies
    digramFrequenciesLoop valid (r2 :: rest) frequencies1
  | _, frequencies => frequencies

/-- Go `digramFrequencies`. -/
def digramFrequencies (text : Str) (alphabet : List Rune) : GoMap Str Nat :=
  digramFrequenciesLoop (validMap alphabet) (stringRunes text) []

/-- The inner loop of `mostFrequentDigrams`: scan for an entry of greatest frequency. -/
def maxScan : List (Str × Nat) → Str × Nat → Str × Nat
  | [], best => best
  | (digram, frequency) :: rest, (maxDigram, maxFrequency) =>
    if frequency > maxFrequency then maxScan rest (digram, frequency)
    else maxScan rest (maxDigram, maxFrequency)

/-- The outer loop of `mostFrequentDigrams`; every round appends one entry, so `limit`
rounds are enough fuel. -/
def mostFrequentLoop (ord : MapOrder) (limit : Int) :
    Nat → GoMap Str Nat → List Str → List Str
  | 0, _, mostFrequent => mostFrequent
  | fuel + 1, frequencies, mostFrequent =>
    if (mostFrequent.length : Int) < limit ∧ frequencies.length > 0 then
      let maxDigram := (maxScan (ord.range frequencies) ([], 0)).1
      mostFrequentLoop ord limit fuel (frequencies.delete maxDigram) (mostFrequent ++ [maxDigram])
    else mostFrequent

/-- Go `mostFrequentDigrams`. -/
def mostFrequentDigrams (ord : MapOrder) (limit : Int) (frequencies : GoMap Str Nat) :
    List Str :=
  let frequenciesCopy : GoMap Str Nat :=
    (ord.range frequencies).foldl (fun m e => m.set e.1 e.2) []
  mostFrequentLoop ord limit limit.toNat frequenciesCopy []

/-- One of the two codeword loops of `Digram`: the keys get the codewords of the
consecutive indices from `i` on. -/
def assignCodewords (dictionarySize : Nat) :
    List Str → Int → GoMap Str Str → Int × GoMap Str Str
  | [], i, codewords => (i, codewords)
  | key :: rest, i, codewords =>
    let codeword := padZeros (formatInt2 i) (codelengthOf dictionarySize)
    assignCodewords dictionarySize rest (i + 1) (codewords.set key codeword)

/-- Go `Digram`. -/
def Digram (ord : MapOrder) (alphabet : List Rune) (corpus : Str) (dictionarySize : Nat) :
    DigramEncoder :=
  let alphabetSize := alphabet.length
  let frequencies := digramFrequencies corpus alphabet
  let digrams := mostFrequentDigrams ord ((dictionarySize : Int) - alphabetSize) frequencies
  let (i, codewords) := assignCodewords dictionarySize (alphabet.map runeString) 0 []
  let (_, codewords) := assignCodewords dictionarySize digrams i codewords
  { Alphabet := alphabet, Codewords := codewords, Size := dictionarySize }

/-- The loop of `DigramEncoder.Encode` over the bytes from position `i` on. -/
def DigramEncoder.encodeLoop (e : DigramEncoder) : List Nat → Str
  | [] => []
  | [b] => e.Codewords.get (byteString b) []
  | b1 :: b2 :: rest =>
    let digram := byteString b1 ++ byteString b2
    if e.Codewords.get digram [] ≠ [] then
      e.Codewords.get digram [] ++ DigramEncoder.encodeLoop e rest
    else
      e.Codewords.get (byteString b1) [] ++ DigramEncoder.encodeLoop e (b2 :: rest)

/-- Go `DigramEncoder.Encode`. -/
def DigramEncoder.Encode (e : DigramEncoder) (source : Source) : Code :=
  e.encodeLoop (stringBytes source)

/-- The inverted table built at the start of both `Decode` methods. -/
def invertCodewords {κ : Type} (ord : MapOrder) (codewords : GoMap κ Str) : GoMap Str κ :=
  (ord.range codewords).foldl (fun decodewords e => decodewords.set e.2 e.1) []

/-- The loop of `DigramEncoder.Decode` on the code from position `i` on; the test
`i <= len(code) - step` reads `step <= len(code) - i`. -/
def digramDecodeLoop (decodewords : GoMap Str Str) (step : Nat) : Nat → Code → Option Str
  | 0, _ => none
  | fuel + 1, code =>
    if step ≤ code.length then
      (digramDecodeLoop decodewords step fuel (code.drop step)).map
        (fun out => decodewords.get (code.take step) [] ++ out)
    else some []

/-- Go `DigramEncoder.Decode`; `none` when the fuel does not suffice. -/
def DigramEncoder.Decode (ord : MapOrder) (fuel : Nat) (e : DigramEncoder) (code : Code) :
    Option Source :=
  digramDecodeLoop (invertCodewords ord e.Codewords) (codelengthOf e.Size) fuel code

/-! ## Prefix encoder (prefixencoder.go) -/

structure PrefixEncoder where
  Alphabet : List Rune
  Codewords : GoMap Rune Str

/-- Go `PrefixEncoder.Encode`. -/
def PrefixEncoder.Encode (e : PrefixEncoder) (source : Source) : Code :=
  (stringRunes source).flatMap (fun character => e.Codewords.get character [])

/-- The loop of `PrefixEncoder.Decode` over the runes of the code, with the
accumulated `codeword`. -/
def prefixDecodeLoop (decodewords : GoMap Str Rune) : List Rune → Str → Str
  | [], _ => []
  | character :: rest, codeword =>
    let codeword1 := codeword ++ runeString character
    if decodewords.get codeword1 0 ≠ 0 then
      runeString (decodewords.get codeword1 0) ++ prefixDecodeLoop decodewords rest []
    else prefixDecodeLoop decodewords rest codeword1

/-- Go `PrefixEncoder.Decode`. -/
def PrefixEncoder.Decode (ord : MapOrder) (e : PrefixEncoder) (code : Code) : Source :=
  prefixDecodeLoop (invertCodewords ord e.Codewords) (stringRunes code) []

/-! ## Huffman training (huffmanencoder.go) -/

/-- Go `*Node`: `nil`, or a node with its character (`-1` for a merged node), frequency
and children.  The field `index` is written by the queue and never read; it is left out. -/
inductive Node where
  | nil : Node
  | node (character : Rune) (frequency : Nat) (left right : Node) : Node
  deriving DecidableEq, Repr

/-- The field `frequency` (Go panics on `nil`; the queue never holds `nil`). -/
def Node.frequency : Node → Nat
  | .nil => 0
  | .node _ f _ _ => f

/-- Go `characterFrequencies`. -/
def characterFrequencies (text : Str) : GoMap Rune Nat :=
  (stringRunes text).foldl
    (fun frequencies character => frequencies.set character (frequencies.get character 0 + 1)) []

/-- Go `traverseHuffmanTree`, returning the updated map. -/
def traverseHuffmanTree : Node → GoMap Rune Str → Str → GoMap Rune Str
  | .nil, codewords, _ => codewords
  | .node character _ left right, codewords, codeword =>
    let codewords1 := if character ≠ -1 then codewords.set character codeword else codewords
    let codewords2 := traverseHuffmanTree left codewords1 (codeword ++ ['0'])
    traverseHuffmanTree right codewords2 (codeword ++ ['1'])

/-- Go `makeCodewords`. -/
def makeCodewords (huffmanTree : Node) : GoMap Rune Str :=
  traverseHuffmanTree huffmanTree [] []

/-- Go `type PriorityQueue []*Node`. -/
abbrev PriorityQueue := List Node

/-- Go `PriorityQueue.Less`. -/
def PriorityQueue.Less (pq : PriorityQueue) (i j : Nat) : Bool :=
  decide ((pq.getD i .nil).frequency < (pq.getD j .nil).frequency)

/-- Go `PriorityQueue.Swap`. -/
def PriorityQueue.Swap (pq : PriorityQueue) (i j : Nat) : PriorityQueue :=
  (pq.set i (pq.getD j .nil)).set j (pq.getD i .nil)

/-- Go `container/heap.up`; the position halves in every round. -/
def heapUp : Nat → PriorityQueue → Nat → PriorityQueue
  | 0, h, _ => h
  | fuel + 1, h, j =>
    let i := (j - 1) / 2
    if i = j ∨ !h.Less j i then h else heapUp fuel (h.Swap i j) i

/-- Go `container/heap.down`; the position grows in every round. -/
def heapDown : Nat → PriorityQueue → Nat → Nat → PriorityQueue
  | 0, h, _, _ => h
  | fuel + 1, h, i, n =>
    let j1 := 2 * i + 1
    if j1 ≥ n then h
    else
      let j := if j1 + 1 < n ∧ h.Less (j1 + 1) j1 then j1 + 1 else j1
      if !h.Less j i then h else heapDown fuel (h.Swap i j) j n

/-- Go `heap.Push(&queue, node)`: append, then sift up from the last position. -/
def heapPush (queue : PriorityQueue) (node : Node) : PriorityQueue :=
  let h := queue ++ [node]
  heapUp h.length h (h.length - 1)

/-- Go `heap.Pop(&queue)`: swap the first and last entries, sift down from the first
position among the others, remove and return the last; `none` on an empty queue, where
Go panics. -/
def heapPop (queue : PriorityQueue) : Option (Node × PriorityQueue) :=
  if queue.length = 0 then none
  else
    let n := queue.length - 1
    let h := heapDown queue.length (queue.Swap 0 n) 0 n
    some (h.getD n .nil, h.take n)

/-- The loop `for queue.Len() > 1` of `makeHuffmanTree`; every round shortens the queue
by one. -/
def mergeLoop : Nat → PriorityQueue → Option PriorityQueue
  | 0, _ => none
  | fuel + 1, queue =>
    if queue.length > 1 then
      match heapPop queue with
      | none => none
      | some (node1, queue1) =>
        match heapPop queue1 with
        | none => none
        | some (node2, queue2) =>
          let mergedNode := Node.node (-1) (node1.frequency + node2.frequency) node1 node2
          mergeLoop fuel (heapPush queue2 mergedNode)
    else some queue

/-- Go `makeHuffmanTree`; `none` where Go panics (empty alphabet). -/
def makeHuffmanTree (alphabet : List Rune) (frequencies : GoMap Rune Nat) : Option Node :=
  let nodes := alphabet.map (fun character =>
    Node.node character (frequencies.get character 0) .nil .nil)
  let queue := nodes.foldl heapPush []
  match mergeLoop (queue.length + 1) queue with
  | none => none
  | some queue1 => (heapPop queue1).map (fun r => r.1)

/-- Go `Huffman`; `none` where Go panics (empty alphabet). -/
def Huffman (alphabet : List Rune) (corpus : Str) : Option PrefixEncoder :=
  let frequencies := characterFrequencies corpus
  (makeHuffmanTree alphabet frequencies).map (fun tree =>
    { Alphabet := alphabet, Codewords := makeCodewords tree })

/-! ## LZW encoder (lzwencoder.go)

The calls of `fmt.Println` write to the standard output only and are left out. -/

structure LZWEncoder where
  Alphabet : List Rune
  InitialBits : Nat
  MaxBits : Nat
  CompressionThreshold : ℚ

def ResizeSignal : Int := 0

def FlushSignal : Int := 1

/-- Go `LZW`. -/
def LZW (alphabet : List Rune) (maxBits : Nat) (compressionThreshold : ℚ) : LZWEncoder :=
  { Alphabet := alphabet, InitialBits := 8, MaxBits := maxBits,
    CompressionThreshold := compressionThreshold }

/-- Go `cleanSource`. -/
def cleanSource (source : Source) (alphabet : List Rune) : Source :=
  ((stringRunes source).filter (fun character => (validMap alphabet).get character false)).flatMap
    runeString

/-- Go `int(math.Pow(2, float64(n)))`. -/
def pow2 (n : Nat) : Int :=
  2 ^ n

/-- The dictionary with which `Encode` starts and to which a flush returns, and the next
free index. -/
def initialDictionary (alphabet : List Rune) : Int × GoMap Str Int :=
  alphabet.foldl
    (fun st character => (st.1 + 1, st.2.set (runeString character) st.1)) (2, [])

/-- The dictionaries with which `Decode` starts, and the next free index. -/
def initialDictionaries (alphabet : List Rune) : Int × GoMap Str Int × GoMap Int Str :=
  alphabet.foldl
    (fun st character =>
      (st.1 + 1, st.2.1.set (runeString character) st.1, st.2.2.set st.1 (runeString character)))
    (2, [], [])

/-- Go `pattern[0 : len(pattern)-1]`, a cut by bytes: the pattern without its last
character when that character is a single byte; otherwise the cut falls inside a
character, the result is not valid UTF-8 and equals no key of the dictionary (`none`). -/
def dropLastByte (pattern : Str) : Option Str :=
  match pattern.getLast? with
  | some c => if c.toNat < 0x80 then some pattern.dropLast else none
  | none => none

/-- The variables of the loop of `LZWEncoder.Encode`. -/
structure EncodeState where
  pointer : Int
  dictionary : GoMap Str Int
  uncompressedSize : ℚ
  compressedSize : ℚ
  codelength : Nat
  sb : Str
  pattern : Str

/-- The body of `if dictionary[pattern] == 0` in `LZWEncoder.Encode`, up to
`pattern = ""`. -/
def encodeMiss (e : LZWEncoder) (st : EncodeState) : EncodeState :=
  let st1 :=
    if st.codelength < e.MaxBits ∧ st.pointer ≥ pow2 st.codelength - 2 then
      { st with sb := st.sb ++ intToCodeword ResizeSignal st.codelength,
                codelength := st.codelength + 1 }
    else st
  let st2 :=
    if st1.pointer < pow2 st1.codelength - 2 then
      { st1 with dictionary := st1.dictionary.set st1.pattern st1.pointer,
                 pointer := st1.pointer + 1 }
    else st1
  let entry := dropLastByte st2.pattern
  let index :=
    match entry with
    | some entry => st2.dictionary.get entry 0
    | none => 0
  let codeword := intToCodeword index st2.codelength
  let st3 := { st2 with sb := st2.sb ++ codeword }
  let st4 :=
    if decide (st3.pointer ≥ pow2 e.MaxBits - 2) && false then
      let uncompressedSize :=
        st3.uncompressedSize + 8 * (((stringBytes st3.pattern).length - 1 : Nat) : ℚ)
      let compressedSize := st3.compressedSize + (st3.codelength : ℚ)
      let compressionRatio := uncompressedSize / compressedSize
      let st31 := { st3 with uncompressedSize := uncompressedSize,
                             compressedSize := compressedSize }
      let st32 :=
        if compressionRatio < e.CompressionThreshold then
          { st31 with sb := st31.sb ++ intToCodeword FlushSignal st31.codelength,
                      pointer := (initialDictionary e.Alphabet).1,
                      dictionary := (initialDictionary e.Alphabet).2 }
        else st31
      { st32 with codelength := e.InitialBits }
    else st3
  { st4 with pattern := [] }

/-- The loop of `LZWEncoder.Encode` at position `i`.  After a miss the Go code sets
`i = i - 1` and the loop statement `i++` restores `i`. -/
def lzwEncodeLoop (e : LZWEncoder) (characters : List Nat) :
    Nat → Nat → EncodeState → Option Str
  | 0, _, _ => none
  | fuel + 1, i, st =>
    match characters[i]? with
    | none => some st.sb
    | some b =>
      let st1 := { st with pattern := st.pattern ++ byteString b }
      if st1.dictionary.get st1.pattern 0 = 0 then
        lzwEncodeLoop e characters fuel i (encodeMiss e st1)
      else lzwEncodeLoop e characters fuel (i + 1) st1

/-- Go `LZWEncoder.Encode`; `none` when the fuel does not suffice. -/
def LZWEncoder.Encode (fuel : Nat) (e : LZWEncoder) (source : Source) : Option Code :=
  let characters := stringBytes (cleanSource source e.Alphabet)
  lzwEncodeLoop e characters fuel 0
    { pointer := (initialDictionary e.Alphabet).1,
      dictionary := (initialDictionary e.Alphabet).2,
      uncompressedSize := 1, compressedSize := 1,
      codelength := e.InitialBits, sb := [], pattern := [] }

/-- The variables of the loop of `LZWEncoder.Decode`. -/
structure DecodeState where
  pointer : Int
  dictionary : GoMap Str Int
  reverseDictionary : GoMap Int Str
  codelength : Nat
  sb : Str
  pattern : Str

/-- The loop `for _, character := range entry` of `Decode` (entry found). -/
def decodeFound : List Rune → DecodeState → DecodeState
  | [], st => st
  | character :: rest, st =>
    let pattern := st.pattern ++ runeString character
    match st.dictionary.find? pattern with
    | some _ => decodeFound rest { st with pattern := pattern }
    | none =>
      decodeFound rest
        { st with dictionary := st.dictionary.set pattern st.pointer,
                  reverseDictionary := st.reverseDictionary.set st.pointer pattern,
                  pointer := st.pointer + 1,
                  pattern := runeString character }

/-- The loop `for _, character := range pattern` of `Decode` (entry not found); the
runes are those of the pattern at the start of the loop. -/
def decodeWild : List Rune → DecodeState → DecodeState
  | [], st => st
  | character :: rest, st =>
    let pattern := st.pattern ++ runeString character
    match st.dictionary.find? pattern with
    | some _ => decodeWild rest { st with pattern := pattern }
    | none =>
      decodeWild rest
        { st with dictionary := st.dictionary.set pattern st.pointer,
                  reverseDictionary := st.reverseDictionary.set st.pointer pattern,
                  pointer := st.pointer + 1,
                  sb := st.sb ++ pattern,
                  pattern := runeString character }

/-- The loop of `LZWEncoder.Decode` on the code from position `i` on.  After a resize
the Go code sets `i--` and the loop statement adds the new width, which advances by the
old width; after a flush the loop statement adds `InitialBits`. -/
def lzwDecodeLoop (e : LZWEncoder) : Nat → Code → DecodeState → Option Str
  | 0, _, _ => none
  | fuel + 1, code, st =>
    if st.codelength ≤ code.length then
      let codeword := code.take st.codelength
      let index := (parseInt2 codeword).1
      if index = ResizeSignal then
        lzwDecodeLoop e fuel (code.drop st.codelength) { st with codelength := st.codelength + 1 }
      else if index = FlushSignal then
        lzwDecodeLoop e fuel (code.drop e.InitialBits)
          { st with pointer := (initialDictionaries e.Alphabet).1,
                    dictionary := (initialDictionaries e.Alphabet).2.1,
                    reverseDictionary := (initialDictionaries e.Alphabet).2.2,
                    codelength := e.InitialBits }
      else
        match st.reverseDictionary.find? index with
        | some entry =>
          let st1 := decodeFound (stringRunes entry) { st with sb := st.sb ++ entry }
          lzwDecodeLoop e fuel (code.drop st1.codelength) st1
        | none =>
          let st1 := decodeWild (stringRunes st.pattern) st
          lzwDecodeLoop e fuel (code.drop st1.codelength) st1
    else some st.sb

/-- Go `LZWEncoder.Decode`; `none` when the fuel does not suffice. -/
def LZWEncoder.Decode (fuel : Nat) (e : LZWEncoder) (code : Code) : Option Source :=
  lzwDecodeLoop e fuel code
    { pointer := (initialDictionaries e.Alphabet).1,
      dictionary := (initialDictionaries e.Alphabet).2.1,
      reverseDictionary := (initialDictionaries e.Alphabet).2.2,
      codelength := e.InitialBits, sb := [], pattern := [] }

/-! ## Persisted form of a code (tamp.go) -/

/-- The loop of `WriteCode` on the code from position `i` on: every group of 8
characters is parsed and written as one byte; `none` when `ParseInt` returns an error
(and when the fuel runs out, which the fuel given by `WriteCode` never does). -/
def writeLoop : Nat → Code → Option (List Nat)
  | 0, _ => none
  | fuel + 1, code =>
    if 8 ≤ code.length then
      let r := parseInt2 (code.take 8)
      if r.2 then none
      else (writeLoop fuel (code.drop 8)).map (fun bytes => (r.1 % 256).toNat :: bytes)
    else some []

/-- The bytes that Go `WriteCode` passes to `os.WriteFile`; `none` when it returns the
error of `ParseInt`. -/
def WriteCode (code : Code) : Option (List Nat) :=
  let step := 8
  let code1 :=
    if code.length % step > 0 then code ++ List.replicate (step - code.length % step) '0'
    else code
  writeLoop (code1.length + 1) code1

/-- The code that Go `ReadCode` builds from the bytes returned by `os.ReadFile`. -/
def ReadCode (data : List Nat) : Code :=
  data.flatMap (fun b =>
    let code := formatInt2 (b : Int)
    let step := 8
    if code.length % step > 0 then List.replicate (step - code.length % step) '0' ++ code
    else code)

/-! ## Auxiliary notions used in the statements and proofs -/

/-- Invariant of the codeword table while `Digram` fills it: distinct keys, every
codeword is that of an index below `i`, and distinct keys have distinct codewords. -/
def TableInv (w i : Nat) (T : GoMap Str Str) : Prop :=
  (T.map Prod.fst).Nodup ∧
  (∀ k v, T.find? k = some v → ∃ j : Nat, j < i ∧ v = intToCodeword (j : Int) w) ∧
  (∀ k1 k2 v, T.find? k1 = some v → T.find? k2 = some v → k1 = k2)

/-- The table keys that the greedy scan of `DigramEncoder.Encode` looks up, in order: a
digram where the table has one, a single symbol otherwise. -/
def digramParse (e : DigramEncoder) : List Nat → List Str
  | [] => []
  | [b] => [byteString b]
  | b1 :: b2 :: rest =>
    if e.Codewords.get (byteString b1 ++ byteString b2) [] ≠ [] then
      (byteString b1 ++ byteString b2) :: digramParse e rest
    else byteString b1 :: digramParse e (b2 :: rest)

/-- The pairs of a character and its path that `traverseHuffmanTree` records, in the
order of the traversal, for a subtree reached by the path `codeword`. -/
def treeCodes : Node → Str → List (Rune × Str)
  | .nil, _ => []
  | .node character _ left right, codeword =>
    (if character ≠ -1 then [(character, codeword)] else [])
      ++ treeCodes left (codeword ++ ['0']) ++ treeCodes right (codeword ++ ['1'])

/-- The characters of the nodes of a tree that are not marked `-1`, in the order of the
traversal. -/
def treeSymbols : Node → List Rune
  | .nil => []
  | .node character _ left right =>
    (if character ≠ -1 then [character] else []) ++ treeSymbols left ++ treeSymbols right

/-- The trees that `makeHuffmanTree` builds: a leaf carries a character and no child, a
merged node carries the marker `-1` and two children. -/
inductive FullTree : Node → Prop
  | leaf (c : Rune) (f : Nat) : c ≠ -1 → FullTree (.node c f .nil .nil)
  | inner (f : Nat) (l r : Node) : FullTree l → FullTree r → FullTree (.node (-1) f l r)

/-- One round of the loop of `LZWEncoder.Encode` at position `i`: the next position and
state, `none` when the loop has ended. -/
def lzwEncodeStep (e : LZWEncoder) (characters : List Nat) (i : Nat) (st : EncodeState) :
    Option (Nat × EncodeState) :=
  match characters[i]? with
  | none => none
  | some b =>
    let st1 := { st with pattern := st.pattern ++ byteString b }
    if st1.dictionary.get st1.pattern 0 = 0 then some (i, encodeMiss e st1)
    else some (i + 1, st1)

/-- The position and state after `n` rounds of the loop of `LZWEncoder.Encode` (fewer
when the loop ends before). -/
def lzwEncodeIter (e : LZWEncoder) (characters : List Nat) :
    Nat → Nat × EncodeState → Nat × EncodeState
  | 0, s => s
  | n + 1, s =>
    match lzwEncodeStep e characters s.1 s.2 with
    | none => s
    | some s1 => lzwEncodeIter e characters n s1

/-- The state in which the loop of `LZWEncoder.Encode` starts. -/
def lzwEncodeStart (e : LZWEncoder) : EncodeState :=
  { pointer := (initialDictionary e.Alphabet).1,
    dictionary := (initialDictionary e.Alphabet).2,
    uncompressedSize := 1, compressedSize := 1,
    codelength := e.InitialBits, sb := [], pattern := [] }

/-- The measure of the loop of `LZWEncoder.Encode` on an input of `len` bytes: twice the
number of bytes not yet passed, plus 1 when the pattern buffer is not empty. -/
def lzwMeasure (len : Nat) (s : Nat × EncodeState) : Nat :=
  2 * (len - s.1) + (if s.2.pattern = [] then 0 else 1)

/-- The quantity `2 * (len - i) + (1 if the pattern buffer is empty else 0)`. -/
def lzwEmptyMeasure (len : Nat) (s : Nat × EncodeState) : Nat :=
  2 * (len - s.1) + (if s.2.pattern = [] then 1 else 0)

/-- The frequency of the node at position `i` of the queue, the key that `Less` compares. -/
def queueKey (h : PriorityQueue) (i : Nat) : Nat :=
  (h.getD i .nil).frequency

/-- The first `n` positions of the queue form a binary min-heap: no node has a smaller
key than its parent, the node at position `(k - 1) / 2`. -/
def HeapUpTo (n : Nat) (h : PriorityQueue) : Prop :=
  ∀ k, 0 < k → k < n → queueKey h ((k - 1) / 2) ≤ queueKey h k

/-- The queue is a binary min-heap. -/
def IsHeap (h : PriorityQueue) : Prop :=
  HeapUpTo h.length h

/-- The length of the path that `traverseHuffmanTree` records for the character `x` in the
tree `t`, when it records one. -/
def codeDepth (t : Node) (x : Rune) : Option Nat :=
  (GoMap.find? (treeCodes t []) x).map List.length

/-! ## Lemmas on maps -/

namespace GoMap

variable {κ ν : Type} [DecidableEq κ]

theorem find?_set_self (m : GoMap κ ν) (k : κ) (v : ν) : (m.set k v).find? k = some v := by
  induction m with
  | nil => simp [set, find?]
  | cons p rest ih =>
    obtain ⟨k', v'⟩ := p
    by_cases h : k' = k
    · simp [set, find?, h]
    · simp [set, find?, h, ih]

theorem find?_set_ne (m : GoMap κ ν) (k k' : κ) (v : ν) (h : k ≠ k') :
    (m.set k v).find? k' = m.find? k' := by
  induction m with
  | nil => simp [set, find?, h]
  | cons p rest ih =>
    obtain ⟨k0, v0⟩ := p
    by_cases h0 : k0 = k
    · subst h0
      simp [set, find?, h]
    · by_cases h1 : k0 = k'
      · subst h1
        simp [set, find?, h0]
      · simp [set, find?, h0, h1, ih]

theorem find?_eq_none_iff (m : GoMap κ ν) (k : κ) :
    m.find? k = none ↔ ∀ p ∈ m, p.1 ≠ k := by
  induction m with
  | nil => simp [find?]
  | cons p rest ih =>
    obtain ⟨k0, v0⟩ := p
    by_cases h0 : k0 = k
    · simp [find?, h0]
    · simp [find?, h0, ih]

theorem mem_of_find? (m : GoMap κ ν) (k : κ) (v : ν) (h : m.find? k = some v) :
    (k, v) ∈ m := by
  induction m with
  | nil => simp [find?] at h
  | cons p rest ih =>
    obtain ⟨k0, v0⟩ := p
    by_cases h0 : k0 = k
    · simp [find?, h0] at h
      simp [h0, h]
    · simp [find?, h0] at h
      simp [ih h]

end GoMap

theorem validMap_get_aux (alphabet : List Rune) (m : GoMap Rune Bool) (r : Rune) :
    (alphabet.foldl (fun valid character => valid.set character true) m).get r false
      = (decide (r ∈ alphabet) || m.get r false) := by
  induction alphabet generalizing m with
  | nil => simp
  | cons a rest ih =>
    rw [List.foldl_cons, ih]
    by_cases h : a = r
    · subst h
      simp [GoMap.get, GoMap.find?_set_self]
    · have h2 : ¬ r = a := fun e => h e.symm
      simp [GoMap.get, GoMap.find?_set_ne _ _ _ _ h, h2]

theorem validMap_get (alphabet : List Rune) (r : Rune) :
    (validMap alphabet).get r false = decide (r ∈ alphabet) := by
  unfold validMap
  rw [validMap_get_aux]
  simp [GoMap.get, GoMap.find?]

theorem runeString_char (c : Char) : runeString (c.toNat : Int) = [c] := by
  have hv : c.toNat.isValidChar := c.valid
  simp [runeString, hv, Char.ofNat_toNat]

theorem flatMap_runeString_stringRunes (s : Str) :
    (stringRunes s).flatMap runeString = s := by
  induction s with
  | nil => rfl
  | cons c rest ih =>
    simp only [stringRunes, List.map_cons, List.flatMap_cons] at ih ⊢
    rw [ih, runeString_char]
    rfl

theorem cleanSource_eq_filter (source : Source) (alphabet : List Rune) :
    cleanSource source alphabet
      = source.filter (fun c => decide ((c.toNat : Int) ∈ alphabet)) := by
  unfold cleanSource
  have hv : (fun character => (validMap alphabet).get character false)
      = fun character => decide (character ∈ alphabet) := funext (validMap_get alphabet)
  rw [hv]
  induction source with
  | nil => rfl
  | cons c rest ih =>
    simp only [stringRunes, List.map_cons] at ih ⊢
    by_cases h : ((c.toNat : Int) ∈ alphabet)
    · simp only [List.filter_cons, h, decide_True, if_true, List.flatMap_cons,
        runeString_char]
      rw [ih]
      rfl
    · simp only [List.filter_cons, h, decide_False]
      simpa using ih

/-! ## Lemmas on binary numerals -/

theorem binValue_append (a b : Str) (acc : Nat) :
    binValue (a ++ b) acc = (binValue a acc).bind (fun x => binValue b x) := by
  induction a generalizing acc with
  | nil => simp [binValue]
  | cons c rest ih =>
    by_cases h0 : c = '0'
    · simp [binValue, h0, ih]
    · by_cases h1 : c = '1'
      · simp [binValue, h1, ih]
      · simp [binValue, h0, h1]

theorem binValue_digitChar (d acc : Nat) (hd : d < 2) :
    binValue [digitChar d] acc = some (2 * acc + d) := by
  have : d = 0 ∨ d = 1 := by omega
  rcases this with h | h <;> subst h <;> simp [binValue, digitChar]

theorem binValue_binDigits (fuel n : Nat) (h : n < fuel) :
    binValue (binDigits fuel n) 0 = some n := by
  induction fuel generalizing n with
  | zero => omega
  | succ f ih =>
    unfold binDigits
    by_cases h2 : n < 2
    · simp only [h2, if_true]
      rw [binValue_digitChar _ _ h2]
      simp
    · simp only [h2, if_false]
      rw [binValue_append, ih (n / 2) (by omega)]
      show binValue [digitChar (n % 2)] (n / 2) = some n
      rw [binValue_digitChar _ _ (Nat.mod_lt _ (by omega))]
      congr 1
      omega

theorem binValue_replicate_zero (k : Nat) (s : Str) :
    binValue (List.replicate k '0' ++ s) 0 = binValue s 0 := by
  induction k with
  | zero => simp
  | succ k ih => simp [List.replicate_succ, binValue, ih]

theorem binValue_padZeros (s : Str) (w : Nat) : binValue (padZeros s w) 0 = binValue s 0 := by
  unfold padZeros
  split
  · exact binValue_replicate_zero _ _
  · rfl

theorem formatInt2_natCast (n : Nat) : formatInt2 (n : Int) = binDigits (n + 1) n := by
  unfold formatInt2
  have : ¬ ((n : Int) < 0) := by omega
  simp [this]

theorem binValue_intToCodeword (n w : Nat) : binValue (intToCodeword (n : Int) w) 0 = some n := by
  unfold intToCodeword
  rw [binValue_padZeros, formatInt2_natCast]
  exact binValue_binDigits _ _ (by omega)

theorem binDigits_length_le (fuel n w : Nat) (hw : 1 ≤ w) (hn : n < 2 ^ w) :
    (binDigits fuel n).length ≤ w := by
  induction fuel generalizing n w with
  | zero => simp [binDigits]
  | succ f ih =>
    unfold binDigits
    by_cases h2 : n < 2
    · simp [h2, hw]
    · simp only [h2, if_false, List.length_append, List.length_singleton]
      obtain ⟨v, rfl⟩ : ∃ v, w = v + 1 := ⟨w - 1, by omega⟩
      have hv : 1 ≤ v := by
        rcases Nat.eq_zero_or_pos v with h0 | h0
        · subst h0
          simp at hn
          omega
        · exact h0
      have := ih (n / 2) v hv (by rw [pow_succ] at hn; omega)
      omega

theorem padZeros_length (s : Str) (w : Nat) (h : s.length ≤ w) : (padZeros s w).length = w := by
  unfold padZeros
  split
  · simp
    omega
  · omega

theorem intToCodeword_length (n w : Nat) (hw : 1 ≤ w) (hn : n < 2 ^ w) :
    (intToCodeword (n : Int) w).length = w := by
  unfold intToCodeword
  apply padZeros_length
  rw [formatInt2_natCast]
  exact binDigits_length_le _ _ _ hw hn

theorem intToCodeword_injective (n m w : Nat)
    (h : intToCodeword (n : Int) w = intToCodeword (m : Int) w) : n = m := by
  have h1 := binValue_intToCodeword n w
  rw [h, binValue_intToCodeword] at h1
  exact (Option.some.inj h1).symm

theorem floorLog2_pow (fuel w : Nat) (h : w < fuel) : floorLog2 fuel (2 ^ w) = w := by
  induction w generalizing fuel with
  | zero =>
    cases fuel with
    | zero => omega
    | succ f => simp [floorLog2]
  | succ v ih =>
    cases fuel with
    | zero => omega
    | succ f =>
      unfold floorLog2
      have h2 : ¬ (2 ^ (v + 1) < 2) := by
        have : 1 ≤ 2 ^ v := Nat.one_le_two_pow
        rw [pow_succ]
        omega
      have h3 : 2 ^ (v + 1) / 2 = 2 ^ v := by
        rw [pow_succ]
        omega
      simp only [h2, if_false, h3]
      rw [ih f (by omega)]

/-! ## The codeword width -/

theorem floorLog2_spec (fuel : Nat) :
    ∀ n : Nat, 1 ≤ n → n ≤ fuel →
      2 ^ floorLog2 fuel n ≤ n ∧ n < 2 ^ (floorLog2 fuel n + 1) := by
  induction fuel with
  | zero => intro n h1 h2; omega
  | succ f ih =>
    intro n h1 h2
    unfold floorLog2
    by_cases h : n < 2
    · simp only [h, if_true]
      constructor
      · simpa using h1
      · simpa using h
    · simp only [h, if_false]
      obtain ⟨a, b⟩ := ih (n / 2) (by omega) (by omega)
      constructor
      · rw [pow_succ]
        omega
      · rw [pow_succ]
        omega

/-! ## Rounding to `float64` -/

theorem abs_eq_natAbs_div_den (q : ℚ) : |q| = (q.num.natAbs : ℚ) / (q.den : ℚ) := by
  have h := Rat.num_div_den q
  have hd : (0 : ℚ) < q.den := by exact_mod_cast q.den_pos
  rw [Nat.cast_natAbs, Int.cast_abs]
  conv_lhs => rw [← h]
  rw [abs_div, abs_of_pos hd]

theorem binaryExponent_spec (q : ℚ) (hq : q ≠ 0) :
    (2 : ℚ) ^ binaryExponent q ≤ |q| ∧ |q| < (2 : ℚ) ^ (binaryExponent q + 1) := by
  have hnum : 1 ≤ q.num.natAbs := by
    have : q.num ≠ 0 := Rat.num_ne_zero.2 hq
    omega
  have hden : 1 ≤ q.den := q.den_pos
  obtain ⟨a1, a2⟩ := floorLog2_spec q.num.natAbs q.num.natAbs hnum (le_refl _)
  obtain ⟨b1, b2⟩ := floorLog2_spec q.den q.den hden (le_refl _)
  have habs := abs_eq_natAbs_div_den q
  have hd : (0 : ℚ) < q.den := by exact_mod_cast q.den_pos
  have a1q : (2 : ℚ) ^ floorLog2 q.num.natAbs q.num.natAbs ≤ (q.num.natAbs : ℚ) := by
    exact_mod_cast a1
  have a2q : (q.num.natAbs : ℚ) < (2 : ℚ) ^ (floorLog2 q.num.natAbs q.num.natAbs + 1) := by
    exact_mod_cast a2
  have b1q : (2 : ℚ) ^ floorLog2 q.den q.den ≤ (q.den : ℚ) := by exact_mod_cast b1
  have b2q : (q.den : ℚ) < (2 : ℚ) ^ (floorLog2 q.den q.den + 1) := by exact_mod_cast b2
  have h2 : (0 : ℚ) < 2 := by norm_num
  have hp : ∀ n : Nat, (0 : ℚ) < 2 ^ n := fun n => pow_pos h2 n
  -- bounds with the difference of the two logarithms
  have up : |q| < (2 : ℚ) ^ (((floorLog2 q.num.natAbs q.num.natAbs : Int)
      - (floorLog2 q.den q.den : Int)) + 1) := by
    rw [habs, show ((floorLog2 q.num.natAbs q.num.natAbs : Int) - (floorLog2 q.den q.den : Int)) + 1
      = ((floorLog2 q.num.natAbs q.num.natAbs + 1 : Nat) : Int) - ((floorLog2 q.den q.den : Nat) : Int)
      by push_cast; ring]
    rw [zpow_sub₀ (by norm_num : (2 : ℚ) ≠ 0), zpow_natCast, zpow_natCast]
    rw [div_lt_div_iff₀ hd (hp _)]
    calc (q.num.natAbs : ℚ) * 2 ^ floorLog2 q.den q.den
        ≤ (q.num.natAbs : ℚ) * q.den := by
          apply mul_le_mul_of_nonneg_left b1q
          exact Nat.cast_nonneg _
      _ < 2 ^ (floorLog2 q.num.natAbs q.num.natAbs + 1) * q.den := by
          apply mul_lt_mul_of_pos_right a2q hd
  have lo : (2 : ℚ) ^ (((floorLog2 q.num.natAbs q.num.natAbs : Int)
      - (floorLog2 q.den q.den : Int)) - 1) ≤ |q| := by
    rw [habs, show ((floorLog2 q.num.natAbs q.num.natAbs : Int) - (floorLog2 q.den q.den : Int)) - 1
      = ((floorLog2 q.num.natAbs q.num.natAbs : Nat) : Int) - ((floorLog2 q.den q.den + 1 : Nat) : Int)
      by push_cast; ring]
    rw [zpow_sub₀ (by norm_num : (2 : ℚ) ≠ 0), zpow_natCast, zpow_natCast]
    rw [div_le_div_iff₀ (hp _) hd]
    calc (2 : ℚ) ^ floorLog2 q.num.natAbs q.num.natAbs * q.den
        ≤ (q.num.natAbs : ℚ) * q.den := by
          apply mul_le_mul_of_nonneg_right a1q (le_of_lt hd)
      _ ≤ (q.num.natAbs : ℚ) * 2 ^ (floorLog2 q.den q.den + 1) := by
          apply mul_le_mul_of_nonneg_left (le_of_lt b2q)
          exact Nat.cast_nonneg _
  unfold binaryExponent
  simp only
  split
  · rename_i h
    exact ⟨h, up⟩
  · rename_i h
    refine ⟨lo, ?_⟩
    rw [sub_add_cancel]
    exact lt_of_not_le h

theorem binaryExponent_ge (q : ℚ) (hq : q ≠ 0) (e : Int) (h : (2 : ℚ) ^ e ≤ |q|) :
    e ≤ binaryExponent q := by
  have h1 := (binaryExponent_spec q hq).2
  have h2 : (2 : ℚ) ^ e < (2 : ℚ) ^ (binaryExponent q + 1) := lt_of_le_of_lt h h1
  have := (zpow_lt_zpow_iff_right₀ (by norm_num : (1 : ℚ) < 2)).1 h2
  omega

theorem binaryExponent_le (q : ℚ) (hq : q ≠ 0) (e : Int) (h : |q| < (2 : ℚ) ^ (e + 1)) :
    binaryExponent q ≤ e := by
  have h1 := (binaryExponent_spec q hq).1
  have h2 : (2 : ℚ) ^ binaryExponent q < (2 : ℚ) ^ (e + 1) := lt_of_le_of_lt h1 h
  have := (zpow_lt_zpow_iff_right₀ (by norm_num : (1 : ℚ) < 2)).1 h2
  omega

theorem roundHalfEven_floor_le (q : ℚ) : ⌊q⌋ ≤ roundHalfEven q := by
  unfold roundHalfEven
  split
  · exact le_refl _
  · split
    · omega
    · split
      · exact le_refl _
      · omega

theorem roundHalfEven_err (q : ℚ) : |(roundHalfEven q : ℚ) - q| ≤ 1 / 2 := by
  have h1 := Int.floor_le q
  have h2 := Int.lt_floor_add_one q
  unfold roundHalfEven
  rw [abs_le]
  split
  · rename_i h
    constructor <;> linarith
  · rename_i h
    split
    · rename_i h3
      push_cast
      constructor <;> linarith
    · rename_i h3
      have he : q - ⌊q⌋ = 1 / 2 := le_antisymm (not_lt.1 h3) (not_lt.1 h)
      split
      · constructor <;> linarith
      · push_cast
        constructor <;> linarith

theorem roundHalfEven_intCast (n : Int) : roundHalfEven (n : ℚ) = n := by
  unfold roundHalfEven
  rw [Int.floor_intCast, sub_self, if_pos (by norm_num)]

theorem roundFloat64_err (q : ℚ) : |roundFloat64 q - q| ≤ |q| / 2 ^ 53 := by
  unfold roundFloat64
  by_cases hq : q = 0
  · rw [if_pos hq, hq]
    simp
  · rw [if_neg hq]
    have hs := (binaryExponent_spec q hq).1
    have hp : (0 : ℚ) < 2 ^ (binaryExponent q - 52) := zpow_pos (by norm_num) _
    have herr := roundHalfEven_err (q / 2 ^ (binaryExponent q - 52))
    have heq : (roundHalfEven (q / 2 ^ (binaryExponent q - 52)) : ℚ) * 2 ^ (binaryExponent q - 52) - q
        = ((roundHalfEven (q / 2 ^ (binaryExponent q - 52)) : ℚ) - q / 2 ^ (binaryExponent q - 52))
          * 2 ^ (binaryExponent q - 52) := by
      field_simp
    rw [heq, abs_mul, abs_of_pos hp]
    have h53 : (2 : ℚ) ^ (binaryExponent q - 52) = 2 ^ binaryExponent q / 2 ^ 52 := by
      rw [zpow_sub₀ (by norm_num : (2 : ℚ) ≠ 0)]
      norm_num
    calc |(roundHalfEven (q / 2 ^ (binaryExponent q - 52)) : ℚ) - q / 2 ^ (binaryExponent q - 52)|
          * 2 ^ (binaryExponent q - 52)
        ≤ 1 / 2 * 2 ^ (binaryExponent q - 52) := mul_le_mul_of_nonneg_right herr (le_of_lt hp)
      _ = 2 ^ binaryExponent q / 2 ^ 53 := by rw [h53]; ring
      _ ≤ |q| / 2 ^ 53 := by
          apply div_le_div_of_nonneg_right hs
          norm_num

theorem roundFloat64_abs_le (q B B1 : ℚ) (h : |q| ≤ B) (hB : B * (1 + 1 / 2 ^ 53) ≤ B1) :
    |roundFloat64 q| ≤ B1 := by
  have herr := roundFloat64_err q
  have h1 : |roundFloat64 q| ≤ |roundFloat64 q - q| + |q| := by
    have := abs_add (roundFloat64 q - q) q
    simpa using this
  have h2 : |q| / 2 ^ 53 ≤ B / 2 ^ 53 := div_le_div_of_nonneg_right h (by norm_num)
  have : B * (1 + 1 / 2 ^ 53) = B + B / 2 ^ 53 := by ring
  linarith

theorem roundFloat64_ge (q : ℚ) (hq : 0 ≤ q) : q * (1 - 1 / 2 ^ 53) ≤ roundFloat64 q := by
  have herr := roundFloat64_err q
  rw [abs_of_nonneg hq, abs_le] at herr
  have : q * (1 - 1 / 2 ^ 53) = q - q / 2 ^ 53 := by ring
  linarith

theorem roundFloat64_le (q : ℚ) (hq : 0 ≤ q) : roundFloat64 q ≤ q * (1 + 1 / 2 ^ 53) := by
  have herr := roundFloat64_err q
  rw [abs_of_nonneg hq, abs_le] at herr
  have : q * (1 + 1 / 2 ^ 53) = q + q / 2 ^ 53 := by ring
  linarith

/-- Rounding does not leave the binade: a positive `q` is not rounded below the power of
two under it. -/
theorem roundFloat64_ge_pow (q : ℚ) (hq : 0 < q) : (2 : ℚ) ^ binaryExponent q ≤ roundFloat64 q := by
  unfold roundFloat64
  rw [if_neg (ne_of_gt hq)]
  have hs := (binaryExponent_spec q (ne_of_gt hq)).1
  rw [abs_of_pos hq] at hs
  have hp : (0 : ℚ) < 2 ^ (binaryExponent q - 52) := zpow_pos (by norm_num) _
  have hy : (((2 : Int) ^ 52 : Int) : ℚ) ≤ q / 2 ^ (binaryExponent q - 52) := by
    rw [le_div_iff₀ hp]
    have : (((2 : Int) ^ 52 : Int) : ℚ) * 2 ^ (binaryExponent q - 52) = 2 ^ binaryExponent q := by
      rw [zpow_sub₀ (by norm_num : (2 : ℚ) ≠ 0)]
      push_cast
      field_simp
      ring
    rw [this]
    exact hs
  have hr : ((2 : Int) ^ 52 : Int) ≤ roundHalfEven (q / 2 ^ (binaryExponent q - 52)) :=
    le_trans (Int.le_floor.2 hy) (roundHalfEven_floor_le _)
  have hr2 : (((2 : Int) ^ 52 : Int) : ℚ) ≤ (roundHalfEven (q / 2 ^ (binaryExponent q - 52)) : ℚ) := by
    exact_mod_cast hr
  calc (2 : ℚ) ^ binaryExponent q
      = (((2 : Int) ^ 52 : Int) : ℚ) * 2 ^ (binaryExponent q - 52) := by
        rw [zpow_sub₀ (by norm_num : (2 : ℚ) ≠ 0)]
        push_cast
        field_simp
        ring
    _ ≤ _ := mul_le_mul_of_nonneg_right hr2 (le_of_lt hp)

theorem binaryExponent_pow (w : Int) : binaryExponent ((2 : ℚ) ^ w) = w := by
  have hne : (2 : ℚ) ^ w ≠ 0 := ne_of_gt (zpow_pos (by norm_num) _)
  have habs : |(2 : ℚ) ^ w| = 2 ^ w := abs_of_pos (zpow_pos (by norm_num) _)
  apply le_antisymm
  · apply binaryExponent_le _ hne
    rw [habs]
    exact (zpow_lt_zpow_iff_right₀ (by norm_num : (1 : ℚ) < 2)).2 (by omega)
  · apply binaryExponent_ge _ hne
    rw [habs]

theorem roundFloat64_pow (w : Int) : roundFloat64 ((2 : ℚ) ^ w) = 2 ^ w := by
  have hne : (2 : ℚ) ^ w ≠ 0 := ne_of_gt (zpow_pos (by norm_num) _)
  unfold roundFloat64
  rw [if_neg hne, binaryExponent_pow]
  have : (2 : ℚ) ^ w / 2 ^ (w - 52) = (((2 : Int) ^ 52 : Int) : ℚ) := by
    rw [zpow_sub₀ (by norm_num : (2 : ℚ) ≠ 0)]
    push_cast
    field_simp
    norm_num
  rw [this, roundHalfEven_intCast]
  rw [zpow_sub₀ (by norm_num : (2 : ℚ) ≠ 0)]
  push_cast
  field_simp
  ring

/-! ## The logarithm of the library -/

theorem roundFloat64_mul_le (a b A B B1 : ℚ) (ha : |a| ≤ A) (hb : |b| ≤ B)
    (h : A * B * (1 + 1 / 2 ^ 53) ≤ B1) : |roundFloat64 (a * b)| ≤ B1 := by
  refine roundFloat64_abs_le _ (A * B) B1 ?_ h
  rw [abs_mul]
  exact mul_le_mul ha hb (abs_nonneg _) (le_trans (abs_nonneg _) ha)

theorem roundFloat64_add_le (a b A B B1 : ℚ) (ha : |a| ≤ A) (hb : |b| ≤ B)
    (h : (A + B) * (1 + 1 / 2 ^ 53) ≤ B1) : |roundFloat64 (a + b)| ≤ B1 :=
  roundFloat64_abs_le _ (A + B) B1 ((abs_add a b).trans (add_le_add ha hb)) h

theorem roundFloat64_sub_le (a b A B B1 : ℚ) (ha : |a| ≤ A) (hb : |b| ≤ B)
    (h : (A + B) * (1 + 1 / 2 ^ 53) ≤ B1) : |roundFloat64 (a - b)| ≤ B1 :=
  roundFloat64_abs_le _ (A + B) B1 ((abs_sub a b).trans (add_le_add ha hb)) h

theorem roundFloat64_const_le (c B1 : ℚ) (h : |c| * (1 + 1 / 2 ^ 53) ≤ B1) :
    |roundFloat64 c| ≤ B1 :=
  roundFloat64_abs_le c |c| B1 (le_refl _) h

/-- The polynomial part of `math.Log` stays below 3/2 in absolute value. -/
theorem mathLog_compute_bound (f k : ℚ) (hf : |f| ≤ 51 / 100) (hk : |k| ≤ 1)
    (Ln2Hi Ln2Lo L1 L2 L3 L4 L5 L6 L7 s s2 s4 t1 t2 R hfsq : ℚ)
    (eLn2Hi : Ln2Hi = roundFloat64 (693147180369123816490 / 10 ^ 21))
    (eLn2Lo : Ln2Lo = roundFloat64 (190821492927058770002 / 10 ^ 30))
    (eL1 : L1 = roundFloat64 (6666666666666735130 / 10 ^ 19))
    (eL2 : L2 = roundFloat64 (3999999999940941908 / 10 ^ 19))
    (eL3 : L3 = roundFloat64 (2857142874366239149 / 10 ^ 19))
    (eL4 : L4 = roundFloat64 (2222219843214978396 / 10 ^ 19))
    (eL5 : L5 = roundFloat64 (1818357216161805012 / 10 ^ 19))
    (eL6 : L6 = roundFloat64 (1531383769920937332 / 10 ^ 19))
    (eL7 : L7 = roundFloat64 (1479819860511658591 / 10 ^ 19))
    (es : s = roundFloat64 (f / roundFloat64 (2 + f)))
    (es2 : s2 = roundFloat64 (s * s))
    (es4 : s4 = roundFloat64 (s2 * s2))
    (et1 : t1 = roundFloat64 (s2 * roundFloat64 (L1 + roundFloat64 (s4 * roundFloat64 (L3
      + roundFloat64 (s4 * roundFloat64 (L5 + roundFloat64 (s4 * L7))))))))
    (et2 : t2 = roundFloat64 (s4 * roundFloat64 (L2 + roundFloat64 (s4 * roundFloat64 (L4
      + roundFloat64 (s4 * L6))))))
    (eR : R = roundFloat64 (t1 + t2))
    (ehfsq : hfsq = roundFloat64 (roundFloat64 (1 / 2 * f) * f)) :
    |roundFloat64 (roundFloat64 (k * Ln2Hi)
      - roundFloat64 (roundFloat64 (hfsq
          - roundFloat64 (roundFloat64 (s * roundFloat64 (hfsq + R)) + roundFloat64 (k * Ln2Lo)))
        - f))| ≤ 3 / 2 := by
  have bLn2Hi : |Ln2Hi| ≤ 6932 / 10000 := by
    rw [eLn2Hi]
    exact roundFloat64_const_le _ _ (by norm_num [abs_of_pos])
  have bLn2Lo : |Ln2Lo| ≤ 1 / 1000 := by
    rw [eLn2Lo]
    exact roundFloat64_const_le _ _ (by norm_num [abs_of_pos])
  have bL1 : |L1| ≤ 67 / 100 := by
    rw [eL1]
    exact roundFloat64_const_le _ _ (by norm_num [abs_of_pos])
  have bL2 : |L2| ≤ 41 / 100 := by
    rw [eL2]
    exact roundFloat64_const_le _ _ (by norm_num [abs_of_pos])
  have bL3 : |L3| ≤ 29 / 100 := by
    rw [eL3]
    exact roundFloat64_const_le _ _ (by norm_num [abs_of_pos])
  have bL4 : |L4| ≤ 23 / 100 := by
    rw [eL4]
    exact roundFloat64_const_le _ _ (by norm_num [abs_of_pos])
  have bL5 : |L5| ≤ 19 / 100 := by
    rw [eL5]
    exact roundFloat64_const_le _ _ (by norm_num [abs_of_pos])
  have bL6 : |L6| ≤ 16 / 100 := by
    rw [eL6]
    exact roundFloat64_const_le _ _ (by norm_num [abs_of_pos])
  have bL7 : |L7| ≤ 15 / 100 := by
    rw [eL7]
    exact roundFloat64_const_le _ _ (by norm_num [abs_of_pos])
  obtain ⟨hf1, hf2⟩ := abs_le.1 hf
  have bd : 148 / 100 ≤ roundFloat64 (2 + f) := by
    have := roundFloat64_ge (2 + f) (by linarith)
    have h2 : (149 / 100 : ℚ) * (1 - 1 / 2 ^ 53) ≤ (2 + f) * (1 - 1 / 2 ^ 53) :=
      mul_le_mul_of_nonneg_right (by linarith) (by norm_num)
    have h3 : (148 / 100 : ℚ) ≤ 149 / 100 * (1 - 1 / 2 ^ 53) := by norm_num
    linarith
  have bs : |s| ≤ 35 / 100 := by
    rw [es]
    refine roundFloat64_abs_le _ (51 / 100 / (148 / 100)) _ ?_ (by norm_num)
    rw [abs_div, abs_of_pos (by linarith : (0 : ℚ) < roundFloat64 (2 + f))]
    exact div_le_div₀ (by norm_num) hf (by norm_num) bd
  have bs2 : |s2| ≤ 13 / 100 := by
    rw [es2]
    exact roundFloat64_mul_le _ _ _ _ _ bs bs (by norm_num)
  have bs4 : |s4| ≤ 2 / 100 := by
    rw [es4]
    exact roundFloat64_mul_le _ _ _ _ _ bs2 bs2 (by norm_num)
  have bt1 : |t1| ≤ 9 / 100 := by
    rw [et1]
    have a7 : |roundFloat64 (s4 * L7)| ≤ 4 / 1000 :=
      roundFloat64_mul_le _ _ _ _ _ bs4 bL7 (by norm_num)
    have a5 : |roundFloat64 (L5 + roundFloat64 (s4 * L7))| ≤ 2 / 10 :=
      roundFloat64_add_le _ _ _ _ _ bL5 a7 (by norm_num)
    have b5 := roundFloat64_mul_le _ _ _ _ (5 / 1000) bs4 a5 (by norm_num)
    have a3 := roundFloat64_add_le _ _ _ _ (3 / 10) bL3 b5 (by norm_num)
    have b3 := roundFloat64_mul_le _ _ _ _ (7 / 1000) bs4 a3 (by norm_num)
    have a1 := roundFloat64_add_le _ _ _ _ (68 / 100) bL1 b3 (by norm_num)
    exact roundFloat64_mul_le _ _ _ _ _ bs2 a1 (by norm_num)
  have bt2 : |t2| ≤ 9 / 1000 := by
    rw [et2]
    have c6 : |roundFloat64 (s4 * L6)| ≤ 4 / 1000 :=
      roundFloat64_mul_le _ _ _ _ _ bs4 bL6 (by norm_num)
    have a4 := roundFloat64_add_le _ _ _ _ (24 / 100) bL4 c6 (by norm_num)
    have b4 := roundFloat64_mul_le _ _ _ _ (5 / 1000) bs4 a4 (by norm_num)
    have a2 := roundFloat64_add_le _ _ _ _ (42 / 100) bL2 b4 (by norm_num)
    exact roundFloat64_mul_le _ _ _ _ _ bs4 a2 (by norm_num)
  have bR : |R| ≤ 1 / 10 := by
    rw [eR]
    exact roundFloat64_add_le _ _ _ _ _ bt1 bt2 (by norm_num)
  have bh : |hfsq| ≤ 131 / 1000 := by
    rw [ehfsq]
    have h1 : |roundFloat64 (1 / 2 * f)| ≤ 256 / 1000 :=
      roundFloat64_mul_le _ _ (1 / 2) _ _ (by norm_num [abs_of_pos]) hf (by norm_num)
    exact roundFloat64_mul_le _ _ _ _ _ h1 hf (by norm_num)
  have g1 := roundFloat64_add_le _ _ _ _ (232 / 1000) bh bR (by norm_num)
  have g2 := roundFloat64_mul_le _ _ _ _ (82 / 1000) bs g1 (by norm_num)
  have g3 := roundFloat64_mul_le _ _ _ _ (2 / 1000) hk bLn2Lo (by norm_num)
  have g4 := roundFloat64_add_le _ _ _ _ (85 / 1000) g2 g3 (by norm_num)
  have g5 := roundFloat64_sub_le _ _ _ _ (217 / 1000) bh g4 (by norm_num)
  have g6 := roundFloat64_sub_le _ _ _ _ (728 / 1000) g5 hf (by norm_num)
  have g7 := roundFloat64_mul_le _ _ _ _ (6933 / 10000) hk bLn2Hi (by norm_num)
  exact roundFloat64_sub_le _ _ _ _ _ g7 g6 (by norm_num)

theorem mathFrexp_unit (x : ℚ) (h1 : 1 / 2 ≤ x) (h2 : x < 1) : mathFrexp x = (x, 0) := by
  have hpos : 0 < x := by linarith
  have he : binaryExponent x = -1 := by
    apply le_antisymm
    · apply binaryExponent_le _ (ne_of_gt hpos)
      rw [abs_of_pos hpos]
      simpa using h2
    · apply binaryExponent_ge _ (ne_of_gt hpos)
      rw [abs_of_pos hpos]
      norm_num
      linarith
  unfold mathFrexp
  rw [he]
  simp

/-- On `[1/2, 1)` the value of `math.Log` stays below 3/2 in absolute value. -/
theorem mathLog_bound (x : ℚ) (h1 : 1 / 2 ≤ x) (h2 : x < 1) : |mathLog x| ≤ 3 / 2 := by
  have hS : roundFloat64 (Sqrt2 / 2) ≤ 7072 / 10000 := by
    have := roundFloat64_le (Sqrt2 / 2) (by unfold Sqrt2; norm_num)
    have h3 : Sqrt2 / 2 * (1 + 1 / 2 ^ 53) ≤ 7072 / 10000 := by
      unfold Sqrt2
      norm_num
    linarith
  unfold mathLog
  simp only [mathFrexp_unit x h1 h2]
  refine mathLog_compute_bound _ _ ?_ ?_ _ _ _ _ _ _ _ _ _ _ _ _ _ _ _ _
    rfl rfl rfl rfl rfl rfl rfl rfl rfl rfl rfl rfl rfl rfl rfl rfl
  · by_cases hc : x < roundFloat64 (Sqrt2 / 2)
    · rw [if_pos hc]
      have hlo := roundFloat64_ge (x * 2) (by linarith)
      have hhi := roundFloat64_le (x * 2) (by linarith)
      refine roundFloat64_abs_le _ (1 / 2) _ ?_ (by norm_num)
      rw [abs_le]
      have e1 : x * 2 * (1 - 1 / 2 ^ 53) = x * 2 - x * 2 / 2 ^ 53 := by ring
      have e2 : x * 2 * (1 + 1 / 2 ^ 53) = x * 2 + x * 2 / 2 ^ 53 := by ring
      have e3 : x * 2 / 2 ^ 53 ≤ 1 / 4 := by
        have : x * 2 / 2 ^ 53 ≤ 2 / 2 ^ 53 :=
          div_le_div_of_nonneg_right (by linarith) (by norm_num)
        have : (2 : ℚ) / 2 ^ 53 ≤ 1 / 4 := by norm_num
        linarith
      constructor <;> linarith
    · rw [if_neg hc]
      refine roundFloat64_abs_le _ (1 / 2) _ ?_ (by norm_num)
      rw [abs_le]
      constructor <;> linarith
  · by_cases hc : x < roundFloat64 (Sqrt2 / 2)
    · rw [if_pos hc]
      norm_num
    · rw [if_neg hc]
      norm_num

/-! ## The width at a given size -/

theorem mathFrexp_fst (x : ℚ) (hx : 0 < x) :
    1 / 2 ≤ (mathFrexp x).1 ∧ (mathFrexp x).1 < 1 := by
  obtain ⟨s1, s2⟩ := binaryExponent_spec x (ne_of_gt hx)
  rw [abs_of_pos hx] at s1 s2
  have hp : (0 : ℚ) < 2 ^ (binaryExponent x + 1) := zpow_pos (by norm_num) _
  have he : (2 : ℚ) ^ (binaryExponent x + 1) = 2 ^ binaryExponent x * 2 := by
    rw [zpow_add₀ (by norm_num : (2 : ℚ) ≠ 0)]
    norm_num
  unfold mathFrexp
  simp only
  constructor
  · rw [le_div_iff₀ hp, he]
    linarith
  · rw [div_lt_one hp]
    exact s2

/-- For a positive `x` of binary exponent at least 3, that is `x ≥ 8`, the value of
`math.Log2` is at least 1. -/
theorem mathLog2_ge_one (x : ℚ) (hx : 0 < x) (he : 3 ≤ binaryExponent x) :
    1 ≤ mathLog2 x := by
  obtain ⟨f1, f2⟩ := mathFrexp_fst x hx
  have hexp : (mathFrexp x).2 = binaryExponent x + 1 := rfl
  have hE : (4 : ℚ) ≤ (((mathFrexp x).2 : Int) : ℚ) := by
    rw [hexp]
    have : (4 : Int) ≤ binaryExponent x + 1 := by omega
    exact_mod_cast this
  unfold mathLog2
  split
  · have : (3 : Int) ≤ (mathFrexp x).2 - 1 := by
      rw [hexp]
      omega
    have h3 : (3 : ℚ) ≤ (((mathFrexp x).2 - 1 : Int) : ℚ) := by exact_mod_cast this
    linarith
  · have hL := mathLog_bound _ f1 f2
    have hC : |roundFloat64 (1 / Ln2)| ≤ 145 / 100 :=
      roundFloat64_const_le _ _ (by unfold Ln2; norm_num [abs_of_pos])
    have hP := roundFloat64_mul_le _ _ _ _ (22 / 10) hL hC (by norm_num)
    obtain ⟨p1, p2⟩ := abs_le.1 hP
    have hy : (18 / 10 : ℚ) ≤ roundFloat64 (mathLog (mathFrexp x).1 * roundFloat64 (1 / Ln2))
        + (((mathFrexp x).2 : Int) : ℚ) := by linarith
    have := roundFloat64_ge _ (le_trans (by norm_num) hy)
    have h2 : (18 / 10 : ℚ) * (1 - 1 / 2 ^ 53)
        ≤ (roundFloat64 (mathLog (mathFrexp x).1 * roundFloat64 (1 / Ln2))
          + (((mathFrexp x).2 : Int) : ℚ)) * (1 - 1 / 2 ^ 53) :=
      mul_le_mul_of_nonneg_right hy (by norm_num)
    have h3 : (1 : ℚ) ≤ 18 / 10 * (1 - 1 / 2 ^ 53) := by norm_num
    linarith

theorem codelengthOf_small :
    codelengthOf 1 = 0 ∧ codelengthOf 2 = 1 ∧ codelengthOf 3 = 1 ∧ codelengthOf 4 = 2 ∧
    codelengthOf 5 = 2 ∧ codelengthOf 6 = 2 ∧ codelengthOf 7 = 2 := by
  refine ⟨?_, ?_, ?_, ?_, ?_, ?_, ?_⟩ <;> decide!

/-- The stride is positive for every size from 2 on. -/
theorem codelengthOf_pos (size : Nat) (h : 2 ≤ size) : 1 ≤ codelengthOf size := by
  by_cases h8 : size < 8
  · obtain ⟨-, c2, c3, c4, c5, c6, c7⟩ := codelengthOf_small
    interval_cases size <;> simp [c2, c3, c4, c5, c6, c7]
  · have hs : (8 : ℚ) ≤ (size : ℚ) := by exact_mod_cast (not_lt.1 h8)
    have hpos : (0 : ℚ) < (size : ℚ) := by linarith
    have he : 3 ≤ binaryExponent (size : ℚ) := by
      apply binaryExponent_ge _ (ne_of_gt hpos)
      rw [abs_of_pos hpos]
      norm_num
      omega
    have hx : (8 : ℚ) ≤ roundFloat64 (size : ℚ) := by
      have h1 := roundFloat64_ge_pow _ hpos
      have h2 : (2 : ℚ) ^ (3 : Int) ≤ 2 ^ binaryExponent (size : ℚ) :=
        (zpow_le_zpow_iff_right₀ (by norm_num : (1 : ℚ) < 2)).2 he
      have h3 : (2 : ℚ) ^ (3 : Int) = 8 := by norm_num
      linarith
    have hxpos : (0 : ℚ) < roundFloat64 (size : ℚ) := by linarith
    have hex : 3 ≤ binaryExponent (roundFloat64 (size : ℚ)) := by
      apply binaryExponent_ge _ (ne_of_gt hxpos)
      rw [abs_of_pos hxpos]
      norm_num
      exact hx
    have hl := mathLog2_ge_one _ hxpos hex
    unfold codelengthOf
    rw [if_neg (by omega)]
    have : (1 : Int) ≤ ⌊mathLog2 (roundFloat64 (size : ℚ))⌋ := Int.le_floor.2 (by exact_mod_cast hl)
    omega

/-- At a power of two the width is the exponent. -/
theorem codelengthOf_pow (w : Nat) : codelengthOf (2 ^ w) = w := by
  unfold codelengthOf
  rw [if_neg (by positivity)]
  have hc : ((2 ^ w : Nat) : ℚ) = (2 : ℚ) ^ (w : Int) := by
    push_cast
    rw [zpow_natCast]
  rw [hc, roundFloat64_pow]
  unfold mathLog2 mathFrexp
  simp only [binaryExponent_pow]
  have hf : (2 : ℚ) ^ (w : Int) / 2 ^ ((w : Int) + 1) = 1 / 2 := by
    rw [zpow_add₀ (by norm_num : (2 : ℚ) ≠ 0)]
    field_simp
  rw [if_pos hf]
  simp

/-! ## The trained digram table -/

namespace GoMap

variable {κ ν : Type} [DecidableEq κ]

theorem mem_set (m : GoMap κ ν) (k : κ) (v : ν) (p : κ × ν) (h : p ∈ m.set k v) :
    p ∈ m ∨ p = (k, v) := by
  induction m with
  | nil =>
    simp [set] at h
    exact Or.inr h
  | cons q rest ih =>
    obtain ⟨k0, v0⟩ := q
    by_cases h0 : k0 = k
    · simp only [set, h0, if_true, List.mem_cons] at h
      rcases h with h | h
      · exact Or.inr h
      · exact Or.inl (List.mem_cons_of_mem _ h)
    · simp only [set, h0, if_false, List.mem_cons] at h
      rcases h with h | h
      · exact Or.inl (by simp [h])
      · rcases ih h with h | h
        · exact Or.inl (List.mem_cons_of_mem _ h)
        · exact Or.inr h

theorem set_of_not_mem (m : GoMap κ ν) (k : κ) (v : ν) (h : k ∉ m.map Prod.fst) :
    m.set k v = m ++ [(k, v)] := by
  induction m with
  | nil => rfl
  | cons q rest ih =>
    obtain ⟨k0, v0⟩ := q
    simp only [List.map_cons, List.mem_cons, not_or] at h
    have h0 : ¬ k0 = k := fun e => h.1 e.symm
    simp [set, h0, ih h.2]

theorem keys_set_of_mem (m : GoMap κ ν) (k : κ) (v : ν) (h : k ∈ m.map Prod.fst) :
    (m.set k v).map Prod.fst = m.map Prod.fst := by
  induction m with
  | nil => simp at h
  | cons q rest ih =>
    obtain ⟨k0, v0⟩ := q
    by_cases h0 : k0 = k
    · simp [set, h0]
    · simp only [List.map_cons, List.mem_cons] at h
      have h1 : k ∈ List.map Prod.fst rest := by
        rcases h with h | h
        · exact absurd h.symm h0
        · exact h
      simp [set, h0, ih h1]

theorem nodup_keys_set (m : GoMap κ ν) (k : κ) (v : ν) (h : (m.map Prod.fst).Nodup) :
    ((m.set k v).map Prod.fst).Nodup := by
  by_cases hk : k ∈ m.map Prod.fst
  · rw [keys_set_of_mem m k v hk]
    exact h
  · rw [set_of_not_mem m k v hk, List.map_append]
    simp only [List.map_cons, List.map_nil]
    rw [List.nodup_append]
    refine ⟨h, List.nodup_singleton _, ?_⟩
    intro a ha hb
    simp only [List.mem_singleton] at hb
    subst hb
    exact hk ha

theorem find?_of_mem (m : GoMap κ ν) (k : κ) (v : ν) (hnd : (m.map Prod.fst).Nodup)
    (h : (k, v) ∈ m) : m.find? k = some v := by
  induction m with
  | nil => simp at h
  | cons q rest ih =>
    obtain ⟨k0, v0⟩ := q
    simp only [List.map_cons, List.nodup_cons] at hnd
    simp only [List.mem_cons, Prod.mk.injEq] at h
    rcases h with h | h
    · simp [find?, h.1, h.2]
    · have h0 : ¬ k0 = k := by
        intro e
        subst e
        exact hnd.1 (List.mem_map_of_mem Prod.fst h)
      simp [find?, h0, ih hnd.2 h]

theorem find?_ne_none_of_key (m : GoMap κ ν) (k : κ) (h : k ∈ m.map Prod.fst) :
    m.find? k ≠ none := by
  intro hn
  rw [find?_eq_none_iff] at hn
  obtain ⟨p, hp, hpk⟩ := List.mem_map.1 h
  exact hn p hp hpk

end GoMap

theorem TableInv_set (w i : Nat) (T : GoMap Str Str) (k : Str) (h : TableInv w i T) :
    TableInv w (i + 1) (T.set k (intToCodeword (i : Int) w)) := by
  obtain ⟨hnd, hval, hinj⟩ := h
  refine ⟨GoMap.nodup_keys_set _ _ _ hnd, ?_, ?_⟩
  · intro k' v hf
    by_cases hk : k = k'
    · subst hk
      rw [GoMap.find?_set_self] at hf
      exact ⟨i, by omega, (Option.some.inj hf).symm⟩
    · rw [GoMap.find?_set_ne _ _ _ _ hk] at hf
      obtain ⟨j, hj, hv⟩ := hval k' v hf
      exact ⟨j, by omega, hv⟩
  · intro k1 k2 v h1 h2
    by_cases hk1 : k = k1
    · by_cases hk2 : k = k2
      · rw [← hk1, ← hk2]
      · subst hk1
        rw [GoMap.find?_set_self] at h1
        rw [GoMap.find?_set_ne _ _ _ _ hk2] at h2
        obtain ⟨j, hj, hv⟩ := hval k2 v h2
        have := intToCodeword_injective i j w (by rw [Option.some.inj h1, hv])
        omega
    · by_cases hk2 : k = k2
      · subst hk2
        rw [GoMap.find?_set_self] at h2
        rw [GoMap.find?_set_ne _ _ _ _ hk1] at h1
        obtain ⟨j, hj, hv⟩ := hval k1 v h1
        have := intToCodeword_injective i j w (by rw [Option.some.inj h2, hv])
        omega
      · rw [GoMap.find?_set_ne _ _ _ _ hk1] at h1
        rw [GoMap.find?_set_ne _ _ _ _ hk2] at h2
        exact hinj k1 k2 v h1 h2

theorem assignCodewords_spec (size : Nat) (keys : List Str) (i : Nat) (T : GoMap Str Str)
    (h : TableInv (codelengthOf size) i T) :
    (assignCodewords size keys (i : Int) T).1 = ((i + keys.length : Nat) : Int) ∧
    TableInv (codelengthOf size) (i + keys.length) (assignCodewords size keys (i : Int) T).2 ∧
    ∀ k, (k ∈ keys ∨ T.find? k ≠ none) →
      (assignCodewords size keys (i : Int) T).2.find? k ≠ none := by
  induction keys generalizing i T with
  | nil =>
    refine ⟨by simp [assignCodewords], by simpa [assignCodewords] using h, ?_⟩
    intro k hk
    simpa [assignCodewords] using hk
  | cons key rest ih =>
    have hstep := TableInv_set _ i T key h
    have hcast : ((i : Int) + 1) = ((i + 1 : Nat) : Int) := by push_cast; rfl
    obtain ⟨h1, h2, h3⟩ := ih (i + 1) _ hstep
    simp only [assignCodewords, hcast, List.length_cons]
    rw [show padZeros (formatInt2 (i : Int)) (codelengthOf size)
      = intToCodeword (i : Int) (codelengthOf size) from rfl]
    have e : i + 1 + rest.length = i + (rest.length + 1) := by omega
    refine ⟨by rw [h1, e], by rw [← e]; exact h2, ?_⟩
    intro k hk
    apply h3
    by_cases hkk : key = k
    · right
      subst hkk
      rw [GoMap.find?_set_self]
      simp
    · rcases hk with hk | hk
      · left
        simp only [List.mem_cons] at hk
        rcases hk with hk | hk
        · exact absurd hk.symm hkk
        · exact hk
      · right
        rw [GoMap.find?_set_ne _ _ _ _ hkk]
        exact hk

theorem mostFrequentLoop_length (ord : MapOrder) (limit : Int) (fuel : Nat)
    (frequencies : GoMap Str Nat) (acc : List Str) :
    (mostFrequentLoop ord limit fuel frequencies acc).length ≤ max acc.length limit.toNat := by
  induction fuel generalizing frequencies acc with
  | zero => simp [mostFrequentLoop]
  | succ f ih =>
    unfold mostFrequentLoop
    split
    · rename_i hc
      refine le_trans (ih _ _) ?_
      simp only [List.length_append, List.length_singleton]
      have := hc.1
      omega
    · exact le_max_left _ _

theorem mostFrequentDigrams_length (ord : MapOrder) (limit : Int)
    (frequencies : GoMap Str Nat) :
    (mostFrequentDigrams ord limit frequencies).length ≤ limit.toNat := by
  unfold mostFrequentDigrams
  have := mostFrequentLoop_length ord limit limit.toNat
    ((ord.range frequencies).foldl (fun m e => m.set e.1 e.2) []) []
  simpa using this

theorem TableInv_nil (w : Nat) : TableInv w 0 [] := by
  refine ⟨by simp, ?_, ?_⟩
  · intro k v h
    simp [GoMap.find?] at h
  · intro k1 k2 v h
    simp [GoMap.find?] at h

theorem Digram_table (ord : MapOrder) (alphabet : List Rune) (corpus : Str) (w : Nat)
    (ha : alphabet.length ≤ 2 ^ w) :
    ∃ n, n ≤ 2 ^ w ∧ TableInv w n (Digram ord alphabet corpus (2 ^ w)).Codewords ∧
      ∀ r ∈ alphabet, (Digram ord alphabet corpus (2 ^ w)).Codewords.find? (runeString r) ≠ none := by
  have hw := codelengthOf_pow w
  obtain ⟨a1, a2, a3⟩ := assignCodewords_spec (2 ^ w) (alphabet.map runeString) 0 []
    (by rw [hw]; exact TableInv_nil w)
  set digrams := mostFrequentDigrams ord (((2 ^ w : Nat) : Int) - (alphabet.length : Int))
    (digramFrequencies corpus alphabet) with hd
  have hlen : digrams.length ≤ 2 ^ w - alphabet.length := by
    have := mostFrequentDigrams_length ord (((2 ^ w : Nat) : Int) - (alphabet.length : Int))
      (digramFrequencies corpus alphabet)
    rw [← hd] at this
    omega
  simp only [Nat.cast_zero] at a1 a2 a3
  obtain ⟨b1, b2, b3⟩ := assignCodewords_spec (2 ^ w) digrams (0 + (alphabet.map runeString).length)
    (assignCodewords (2 ^ w) (alphabet.map runeString) 0 []).2 a2
  refine ⟨0 + (alphabet.map runeString).length + digrams.length, ?_, ?_, ?_⟩
  · simp only [List.length_map]
    omega
  · rw [hw] at b2
    simp only [Digram]
    rw [← hd, a1]
    exact b2
  · intro r hr
    simp only [Digram]
    rw [← hd, a1]
    apply b3
    right
    apply a3
    left
    exact List.mem_map_of_mem _ hr

/-! ## Inverted tables -/

theorem foldl_invert_find?_other {κ : Type} (L : List (κ × Str)) (d : GoMap Str κ) (v : Str)
    (h : ∀ p ∈ L, p.2 ≠ v) :
    (L.foldl (fun decodewords e => decodewords.set e.2 e.1) d).find? v = d.find? v := by
  induction L generalizing d with
  | nil => rfl
  | cons q rest ih =>
    rw [List.foldl_cons, ih _ (fun p hp => h p (List.mem_cons_of_mem _ hp))]
    exact GoMap.find?_set_ne _ _ _ _ (h q (List.mem_cons_self _ _))

theorem foldl_invert_find? {κ : Type} (L : List (κ × Str)) (d : GoMap Str κ) (k : κ) (v : Str)
    (hmem : (k, v) ∈ L) (huniq : ∀ p ∈ L, p.2 = v → p.1 = k) :
    (L.foldl (fun decodewords e => decodewords.set e.2 e.1) d).find? v = some k := by
  induction L generalizing d with
  | nil => simp at hmem
  | cons q rest ih =>
    rw [List.foldl_cons]
    by_cases hr : ∃ p ∈ rest, p.2 = v
    · obtain ⟨p, hp, hpv⟩ := hr
      have hpk := huniq p (List.mem_cons_of_mem _ hp) hpv
      have hm : (k, v) ∈ rest := by
        have : p = (k, v) := Prod.ext hpk hpv
        rw [← this]
        exact hp
      exact ih _ hm (fun p hp => huniq p (List.mem_cons_of_mem _ hp))
    · have hn : ∀ p ∈ rest, p.2 ≠ v := fun p hp hpv => hr ⟨p, hp, hpv⟩
      rw [foldl_invert_find?_other rest _ v hn]
      have hq : q = (k, v) := by
        rcases List.mem_cons.1 hmem with h | h
        · exact h.symm
        · exact absurd rfl (hn _ h)
      subst hq
      exact GoMap.find?_set_self _ _ _

theorem foldl_invert_mem {κ : Type} (L : List (κ × Str)) (d : GoMap Str κ) (k : κ) (v : Str)
    (h : (L.foldl (fun decodewords e => decodewords.set e.2 e.1) d).find? v = some k) :
    (k, v) ∈ L ∨ d.find? v = some k := by
  induction L generalizing d with
  | nil => exact Or.inr h
  | cons q rest ih =>
    rw [List.foldl_cons] at h
    rcases ih _ h with h1 | h1
    · exact Or.inl (List.mem_cons_of_mem _ h1)
    · by_cases hq : q.2 = v
      · rw [← hq, GoMap.find?_set_self] at h1
        left
        have : q = (k, v) := Prod.ext (Option.some.inj h1) hq
        rw [← this]
        exact List.mem_cons_self _ _
      · rw [GoMap.find?_set_ne _ _ _ _ hq] at h1
        exact Or.inr h1

theorem invertCodewords_find? {κ : Type} (ord : MapOrder) (hord : ord.Valid)
    (T : GoMap κ Str) (k : κ) (v : Str) (hmem : (k, v) ∈ T)
    (huniq : ∀ p ∈ T, p.2 = v → p.1 = k) :
    (invertCodewords ord T).find? v = some k := by
  unfold invertCodewords
  have hp := hord _ T
  exact foldl_invert_find? _ _ k v (hp.mem_iff.2 hmem) (fun p hpm => huniq p (hp.mem_iff.1 hpm))

theorem invertCodewords_mem {κ : Type} (ord : MapOrder) (hord : ord.Valid)
    (T : GoMap κ Str) (k : κ) (v : Str) (h : (invertCodewords ord T).find? v = some k) :
    (k, v) ∈ T := by
  unfold invertCodewords at h
  rcases foldl_invert_mem _ _ k v h with h1 | h1
  · exact (hord _ T).mem_iff.1 h1
  · simp [GoMap.find?] at h1

/-! ## Digram: encoding and decoding -/

theorem encodeLoop_eq_parse (e : DigramEncoder) :
    ∀ bytes : List Nat,
      e.encodeLoop bytes = (digramParse e bytes).flatMap (fun k => e.Codewords.get k [])
  | [] => rfl
  | [b] => by simp [DigramEncoder.encodeLoop, digramParse]
  | b1 :: b2 :: rest => by
    have ih1 := encodeLoop_eq_parse e rest
    have ih2 := encodeLoop_eq_parse e (b2 :: rest)
    unfold DigramEncoder.encodeLoop digramParse
    by_cases h : e.Codewords.get (byteString b1 ++ byteString b2) [] ≠ []
    · rw [if_pos h, if_pos h, List.flatMap_cons, ih1]
    · rw [if_neg h, if_neg h, List.flatMap_cons, ih2]

theorem digramParse_flatten (e : DigramEncoder) :
    ∀ bytes : List Nat, (digramParse e bytes).flatten = bytes.flatMap byteString
  | [] => rfl
  | [b] => by simp [digramParse]
  | b1 :: b2 :: rest => by
    have ih1 := digramParse_flatten e rest
    have ih2 := digramParse_flatten e (b2 :: rest)
    unfold digramParse
    by_cases h : e.Codewords.get (byteString b1 ++ byteString b2) [] ≠ []
    · rw [if_pos h]
      simp only [List.flatten_cons, ih1, List.flatMap_cons, List.append_assoc]
    · rw [if_neg h]
      simp only [List.flatten_cons, ih2, List.flatMap_cons]

theorem get_ne_nil_find? (T : GoMap Str Str) (k : Str) (h : T.get k [] ≠ []) :
    T.find? k = some (T.get k []) := by
  unfold GoMap.get at h ⊢
  cases hf : T.find? k with
  | none => simp [hf] at h
  | some v => simp

theorem digramParse_present (e : DigramEncoder) :
    ∀ bytes : List Nat, (∀ b ∈ bytes, e.Codewords.find? (byteString b) ≠ none) →
      ∀ k ∈ digramParse e bytes, e.Codewords.find? k ≠ none
  | [], _ => by simp [digramParse]
  | [b], h => by
    intro k hk
    simp only [digramParse, List.mem_singleton] at hk
    subst hk
    exact h b (List.mem_singleton_self b)
  | b1 :: b2 :: rest, h => by
    have ih1 := digramParse_present e rest
      (fun b hb => h b (List.mem_cons_of_mem _ (List.mem_cons_of_mem _ hb)))
    have ih2 := digramParse_present e (b2 :: rest) (fun b hb => h b (List.mem_cons_of_mem _ hb))
    intro k hk
    unfold digramParse at hk
    by_cases hd : e.Codewords.get (byteString b1 ++ byteString b2) [] ≠ []
    · rw [if_pos hd] at hk
      simp only [List.mem_cons] at hk
      rcases hk with hk | hk
      · subst hk
        rw [get_ne_nil_find? _ _ hd]
        simp
      · exact ih1 k hk
    · rw [if_neg hd] at hk
      simp only [List.mem_cons] at hk
      rcases hk with hk | hk
      · subst hk
        exact h b1 (List.mem_cons_self _ _)
      · exact ih2 k hk

theorem digramDecodeLoop_chunks (dec : GoMap Str Str) (w : Nat) (hw : 1 ≤ w) :
    ∀ (chunks : List Str) (fuel : Nat), (∀ ch ∈ chunks, ch.length = w) → chunks.length < fuel →
      digramDecodeLoop dec w fuel chunks.flatten
        = some (chunks.flatMap (fun ch => dec.get ch [])) := by
  intro chunks
  induction chunks with
  | nil =>
    intro fuel _ hf
    obtain ⟨f, rfl⟩ : ∃ f, fuel = f + 1 := ⟨fuel - 1, by simp at hf; omega⟩
    have : ¬ (w ≤ 0) := by omega
    simp [digramDecodeLoop, this]
  | cons ch rest ih =>
    intro fuel hlen hf
    obtain ⟨f, rfl⟩ : ∃ f, fuel = f + 1 := ⟨fuel - 1, by simp at hf; omega⟩
    have hch : ch.length = w := hlen ch (List.mem_cons_self _ _)
    have hrest := ih f (fun c hc => hlen c (List.mem_cons_of_mem _ hc))
      (by simp at hf; omega)
    unfold digramDecodeLoop
    have h1 : w ≤ (ch :: rest).flatten.length := by simp [hch]
    have h2 : List.take w (ch :: rest).flatten = ch := by
      simp only [List.flatten_cons]
      rw [← hch, List.take_left]
    have h3 : List.drop w (ch :: rest).flatten = rest.flatten := by
      simp only [List.flatten_cons]
      rw [← hch, List.drop_left]
    simp only [h1, if_true, h2, h3, hrest, Option.map_some', List.flatMap_cons]

theorem digramParse_length (e : DigramEncoder) :
    ∀ bytes : List Nat, (digramParse e bytes).length ≤ bytes.length
  | [] => by simp [digramParse]
  | [b] => by simp [digramParse]
  | b1 :: b2 :: rest => by
    have ih1 := digramParse_length e rest
    have ih2 := digramParse_length e (b2 :: rest)
    unfold digramParse
    split
    · simp only [List.length_cons]
      omega
    · simp only [List.length_cons] at ih2 ⊢
      omega

theorem flatMap_get_eq_filterMap (T : GoMap Str Str) (keys : List Str) :
    keys.flatMap (fun k => T.get k []) = (keys.filterMap (fun k => T.find? k)).flatten := by
  induction keys with
  | nil => rfl
  | cons k rest ih =>
    rw [List.flatMap_cons, ih]
    cases hf : T.find? k with
    | none => simp [GoMap.get, hf, List.filterMap_cons]
    | some v => simp [GoMap.get, hf, List.filterMap_cons]

theorem stringBytes_ascii (s : Str) (h : ∀ c ∈ s, c.toNat < 128) :
    stringBytes s = s.map Char.toNat := by
  induction s with
  | nil => rfl
  | cons c rest ih =>
    have hc : c.toNat < 128 := h c (List.mem_cons_self _ _)
    have ih1 := ih (fun c hc => h c (List.mem_cons_of_mem _ hc))
    unfold stringBytes at ih1 ⊢
    simp only [List.flatMap_cons, List.map_cons, ih1]
    simp [utf8Bytes, hc]

theorem flatMap_byteString_toNat (s : Str) : (s.map Char.toNat).flatMap byteString = s := by
  induction s with
  | nil => rfl
  | cons c rest ih =>
    simp only [List.map_cons, List.flatMap_cons, ih, byteString, Char.ofNat_toNat]
    rfl

/-- Facts on the trained digram table and its inverse: the width, the length of every
codeword, and the inverse lookup of every codeword. -/
theorem Digram_facts (ord : MapOrder) (alphabet : List Rune) (corpus : Str) (w : Nat)
    (hw : 1 ≤ w) (ha : alphabet.length ≤ 2 ^ w) :
    (∀ k v, (Digram ord alphabet corpus (2 ^ w)).Codewords.find? k = some v → v.length = w) ∧
    (∀ p ∈ (Digram ord alphabet corpus (2 ^ w)).Codewords, p.2.length = w) ∧
    (∀ r ∈ alphabet,
      (Digram ord alphabet corpus (2 ^ w)).Codewords.find? (runeString r) ≠ none) ∧
    (∀ ord2 : MapOrder, ord2.Valid → ∀ k v,
      (Digram ord alphabet corpus (2 ^ w)).Codewords.find? k = some v →
      (invertCodewords ord2 (Digram ord alphabet corpus (2 ^ w)).Codewords).find? v = some k) := by
  obtain ⟨n, hn, ⟨hnd, hval, hinj⟩, hal⟩ := Digram_table ord alphabet corpus w ha
  have h1 : ∀ k v, (Digram ord alphabet corpus (2 ^ w)).Codewords.find? k = some v →
      v.length = w := by
    intro k v hf
    obtain ⟨j, hj, hv⟩ := hval k v hf
    rw [hv]
    exact intToCodeword_length j w hw (by omega)
  refine ⟨h1, ?_, hal, ?_⟩
  · intro p hp
    exact h1 p.1 p.2 (GoMap.find?_of_mem _ _ _ hnd hp)
  · intro ord2 hord2 k v hf
    apply invertCodewords_find? ord2 hord2 _ k v (GoMap.mem_of_find? _ _ _ hf)
    intro p hp hpv
    have := GoMap.find?_of_mem _ p.1 p.2 hnd hp
    rw [hpv] at this
    exact hinj _ _ _ this hf

/-- Claim C5. Digram code length: after training with a dictionary size `2 ^ w`, `w ≥ 1`,
that holds the alphabet, the codeword width `floor(log2(D))` is `w`, every codeword of the
table has exactly `w` characters, and for every source the output of `Encode` is a
concatenation of chunks of `w` characters: its length is `w` times their number, and
`Decode` looks up exactly these chunks, leaving no remainder. -/
theorem digram_code_length (ord ord2 : MapOrder) (alphabet : List Rune) (corpus : Str)
    (w : Nat) (hw : 1 ≤ w) (ha : alphabet.length ≤ 2 ^ w) :
    codelengthOf (Digram ord alphabet corpus (2 ^ w)).Size = w ∧
    (∀ p ∈ (Digram ord alphabet corpus (2 ^ w)).Codewords, p.2.length = w) ∧
    ∀ source : Source, ∃ chunks : List Code,
      (∀ ch ∈ chunks, ch.length = w) ∧
      (Digram ord alphabet corpus (2 ^ w)).Encode source = chunks.flatten ∧
      ((Digram ord alphabet corpus (2 ^ w)).Encode source).length = w * chunks.length ∧
      ∀ fuel, chunks.length < fuel →
        (Digram ord alphabet corpus (2 ^ w)).Decode ord2 fuel
            ((Digram ord alphabet corpus (2 ^ w)).Encode source)
          = some (chunks.flatMap (fun ch =>
              (invertCodewords ord2 (Digram ord alphabet corpus (2 ^ w)).Codewords).get ch [])) := by
  obtain ⟨h1, h2, -, -⟩ := Digram_facts ord alphabet corpus w hw ha
  have hsize : codelengthOf (Digram ord alphabet corpus (2 ^ w)).Size = w := codelengthOf_pow w
  refine ⟨hsize, h2, ?_⟩
  intro source
  set e := Digram ord alphabet corpus (2 ^ w) with he
  refine ⟨(digramParse e (stringBytes source)).filterMap (fun k => e.Codewords.find? k), ?_, ?_, ?_, ?_⟩
  · intro ch hch
    obtain ⟨k, -, hk⟩ := List.mem_filterMap.1 hch
    exact h1 k ch hk
  · unfold DigramEncoder.Encode
    rw [encodeLoop_eq_parse, flatMap_get_eq_filterMap]
  · unfold DigramEncoder.Encode
    rw [encodeLoop_eq_parse, flatMap_get_eq_filterMap, List.length_flatten]
    have : ∀ l : List Code, (∀ ch ∈ l, ch.length = w) → (l.map List.length).sum = w * l.length := by
      intro l
      induction l with
      | nil => simp
      | cons x rest ih =>
        intro hl
        simp only [List.map_cons, List.sum_cons, List.length_cons]
        rw [ih (fun c hc => hl c (List.mem_cons_of_mem _ hc)), hl x (List.mem_cons_self _ _)]
        ring
    apply this
    intro ch hch
    obtain ⟨k, -, hk⟩ := List.mem_filterMap.1 hch
    exact h1 k ch hk
  · intro fuel hfuel
    unfold DigramEncoder.Encode DigramEncoder.Decode
    rw [encodeLoop_eq_parse, flatMap_get_eq_filterMap, hsize]
    apply digramDecodeLoop_chunks _ w hw _ fuel _ hfuel
    intro ch hch
    obtain ⟨k, -, hk⟩ := List.mem_filterMap.1 hch
    exact h1 k ch hk

/-- Scenario A of the specification: the width and the codeword lengths for the alphabet
`{a, b}`, the corpus `aabab` and the dictionary size 4. -/
theorem digram_code_length_witness :
    codelengthOf (Digram MapOrder.insertion [97, 98] ['a', 'a', 'b', 'a', 'b'] (2 ^ 2)).Size = 2 ∧
    (∀ p ∈ (Digram MapOrder.insertion [97, 98] ['a', 'a', 'b', 'a', 'b'] (2 ^ 2)).Codewords,
      p.2.length = 2) :=
  ⟨(digram_code_length MapOrder.insertion MapOrder.insertion [97, 98]
      ['a', 'a', 'b', 'a', 'b'] 2 (by decide) (by decide)).1,
   (digram_code_length MapOrder.insertion MapOrder.insertion [97, 98]
      ['a', 'a', 'b', 'a', 'b'] 2 (by decide) (by decide)).2.1⟩

/-- Claim C1. Digram round trip: for an alphabet of single-byte symbols, a dictionary size
`2 ^ w` with `w ≥ 1` that holds the alphabet, any corpus and any order of map iteration,
decoding the code of a source made of alphabet symbols returns that source (with fuel
for one round per symbol and one more). -/
theorem digram_round_trip (ord ord2 : MapOrder) (hord : ord2.Valid) (alphabet : List Rune)
    (corpus : Str) (w : Nat) (hw : 1 ≤ w) (ha : alphabet.length ≤ 2 ^ w)
    (hascii : ∀ r ∈ alphabet, 0 ≤ r ∧ r < 128)
    (source : Source) (hsrc : ∀ c ∈ source, (c.toNat : Int) ∈ alphabet)
    (fuel : Nat) (hfuel : source.length < fuel) :
    (Digram ord alphabet corpus (2 ^ w)).Decode ord2 fuel
      ((Digram ord alphabet corpus (2 ^ w)).Encode source) = some source := by
  obtain ⟨h1, -, h3, h4⟩ := Digram_facts ord alphabet corpus w hw ha
  have hsize : codelengthOf (Digram ord alphabet corpus (2 ^ w)).Size = w := codelengthOf_pow w
  set e := Digram ord alphabet corpus (2 ^ w) with he
  have hasc : ∀ c ∈ source, c.toNat < 128 := by
    intro c hc
    have := (hascii _ (hsrc c hc)).2
    exact_mod_cast this
  have hbytes := stringBytes_ascii source hasc
  have hpresent : ∀ k ∈ digramParse e (stringBytes source), e.Codewords.find? k ≠ none := by
    apply digramParse_present
    intro b hb
    rw [hbytes] at hb
    obtain ⟨c, hc, rfl⟩ := List.mem_map.1 hb
    have := h3 _ (hsrc c hc)
    rw [runeString_char] at this
    simpa [byteString, Char.ofNat_toNat] using this
  have hchunks : ∀ ch ∈ (digramParse e (stringBytes source)).filterMap
      (fun k => e.Codewords.find? k), ch.length = w := by
    intro ch hch
    obtain ⟨k, -, hk⟩ := List.mem_filterMap.1 hch
    exact h1 k ch hk
  have hlen : ((digramParse e (stringBytes source)).filterMap
      (fun k => e.Codewords.find? k)).length < fuel := by
    have a1 := List.length_filterMap_le (fun k => e.Codewords.find? k)
      (digramParse e (stringBytes source))
    have a2 := digramParse_length e (stringBytes source)
    have a3 : (stringBytes source).length = source.length := by
      rw [hbytes, List.length_map]
    omega
  unfold DigramEncoder.Encode DigramEncoder.Decode
  rw [encodeLoop_eq_parse, flatMap_get_eq_filterMap, hsize,
    digramDecodeLoop_chunks _ w hw _ fuel hchunks hlen]
  congr 1
  have hkeys : ∀ keys : List Str, (∀ k ∈ keys, e.Codewords.find? k ≠ none) →
      (keys.filterMap (fun k => e.Codewords.find? k)).flatMap
        (fun ch => (invertCodewords ord2 e.Codewords).get ch []) = keys.flatten := by
    intro keys
    induction keys with
    | nil => intro _; rfl
    | cons k rest ih =>
      intro hk
      have ih1 := ih (fun k hk1 => hk k (List.mem_cons_of_mem _ hk1))
      cases hf : e.Codewords.find? k with
      | none => exact absurd hf (hk k (List.mem_cons_self _ _))
      | some v =>
        rw [List.filterMap_cons, hf]
        simp only [List.flatMap_cons, List.flatten_cons, ih1]
        rw [GoMap.get, h4 ord2 hord k v hf]
        rfl
  rw [hkeys _ hpresent, digramParse_flatten, hbytes, flatMap_byteString_toNat]

/-- Scenario A of the specification: the round trip of `aabab` for the alphabet `{a, b}`,
the corpus `aabab` and the dictionary size 4. -/
theorem digram_round_trip_witness :
    (Digram MapOrder.insertion [97, 98] ['a', 'a', 'b', 'a', 'b'] (2 ^ 2)).Decode
      MapOrder.insertion 6
      ((Digram MapOrder.insertion [97, 98] ['a', 'a', 'b', 'a', 'b'] (2 ^ 2)).Encode
        ['a', 'a', 'b', 'a', 'b']) = some ['a', 'a', 'b', 'a', 'b'] :=
  digram_round_trip MapOrder.insertion MapOrder.insertion (fun _ l => List.Perm.refl l)
    [97, 98] ['a', 'a', 'b', 'a', 'b'] 2 (by decide) (by decide) (by decide)
    ['a', 'a', 'b', 'a', 'b'] (by decide) 6 (by decide)

/-! ## LZW: filtering of the source, and the lost tail -/

/-- Claim C10. LZW out-of-alphabet filtering: `cleanSource` keeps exactly the symbols of
the alphabet, in order, and is idempotent, and `Encode` gives the same result (for every
fuel) on a source and on the source without its out-of-alphabet symbols. -/
theorem lzw_encode_filters (fuel : Nat) (e : LZWEncoder) (source : Source) :
    cleanSource source e.Alphabet
        = source.filter (fun c => decide ((c.toNat : Int) ∈ e.Alphabet)) ∧
    cleanSource (cleanSource source e.Alphabet) e.Alphabet = cleanSource source e.Alphabet ∧
    e.Encode fuel source
        = e.Encode fuel (source.filter (fun c => decide ((c.toNat : Int) ∈ e.Alphabet))) := by
  have h1 := cleanSource_eq_filter source e.Alphabet
  have h2 : cleanSource (cleanSource source e.Alphabet) e.Alphabet
      = cleanSource source e.Alphabet := by
    rw [cleanSource_eq_filter (cleanSource source e.Alphabet), h1, List.filter_filter]
    simp
  refine ⟨h1, h2, ?_⟩
  unfold LZWEncoder.Encode
  rw [← h1, h2]

/-- Claim C3, failing inputs. The LZW round trip fails on the two examples of the claim and
on a one-symbol source: the pattern pending at the end of the input is never written, and
`Decode` of the code of `"aaaaaaa"` stops after three symbols. -/
theorem lzw_round_trip_fails :
    LZWEncoder.Encode 100 ⟨[97, 98], 3, 6, 0⟩ "abababab".toList
        = some "01001100001000110".toList ∧
    LZWEncoder.Decode 100 ⟨[97, 98], 3, 6, 0⟩ "01001100001000110".toList
        = some "abababa".toList ∧
    LZWEncoder.Encode 100 (LZW [97, 98] 12 0) "aaaaaaa".toList
        = some "000000100000010000000101".toList ∧
    LZWEncoder.Decode 100 (LZW [97, 98] 12 0) "000000100000010000000101".toList
        = some "aaa".toList ∧
    LZWEncoder.Encode 100 (LZW [97, 98] 12 0) "a".toList = some [] ∧
    LZWEncoder.Decode 100 (LZW [97, 98] 12 0) [] = some [] := by
  refine ⟨?_, ?_, ?_, ?_, ?_, ?_⟩ <;> decide

/-! ## Digram: symbols absent from the table -/

theorem get_of_absent (T : GoMap Str Str) (k : Str) (c : Char) (hc : c ∈ k)
    (habs : ∀ p ∈ T, c ∉ p.1) : T.get k [] = [] := by
  have : T.find? k = none := by
    rw [GoMap.find?_eq_none_iff]
    intro p hp hpk
    exact habs p hp (hpk ▸ hc)
  simp [GoMap.get, this]

theorem encodeLoop_nil (e : DigramEncoder) : e.encodeLoop [] = [] := by
  rw [DigramEncoder.encodeLoop]

theorem encodeLoop_single (e : DigramEncoder) (b : Nat) :
    e.encodeLoop [b] = e.Codewords.get (byteString b) [] := by
  rw [DigramEncoder.encodeLoop]

theorem encodeLoop_cons_cons (e : DigramEncoder) (b1 b2 : Nat) (rest : List Nat) :
    e.encodeLoop (b1 :: b2 :: rest)
      = if e.Codewords.get (byteString b1 ++ byteString b2) [] ≠ [] then
          e.Codewords.get (byteString b1 ++ byteString b2) [] ++ e.encodeLoop rest
        else e.Codewords.get (byteString b1) [] ++ e.encodeLoop (b2 :: rest) := by
  rw [DigramEncoder.encodeLoop]

theorem encodeLoop_absent_byte (e : DigramEncoder) (b : Nat)
    (habs : ∀ p ∈ e.Codewords, Char.ofNat b ∉ p.1) (bs2 : List Nat) :
    ∀ bs1 : List Nat, e.encodeLoop (bs1 ++ b :: bs2) = e.encodeLoop bs1 ++ e.encodeLoop bs2
  | [] => by
    have hb : e.Codewords.get (byteString b) [] = [] :=
      get_of_absent _ _ (Char.ofNat b) (by simp [byteString]) habs
    cases bs2 with
    | nil => simp [encodeLoop_nil, encodeLoop_single, hb]
    | cons y r =>
      have hd : e.Codewords.get (byteString b ++ byteString y) [] = [] :=
        get_of_absent _ _ (Char.ofNat b) (by simp [byteString]) habs
      rw [List.nil_append, encodeLoop_cons_cons, hd, encodeLoop_nil, hb]
      simp
  | [x] => by
    have hd : e.Codewords.get (byteString x ++ byteString b) [] = [] :=
      get_of_absent _ _ (Char.ofNat b) (by simp [byteString]) habs
    have h0 := encodeLoop_absent_byte e b habs bs2 []
    rw [List.nil_append, encodeLoop_nil, List.nil_append] at h0
    show e.encodeLoop (x :: b :: bs2) = _
    rw [encodeLoop_cons_cons, hd, encodeLoop_single, h0]
    simp
  | x1 :: x2 :: r => by
    have ih1 := encodeLoop_absent_byte e b habs bs2 r
    have ih2 := encodeLoop_absent_byte e b habs bs2 (x2 :: r)
    show e.encodeLoop (x1 :: x2 :: (r ++ b :: bs2)) = e.encodeLoop (x1 :: x2 :: r) ++ _
    rw [encodeLoop_cons_cons, encodeLoop_cons_cons]
    by_cases h : e.Codewords.get (byteString x1 ++ byteString x2) [] ≠ []
    · rw [if_pos h, if_pos h, ih1, List.append_assoc]
    · rw [if_neg h, if_neg h]
      have : x2 :: (r ++ b :: bs2) = (x2 :: r) ++ b :: bs2 := rfl
      rw [this, ih2, List.append_assoc]

theorem encodeLoop_absent_bytes (e : DigramEncoder) (bs2 : List Nat) :
    ∀ (bs bs1 : List Nat), bs ≠ [] → (∀ b ∈ bs, ∀ p ∈ e.Codewords, Char.ofNat b ∉ p.1) →
      e.encodeLoop (bs1 ++ bs ++ bs2) = e.encodeLoop bs1 ++ e.encodeLoop bs2
  | [], _, hne, _ => absurd rfl hne
  | [b], bs1, _, h => by
    have : bs1 ++ [b] ++ bs2 = bs1 ++ b :: bs2 := by simp
    rw [this, encodeLoop_absent_byte e b (h b (List.mem_cons_self _ _))]
  | b :: b2 :: rest, bs1, _, h => by
    have h0 := encodeLoop_absent_bytes e bs2 (b2 :: rest) [] (by simp)
      (fun b hb => h b (List.mem_cons_of_mem _ hb))
    rw [List.nil_append, encodeLoop_nil, List.nil_append] at h0
    have : bs1 ++ b :: b2 :: rest ++ bs2 = bs1 ++ b :: (b2 :: rest ++ bs2) := by simp
    rw [this, encodeLoop_absent_byte e b (h b (List.mem_cons_self _ _)), h0]

theorem utf8Bytes_ne_nil (c : Char) : utf8Bytes c ≠ [] := by
  unfold utf8Bytes
  simp only
  split
  · simp
  · split
    · simp
    · split <;> simp

/-- Claim C9, counterexample. The encoder trained on the alphabet `{a, b}` has no entry for
`c`, and `Encode` of `"acb"` returns a code, the one of `"ab"`: it does not fail. -/
theorem digram_encode_absent_no_failure :
    (Digram MapOrder.insertion [97, 98] [] 4).Codewords.find? ['c'] = none ∧
    (Digram MapOrder.insertion [97, 98] [] 4).Encode ['a', 'c', 'b'] = "0001".toList ∧
    (Digram MapOrder.insertion [97, 98] [] 4).Encode ['a', 'b'] = "0001".toList := by
  decide!

/-- Claim C9, as amended. `DigramEncoder.Encode` has no failure path: it returns a code for
every source, and a symbol none of whose bytes occurs in a key of the codeword table
contributes nothing to it: the code of `s1 ++ c :: s2` is the code of `s1` followed by
the code of `s2`. -/
theorem digram_encode_absent_symbol (e : DigramEncoder) (s1 s2 : Source) (c : Char)
    (habs : ∀ b ∈ utf8Bytes c, ∀ p ∈ e.Codewords, Char.ofNat b ∉ p.1) :
    e.Encode (s1 ++ c :: s2) = e.Encode s1 ++ e.Encode s2 := by
  unfold DigramEncoder.Encode
  have : stringBytes (s1 ++ c :: s2) = stringBytes s1 ++ utf8Bytes c ++ stringBytes s2 := by
    simp [stringBytes]
  rw [this]
  exact encodeLoop_absent_bytes e _ _ _ (utf8Bytes_ne_nil c) habs

/-- The symbol `c` in a source for the encoder trained on `{a, b}`. -/
theorem digram_encode_absent_symbol_witness :
    (Digram MapOrder.insertion [97, 98] [] 4).Encode (['a'] ++ 'c' :: ['b'])
      = (Digram MapOrder.insertion [97, 98] [] 4).Encode ['a']
        ++ (Digram MapOrder.insertion [97, 98] [] 4).Encode ['b'] :=
  digram_encode_absent_symbol (Digram MapOrder.insertion [97, 98] [] 4) ['a'] ['b'] 'c'
    (by decide)

/-! ## The persisted form of a code -/

theorem binValue_bits (s : Str) (hbits : ∀ c ∈ s, c = '0' ∨ c = '1') (acc : Nat) :
    ∃ v, v < 2 ^ s.length ∧ binValue s acc = some (acc * 2 ^ s.length + v) := by
  induction s generalizing acc with
  | nil => exact ⟨0, by simp, by simp [binValue]⟩
  | cons c rest ih =>
    have hrest : ∀ c ∈ rest, c = '0' ∨ c = '1' := fun c hc => hbits c (List.mem_cons_of_mem _ hc)
    rcases hbits c (List.mem_cons_self _ _) with hc | hc
    · obtain ⟨v, hv, he⟩ := ih hrest (2 * acc)
      refine ⟨v, ?_, ?_⟩
      · rw [List.length_cons, pow_succ]
        omega
      · simp only [binValue, hc, if_true, he, List.length_cons, pow_succ]
        congr 1
        ring
    · obtain ⟨v, hv, he⟩ := ih hrest (2 * acc + 1)
      refine ⟨2 ^ rest.length + v, ?_, ?_⟩
      · rw [List.length_cons, pow_succ]
        omega
      · have h10 : ¬ ('1' = '0') := by decide
        simp only [binValue, hc, h10, if_true, if_false, he, List.length_cons, pow_succ]
        congr 1
        ring

theorem binValue_inj (s : Str) (hs : ∀ c ∈ s, c = '0' ∨ c = '1') :
    ∀ (t : Str), (∀ c ∈ t, c = '0' ∨ c = '1') → s.length = t.length →
      ∀ acc, binValue s acc = binValue t acc → s = t := by
  induction s with
  | nil =>
    intro t _ hlen _ _
    exact (List.length_eq_zero.1 hlen.symm).symm
  | cons c rest ih =>
    intro t ht hlen acc heq
    cases t with
    | nil => simp at hlen
    | cons d rest2 =>
      have hrest : ∀ c ∈ rest, c = '0' ∨ c = '1' := fun c hc => hs c (List.mem_cons_of_mem _ hc)
      have hrest2 : ∀ c ∈ rest2, c = '0' ∨ c = '1' :=
        fun c hc => ht c (List.mem_cons_of_mem _ hc)
      have hl : rest.length = rest2.length := by simpa using hlen
      have h10 : ¬ ('1' = '0') := by decide
      rcases hs c (List.mem_cons_self _ _) with hc | hc <;>
        rcases ht d (List.mem_cons_self _ _) with hd | hd <;>
        subst hc <;> subst hd <;>
        simp only [binValue, if_true, if_false, h10] at heq
      · rw [ih hrest rest2 hrest2 hl _ heq]
      · exfalso
        obtain ⟨v1, hv1, e1⟩ := binValue_bits rest hrest (2 * acc)
        obtain ⟨v2, hv2, e2⟩ := binValue_bits rest2 hrest2 (2 * acc + 1)
        rw [e1, e2, hl] at heq
        have heq := Option.some.inj heq
        rw [hl] at hv1
        have e : (2 * acc + 1) * 2 ^ rest2.length = 2 * acc * 2 ^ rest2.length + 2 ^ rest2.length := by
          ring
        rw [e] at heq
        generalize 2 * acc * 2 ^ rest2.length = X at heq
        omega
      · exfalso
        obtain ⟨v1, hv1, e1⟩ := binValue_bits rest hrest (2 * acc + 1)
        obtain ⟨v2, hv2, e2⟩ := binValue_bits rest2 hrest2 (2 * acc)
        rw [e1, e2, hl] at heq
        have heq := Option.some.inj heq
        rw [hl] at hv1
        have e : (2 * acc + 1) * 2 ^ rest2.length = 2 * acc * 2 ^ rest2.length + 2 ^ rest2.length := by
          ring
        rw [e] at heq
        generalize 2 * acc * 2 ^ rest2.length = X at heq
        omega
      · rw [ih hrest rest2 hrest2 hl _ heq]

theorem digitChar_bit (d : Nat) : digitChar d = '0' ∨ digitChar d = '1' := by
  unfold digitChar
  split <;> simp

theorem binDigits_bits (fuel n : Nat) : ∀ c ∈ binDigits fuel n, c = '0' ∨ c = '1' := by
  induction fuel generalizing n with
  | zero => simp [binDigits]
  | succ f ih =>
    unfold binDigits
    split
    · intro c hc
      simp only [List.mem_singleton] at hc
      rw [hc]
      exact digitChar_bit _
    · intro c hc
      rcases List.mem_append.1 hc with h | h
      · exact ih _ c h
      · simp only [List.mem_singleton] at h
        rw [h]
        exact digitChar_bit _

theorem binDigits_length_pos (fuel n : Nat) : 1 ≤ (binDigits (fuel + 1) n).length := by
  unfold binDigits
  split <;> simp

theorem padZeros_bits (s : Str) (w : Nat) (h : ∀ c ∈ s, c = '0' ∨ c = '1') :
    ∀ c ∈ padZeros s w, c = '0' ∨ c = '1' := by
  unfold padZeros
  split
  · intro c hc
    rcases List.mem_append.1 hc with h1 | h1
    · exact Or.inl (List.eq_of_mem_replicate h1)
    · exact h c h1
  · exact h

theorem parseInt2_bits (s : Str) (hbits : ∀ c ∈ s, c = '0' ∨ c = '1') (hne : s ≠ [])
    (v : Nat) (hv : binValue s 0 = some v) (hlt : v < 2 ^ 63) :
    parseInt2 s = ((v : Int), false) := by
  cases s with
  | nil => exact absurd rfl hne
  | cons c rest =>
    have hlt2 : v < 9223372036854775808 := by
      norm_num at hlt
      exact hlt
    rcases hbits c (List.mem_cons_self _ _) with hc | hc <;> subst hc <;>
      simp [parseInt2, hv, hlt2]

/-- The eight characters that `ReadCode` produces for one byte. -/
theorem readByte_eq (chunk : Str) (hbits : ∀ c ∈ chunk, c = '0' ∨ c = '1')
    (hlen : chunk.length = 8) (v : Nat) (hv : binValue chunk 0 = some v) :
    ReadCode [v] = chunk := by
  obtain ⟨v', hv', e⟩ := binValue_bits chunk hbits 0
  rw [hv, hlen] at e
  rw [hlen] at hv'
  have hv8 : v < 2 ^ 8 := by
    have := Option.some.inj e
    omega
  have hl1 := binDigits_length_le (v + 1) v 8 (by omega) hv8
  have hl2 := binDigits_length_pos v v
  have hpad : ReadCode [v] = padZeros (formatInt2 (v : Int)) 8 := by
    simp only [ReadCode, List.flatMap_cons, List.flatMap_nil, List.append_nil, formatInt2_natCast,
      padZeros]
    by_cases h8 : (binDigits (v + 1) v).length = 8
    · simp [h8]
    · have hlt : (binDigits (v + 1) v).length < 8 := by omega
      have hmod : (binDigits (v + 1) v).length % 8 = (binDigits (v + 1) v).length :=
        Nat.mod_eq_of_lt hlt
      simp only [hmod, hlt, if_true]
      have : (binDigits (v + 1) v).length > 0 := by omega
      simp [this]
  rw [hpad]
  apply binValue_inj _ _ chunk hbits _ 0
  · rw [binValue_padZeros, formatInt2_natCast, binValue_binDigits _ _ (by omega), hv]
  · apply padZeros_bits
    rw [formatInt2_natCast]
    exact binDigits_bits _ _
  · rw [hlen]
    apply padZeros_length
    rw [formatInt2_natCast]
    exact hl1

theorem ReadCode_cons (b : Nat) (bytes : List Nat) :
    ReadCode (b :: bytes) = ReadCode [b] ++ ReadCode bytes := by
  simp [ReadCode]

theorem writeLoop_read (m : Nat) :
    ∀ (code : Code) (fuel : Nat), (∀ c ∈ code, c = '0' ∨ c = '1') → code.length = 8 * m →
      m < fuel → ∃ bytes, writeLoop fuel code = some bytes ∧ ReadCode bytes = code := by
  induction m with
  | zero =>
    intro code fuel _ hlen hf
    obtain ⟨f, rfl⟩ : ∃ f, fuel = f + 1 := ⟨fuel - 1, by omega⟩
    have hnil : code = [] := List.length_eq_zero.1 (by omega)
    subst hnil
    exact ⟨[], by simp [writeLoop], by simp [ReadCode]⟩
  | succ m ih =>
    intro code fuel hbits hlen hf
    obtain ⟨f, rfl⟩ : ∃ f, fuel = f + 1 := ⟨fuel - 1, by omega⟩
    have hsplit : code = code.take 8 ++ code.drop 8 := (List.take_append_drop 8 code).symm
    have htake : (code.take 8).length = 8 := by
      rw [List.length_take]
      omega
    have hbt : ∀ c ∈ code.take 8, c = '0' ∨ c = '1' :=
      fun c hc => hbits c (List.mem_of_mem_take hc)
    have hbd : ∀ c ∈ code.drop 8, c = '0' ∨ c = '1' :=
      fun c hc => hbits c (List.mem_of_mem_drop hc)
    obtain ⟨bytes, hw, hr⟩ := ih (code.drop 8) f hbd (by rw [List.length_drop]; omega) (by omega)
    obtain ⟨v, hv, e⟩ := binValue_bits (code.take 8) hbt 0
    rw [htake] at hv e
    simp only [Nat.zero_mul, Nat.zero_add] at e
    have hparse := parseInt2_bits (code.take 8) hbt
      (by intro h; rw [h] at htake; simp at htake) v e (by omega)
    refine ⟨v :: bytes, ?_, ?_⟩
    · unfold writeLoop
      have h8 : 8 ≤ code.length := by omega
      simp only [h8, if_true, hparse, hw, Option.map_some']
      have : ((v : Int) % 256).toNat = v := by omega
      simp [this]
    · rw [ReadCode_cons, readByte_eq (code.take 8) hbt htake v e, hr]
      exact hsplit.symm

/-- Claim C6. Persisted format round trip: for a code made of the characters `'0'` and
`'1'`, `WriteCode` succeeds, and `ReadCode` of the bytes it writes is the code followed by
exactly `(8 - len mod 8) mod 8` characters `'0'`. -/
theorem persisted_round_trip (code : Code) (hbits : ∀ c ∈ code, c = '0' ∨ c = '1') :
    (WriteCode code).map ReadCode
      = some (code ++ List.replicate ((8 - code.length % 8) % 8) '0') := by
  have hpad : (if code.length % 8 > 0 then code ++ List.replicate (8 - code.length % 8) '0'
      else code) = code ++ List.replicate ((8 - code.length % 8) % 8) '0' := by
    by_cases h : code.length % 8 > 0
    · have : (8 - code.length % 8) % 8 = 8 - code.length % 8 := by omega
      rw [if_pos h, this]
    · have : (8 - code.length % 8) % 8 = 0 := by omega
      rw [if_neg h, this]
      simp
  unfold WriteCode
  simp only [hpad]
  set code1 := code ++ List.replicate ((8 - code.length % 8) % 8) '0' with hc1
  have hb1 : ∀ c ∈ code1, c = '0' ∨ c = '1' := by
    intro c hc
    rcases List.mem_append.1 hc with h | h
    · exact hbits c h
    · exact Or.inl (List.eq_of_mem_replicate h)
  have hl1 : code1.length = 8 * (code1.length / 8) := by
    have : code1.length = code.length + (8 - code.length % 8) % 8 := by
      simp [hc1]
    omega
  obtain ⟨bytes, hw, hr⟩ := writeLoop_read (code1.length / 8) code1 (code1.length + 1) hb1 hl1
    (by omega)
  rw [hw, Option.map_some', hr]

/-- The code `101` is written as one byte and read back as `10100000`. -/
theorem persisted_round_trip_witness :
    (WriteCode ['1', '0', '1']).map ReadCode
      = some (['1', '0', '1'] ++ List.replicate ((8 - ['1', '0', '1'].length % 8) % 8) '0') :=
  persisted_round_trip ['1', '0', '1'] (by decide)

/-! ## The priority queue -/

theorem Swap_perm (pq : PriorityQueue) (i j : Nat) (hi : i < pq.length) (hj : j < pq.length) :
    (pq.Swap i j).Perm pq := by
  unfold PriorityQueue.Swap
  rw [List.getD_eq_getElem _ _ hi, List.getD_eq_getElem _ _ hj, List.perm_iff_count]
  intro a
  have hj2 : j < (pq.set i pq[j]).length := by simpa using hj
  rw [List.count_set _ _ _ _ hj2, List.count_set _ _ _ _ hi, List.getElem_set]
  have hx : pq[i] = a → 0 < List.count a pq := by
    intro h
    rw [List.count_pos_iff]
    exact h ▸ List.getElem_mem hi
  have hsame : (if i = j then pq[j] else pq[j]) = pq[j] := by split <;> rfl
  rw [hsame]
  by_cases h1 : pq[i] = a <;> by_cases h2 : pq[j] = a <;> simp [h1, h2]
  · have := hx h1
    omega
  · have := hx h1
    omega

theorem heapUp_perm (fuel : Nat) :
    ∀ (h : PriorityQueue) (j : Nat), j < h.length → (heapUp fuel h j).Perm h := by
  induction fuel with
  | zero => intro h j _; exact List.Perm.refl _
  | succ f ih =>
    intro h j hj
    unfold heapUp
    simp only
    split
    · exact List.Perm.refl _
    · have hi : (j - 1) / 2 < h.length := by omega
      have hs := Swap_perm h ((j - 1) / 2) j hi hj
      exact (ih _ _ (by rw [hs.length_eq]; exact hi)).trans hs

theorem heapDown_perm (fuel : Nat) :
    ∀ (h : PriorityQueue) (i n : Nat), n ≤ h.length → (heapDown fuel h i n).Perm h := by
  induction fuel with
  | zero => intro h i n _; exact List.Perm.refl _
  | succ f ih =>
    intro h i n hn
    unfold heapDown
    simp only
    by_cases hj1 : 2 * i + 1 ≥ n
    · rw [if_pos hj1]
    · rw [if_neg hj1]
      generalize hjdef : (if 2 * i + 1 + 1 < n ∧ h.Less (2 * i + 1 + 1) (2 * i + 1) = true
        then 2 * i + 1 + 1 else 2 * i + 1) = j
      have hj : j < n := by
        rw [← hjdef]
        split
        · rename_i hc
          exact hc.1
        · omega
      by_cases hl : (!h.Less j i) = true
      · rw [if_pos hl]
      · rw [if_neg hl]
        have hs := Swap_perm h i j (by omega) (by omega)
        exact (ih _ _ n (by rw [hs.length_eq]; exact hn)).trans hs

theorem heapPush_perm (queue : PriorityQueue) (node : Node) :
    (heapPush queue node).Perm (node :: queue) := by
  unfold heapPush
  simp only
  exact (heapUp_perm _ _ _ (by simp)).trans (List.perm_append_singleton node queue)

theorem heapPop_perm (queue : PriorityQueue) (hne : queue ≠ []) :
    ∃ x q, heapPop queue = some (x, q) ∧ (x :: q).Perm queue := by
  have hlen : 0 < queue.length := List.length_pos.2 hne
  unfold heapPop
  have h0 : ¬ queue.length = 0 := by omega
  simp only [h0, if_false]
  set h := heapDown queue.length (queue.Swap 0 (queue.length - 1)) 0 (queue.length - 1) with hh
  have hs := Swap_perm queue 0 (queue.length - 1) hlen (by omega)
  have hp : h.Perm queue :=
    (heapDown_perm _ _ _ _ (by rw [hs.length_eq]; omega)).trans hs
  have hl : h.length = queue.length := hp.length_eq
  have hn : queue.length - 1 < h.length := by omega
  refine ⟨_, _, rfl, ?_⟩
  rw [List.getD_eq_getElem _ _ hn]
  have hsplit : h = h.take (queue.length - 1) ++ [h[queue.length - 1]] := by
    conv_lhs => rw [← List.take_append_drop (queue.length - 1) h]
    congr 1
    rw [List.drop_eq_getElem_cons hn, List.drop_of_length_le (by omega)]
  have : (h[queue.length - 1] :: h.take (queue.length - 1)).Perm h := by
    conv_rhs => rw [hsplit]
    exact (List.perm_append_singleton _ _).symm
  exact this.trans hp

/-! ## The Huffman tree -/

theorem treeSymbols_ne_nil (t : Node) (h : FullTree t) : treeSymbols t ≠ [] := by
  induction h with
  | leaf c f hc => simp [treeSymbols, hc]
  | inner f l r _ _ ihl _ => simp [treeSymbols, ihl]

theorem mergeLoop_spec (fuel : Nat) :
    ∀ queue : PriorityQueue, queue ≠ [] → queue.length ≤ fuel → (∀ t ∈ queue, FullTree t) →
      ∃ t, mergeLoop fuel queue = some [t] ∧ FullTree t ∧
        (treeSymbols t).Perm (queue.flatMap treeSymbols) := by
  induction fuel with
  | zero =>
    intro queue hne hlen _
    exact absurd (List.length_eq_zero.1 (by omega)) hne
  | succ f ih =>
    intro queue hne hlen hfull
    unfold mergeLoop
    by_cases h1 : queue.length > 1
    · rw [if_pos h1]
      obtain ⟨n1, q1, e1, p1⟩ := heapPop_perm queue hne
      have hq1 : q1 ≠ [] := by
        intro h
        have := p1.length_eq
        rw [h] at this
        simp at this
        omega
      obtain ⟨n2, q2, e2, p2⟩ := heapPop_perm q1 hq1
      rw [e1]
      simp only
      rw [e2]
      simp only
      have pp := heapPush_perm q2 (Node.node (-1) (n1.frequency + n2.frequency) n1 n2)
      have pall : (n1 :: n2 :: q2).Perm queue := (List.Perm.cons n1 p2).trans p1
      have hn1 : FullTree n1 := hfull n1 (pall.mem_iff.1 (by simp))
      have hn2 : FullTree n2 := hfull n2 (pall.mem_iff.1 (by simp))
      have hlen2 : (heapPush q2 (Node.node (-1) (n1.frequency + n2.frequency) n1 n2)).length ≤ f := by
        have a := pp.length_eq
        have b := pall.length_eq
        simp only [List.length_cons] at a b
        omega
      obtain ⟨t, ht, hft, hpt⟩ := ih _ (by
          intro h
          have := pp.length_eq
          rw [h] at this
          simp at this) hlen2 (by
          intro t ht
          rcases List.mem_cons.1 (pp.mem_iff.1 ht) with h | h
          · rw [h]
            exact FullTree.inner _ _ _ hn1 hn2
          · exact hfull t (pall.mem_iff.1 (by simp [h])))
      refine ⟨t, ht, hft, hpt.trans ?_⟩
      refine (List.Perm.flatMap_right treeSymbols pp).trans ?_
      refine List.Perm.trans ?_ (List.Perm.flatMap_right treeSymbols pall)
      simp [treeSymbols]
    · rw [if_neg h1]
      obtain ⟨t, rfl⟩ : ∃ t, queue = [t] := by
        cases queue with
        | nil => exact absurd rfl hne
        | cons t rest =>
          cases rest with
          | nil => exact ⟨t, rfl⟩
          | cons _ _ => simp at h1
      exact ⟨t, rfl, hfull t (by simp), by simp⟩

theorem foldl_heapPush_perm (nodes : List Node) :
    ∀ queue : PriorityQueue, (nodes.foldl heapPush queue).Perm (nodes ++ queue) := by
  induction nodes with
  | nil => intro queue; exact List.Perm.refl _
  | cons n rest ih =>
    intro queue
    rw [List.foldl_cons]
    refine (ih _).trans ?_
    refine (List.Perm.append_left rest (heapPush_perm queue n)).trans ?_
    exact List.perm_middle

theorem makeHuffmanTree_spec (alphabet : List Rune) (frequencies : GoMap Rune Nat)
    (hne : alphabet ≠ []) (hsym : ∀ r ∈ alphabet, r ≠ -1) :
    ∃ t, makeHuffmanTree alphabet frequencies = some t ∧ FullTree t ∧
      (treeSymbols t).Perm alphabet := by
  unfold makeHuffmanTree
  simp only
  set nodes := alphabet.map (fun character =>
    Node.node character (frequencies.get character 0) .nil .nil) with hnodes
  have hq : (nodes.foldl heapPush []).Perm nodes := by
    simpa using foldl_heapPush_perm nodes []
  have hfull : ∀ t ∈ nodes.foldl heapPush [], FullTree t := by
    intro t ht
    obtain ⟨c, hc, rfl⟩ := List.mem_map.1 (hq.mem_iff.1 ht)
    exact FullTree.leaf _ _ (hsym c hc)
  have hqne : nodes.foldl heapPush [] ≠ [] := by
    intro h
    have := hq.length_eq
    rw [h, hnodes] at this
    simp at this
    exact hne (List.length_eq_zero.1 this.symm)
  obtain ⟨t, ht, hft, hpt⟩ := mergeLoop_spec _ _ hqne (Nat.le_succ _) hfull
  rw [ht]
  simp only
  obtain ⟨x, q, ex, px⟩ := heapPop_perm [t] (by simp)
  have hx : x = t := by
    have := List.perm_singleton.1 px
    simp at this
    exact this.1
  refine ⟨t, by rw [ex, hx]; rfl, hft, hpt.trans ?_⟩
  refine (List.Perm.flatMap_right treeSymbols hq).trans ?_
  have : nodes.flatMap treeSymbols = alphabet := by
    rw [hnodes]
    clear hq hfull hqne ht hpt ex px hnodes
    induction alphabet with
    | nil => rfl
    | cons c rest ih =>
      have hc : c ≠ -1 := hsym c (List.mem_cons_self _ _)
      by_cases hr : rest = []
      · subst hr
        simp [treeSymbols, hc]
      · have := ih hr (fun r hr => hsym r (List.mem_cons_of_mem _ hr))
        simp only [List.map_cons, List.flatMap_cons, this]
        simp [treeSymbols, hc]
  rw [this]

/-! ## The Huffman codewords -/

theorem traverse_eq_foldl (t : Node) :
    ∀ (codewords : GoMap Rune Str) (codeword : Str),
      traverseHuffmanTree t codewords codeword
        = (treeCodes t codeword).foldl (fun m p => m.set p.1 p.2) codewords := by
  induction t with
  | nil => intro _ _; rfl
  | node c f l r ihl ihr =>
    intro codewords codeword
    unfold traverseHuffmanTree treeCodes
    simp only
    rw [ihr, ihl, List.foldl_append, List.foldl_append]
    by_cases hc : c ≠ -1
    · rw [if_pos hc, if_pos hc]
      rfl
    · rw [if_neg hc, if_neg hc]
      rfl

theorem treeCodes_keys (t : Node) :
    ∀ codeword : Str, (treeCodes t codeword).map Prod.fst = treeSymbols t := by
  induction t with
  | nil => intro _; rfl
  | node c f l r ihl ihr =>
    intro codeword
    unfold treeCodes treeSymbols
    rw [List.map_append, List.map_append, ihl, ihr]
    by_cases hc : c ≠ -1
    · rw [if_pos hc, if_pos hc]
      rfl
    · rw [if_neg hc, if_neg hc]
      rfl

theorem foldl_set_fresh (L : List (Rune × Str)) :
    ∀ M : GoMap Rune Str, (L.map Prod.fst).Nodup → (∀ p ∈ L, p.1 ∉ M.map Prod.fst) →
      L.foldl (fun m p => m.set p.1 p.2) M = M ++ L := by
  induction L with
  | nil => intro M _ _; simp
  | cons q rest ih =>
    intro M hnd hfresh
    simp only [List.map_cons, List.nodup_cons] at hnd
    rw [List.foldl_cons, GoMap.set_of_not_mem M q.1 q.2 (hfresh q (List.mem_cons_self _ _)),
      ih _ hnd.2]
    · simp
    · intro p hp
      rw [List.map_append, List.mem_append]
      rintro (h | h)
      · exact hfresh p (List.mem_cons_of_mem _ hp) h
      · simp only [List.map_cons, List.map_nil, List.mem_singleton] at h
        exact hnd.1 (h ▸ List.mem_map_of_mem Prod.fst hp)

theorem makeCodewords_eq (t : Node) (hnd : (treeSymbols t).Nodup) :
    makeCodewords t = treeCodes t [] := by
  unfold makeCodewords
  rw [traverse_eq_foldl, foldl_set_fresh _ [] (by rw [treeCodes_keys]; exact hnd) (by simp)]
  rfl

theorem treeCodes_pre (t : Node) :
    ∀ (codeword : Str), ∀ p ∈ treeCodes t codeword, codeword <+: p.2 := by
  induction t with
  | nil => intro _ p hp; simp [treeCodes] at hp
  | node c f l r ihl ihr =>
    intro codeword p hp
    unfold treeCodes at hp
    rcases List.mem_append.1 hp with h | h
    · rcases List.mem_append.1 h with h | h
      · split at h
        · simp only [List.mem_singleton] at h
          rw [h]
        · simp at h
      · exact (List.prefix_append _ _).trans (ihl _ p h)
    · exact (List.prefix_append _ _).trans (ihr _ p h)

theorem branches_apart (codeword a b : Str) (ha : codeword ++ ['0'] <+: a)
    (hb : codeword ++ ['1'] <+: b) : ¬ a <+: b ∧ ¬ b <+: a := by
  have key : ∀ x : Str, codeword ++ ['0'] <+: x → codeword ++ ['1'] <+: x → False := by
    intro x h0 h1
    have hp := List.prefix_of_prefix_length_le h0 h1 (by simp)
    have := hp.eq_of_length (by simp)
    have := List.append_cancel_left this
    simp at this
  exact ⟨fun h => key b (ha.trans h) hb, fun h => key a ha (hb.trans h)⟩

theorem treeCodes_apart (t : Node) (h : FullTree t) :
    ∀ codeword : Str,
      (treeCodes t codeword).Pairwise (fun p q => ¬ p.2 <+: q.2 ∧ ¬ q.2 <+: p.2) := by
  induction h with
  | leaf c f hc =>
    intro codeword
    simp [treeCodes, hc]
  | inner f l r _ _ ihl ihr =>
    intro codeword
    unfold treeCodes
    simp only [ne_eq, not_true_eq_false, if_false, List.nil_append]
    rw [List.pairwise_append]
    refine ⟨ihl _, ihr _, ?_⟩
    intro p hp q hq
    exact branches_apart codeword p.2 q.2 (treeCodes_pre l _ p hp) (treeCodes_pre r _ q hq)

theorem treeCodes_inner_ne_nil (f : Nat) (l r : Node) (codeword : Str) :
    ∀ p ∈ treeCodes (.node (-1) f l r) codeword, p.2 ≠ [] := by
  intro p hp
  unfold treeCodes at hp
  simp only [ne_eq, not_true_eq_false, if_false, List.nil_append] at hp
  have hpre : ∃ b : Char, codeword ++ [b] <+: p.2 := by
    rcases List.mem_append.1 hp with h | h
    · exact ⟨'0', treeCodes_pre l _ p h⟩
    · exact ⟨'1', treeCodes_pre r _ p h⟩
  obtain ⟨b, hb⟩ := hpre
  intro hnil
  rw [hnil] at hb
  have := hb.length_le
  simp at this

/-- The table trained by `Huffman` on an alphabet of at least two distinct symbols, none
of them the marker `-1`: its keys are the alphabet, the codewords of two different entries
are not prefixes of one another, and no codeword is empty. -/
theorem Huffman_table (alphabet : List Rune) (corpus : Str) (hnd : alphabet.Nodup)
    (hlen : 2 ≤ alphabet.length) (hsym : ∀ r ∈ alphabet, r ≠ -1) :
    ∃ e, Huffman alphabet corpus = some e ∧
      (e.Codewords.map Prod.fst).Nodup ∧
      (e.Codewords.map Prod.fst).Perm alphabet ∧
      (∀ p ∈ e.Codewords, ∀ q ∈ e.Codewords, p ≠ q → ¬ p.2 <+: q.2) ∧
      (∀ p ∈ e.Codewords, p.2 ≠ []) := by
  have hne : alphabet ≠ [] := by
    intro h
    rw [h] at hlen
    simp at hlen
  obtain ⟨t, ht, hft, hpt⟩ := makeHuffmanTree_spec alphabet (characterFrequencies corpus) hne hsym
  have hndt : (treeSymbols t).Nodup := hpt.nodup_iff.2 hnd
  refine ⟨{ Alphabet := alphabet, Codewords := makeCodewords t }, ?_, ?_, ?_, ?_, ?_⟩
  · unfold Huffman
    simp only [ht, Option.map_some']
  · show ((makeCodewords t).map Prod.fst).Nodup
    rw [makeCodewords_eq t hndt, treeCodes_keys]
    exact hndt
  · show ((makeCodewords t).map Prod.fst).Perm alphabet
    rw [makeCodewords_eq t hndt, treeCodes_keys]
    exact hpt
  · show ∀ p ∈ makeCodewords t, ∀ q ∈ makeCodewords t, p ≠ q → ¬ p.2 <+: q.2
    rw [makeCodewords_eq t hndt]
    intro p hp q hq hpq
    have hpw := treeCodes_apart t hft []
    have hsymm : Symmetric (fun p q : Rune × Str => ¬ p.2 <+: q.2 ∧ ¬ q.2 <+: p.2) :=
      fun _ _ h => ⟨h.2, h.1⟩
    exact (hpw.forall hsymm hp hq hpq).1
  · show ∀ p ∈ makeCodewords t, p.2 ≠ []
    rw [makeCodewords_eq t hndt]
    cases hft with
    | leaf c f hc =>
      have := hpt.length_eq
      simp [treeSymbols, hc] at this
      omega
    | inner f l r hl hr => exact treeCodes_inner_ne_nil f l r []

/-- Claim C4. The Huffman codeword table is a prefix-free code over the alphabet: for an
alphabet of at least two distinct symbols (code points, so none is the marker `-1`) and
any corpus, training succeeds, every alphabet symbol has a codeword, and the codeword
of a symbol is not a prefix of the codeword of a different symbol. -/
theorem huffman_prefix_free (alphabet : List Rune) (corpus : Str) (hnd : alphabet.Nodup)
    (hlen : 2 ≤ alphabet.length) (hsym : ∀ r ∈ alphabet, r ≠ -1) :
    ∃ e, Huffman alphabet corpus = some e ∧
      (∀ x ∈ alphabet, (e.Codewords.find? x).isSome) ∧
      ∀ x ∈ alphabet, ∀ y ∈ alphabet, x ≠ y →
        ¬ e.Codewords.get x [] <+: e.Codewords.get y [] := by
  obtain ⟨e, he, hkn, hkp, hpf, -⟩ := Huffman_table alphabet corpus hnd hlen hsym
  have hfind : ∀ x ∈ alphabet, ∃ v, e.Codewords.find? x = some v ∧ (x, v) ∈ e.Codewords := by
    intro x hx
    have hk : x ∈ e.Codewords.map Prod.fst := hkp.mem_iff.2 hx
    cases hf : e.Codewords.find? x with
    | none => exact absurd hf (GoMap.find?_ne_none_of_key _ _ hk)
    | some v => exact ⟨v, rfl, GoMap.mem_of_find? _ _ _ hf⟩
  refine ⟨e, he, ?_, ?_⟩
  · intro x hx
    obtain ⟨v, hv, -⟩ := hfind x hx
    simp [hv]
  · intro x hx y hy hxy
    obtain ⟨vx, hvx, hmx⟩ := hfind x hx
    obtain ⟨vy, hvy, hmy⟩ := hfind y hy
    simp only [GoMap.get, hvx, hvy, Option.getD_some]
    exact hpf _ hmx _ hmy (by
      intro h
      exact hxy (Prod.mk.inj h).1)

/-- Scenario B of the specification: the table for the alphabet `{a, b, c}` with the
frequencies 5, 2 and 1 is a prefix-free code. -/
theorem huffman_prefix_free_witness :
    ∃ e, Huffman [97, 98, 99] "aaaaabbc".toList = some e ∧
      (∀ x ∈ ([97, 98, 99] : List Rune), (e.Codewords.find? x).isSome) ∧
      ∀ x ∈ ([97, 98, 99] : List Rune), ∀ y ∈ ([97, 98, 99] : List Rune), x ≠ y →
        ¬ e.Codewords.get x [] <+: e.Codewords.get y [] :=
  huffman_prefix_free [97, 98, 99] "aaaaabbc".toList (by decide) (by decide) (by decide)

/-! ## Prefix decoding -/

theorem prefixDecodeLoop_cons (dec : GoMap Str Rune) (character : Rune) (rest : List Rune)
    (codeword : Str) :
    prefixDecodeLoop dec (character :: rest) codeword
      = if dec.get (codeword ++ runeString character) 0 ≠ 0 then
          runeString (dec.get (codeword ++ runeString character) 0)
            ++ prefixDecodeLoop dec rest []
        else prefixDecodeLoop dec rest (codeword ++ runeString character) := by
  rw [prefixDecodeLoop]

theorem prefixDecode_codeword (dec : GoMap Str Rune) (k : Rune) (v : Str) (hk : k ≠ 0)
    (hfind : dec.find? v = some k)
    (hproper : ∀ u : Str, u <+: v → u ≠ v → dec.find? u = none) (rest : List Rune) :
    ∀ (s acc : Str), acc ++ s = v → s ≠ [] →
      prefixDecodeLoop dec (stringRunes s ++ rest) acc
        = runeString k ++ prefixDecodeLoop dec rest [] := by
  intro s
  induction s with
  | nil => intro _ _ h; exact absurd rfl h
  | cons c s1 ih =>
    intro acc hv _
    have hstep : stringRunes (c :: s1) ++ rest = (c.toNat : Int) :: (stringRunes s1 ++ rest) := rfl
    rw [hstep, prefixDecodeLoop_cons, runeString_char]
    by_cases hs1 : s1 = []
    · subst hs1
      have hacc : acc ++ [c] = v := hv
      have hget : dec.get (acc ++ [c]) 0 = k := by
        rw [hacc, GoMap.get, hfind]
        rfl
      rw [hget, if_pos hk]
      rfl
    · have hpre : acc ++ [c] <+: v := ⟨s1, by rw [← hv]; simp⟩
      have hneq : acc ++ [c] ≠ v := by
        intro h
        have h1 := congrArg List.length h
        rw [← hv] at h1
        simp at h1
        exact hs1 h1
      have hget : dec.get (acc ++ [c]) 0 = 0 := by
        rw [GoMap.get, hproper _ hpre hneq]
        rfl
      rw [hget, if_neg (fun h => h rfl)]
      exact ih (acc ++ [c]) (by rw [← hv]; simp) hs1

/-- Greedy decoding of an encoded source followed by any code: for a table with
no codeword empty or a prefix of the codeword of another entry, the source comes
back and the decoding goes on with the rest from an empty accumulator. -/
theorem prefix_decode_encode (ord : MapOrder) (hord : ord.Valid) (e : PrefixEncoder)
    (hpf : ∀ p ∈ e.Codewords, ∀ q ∈ e.Codewords, p ≠ q → ¬ p.2 <+: q.2)
    (hne : ∀ p ∈ e.Codewords, p.2 ≠ []) (tail : Code) :
    ∀ source : Source,
      (∀ c ∈ source, (c.toNat : Int) ∈ e.Codewords.map Prod.fst ∧ (c.toNat : Int) ≠ 0) →
      e.Decode ord (e.Encode source ++ tail) = source ++ e.Decode ord tail := by
  intro source
  induction source with
  | nil =>
    intro _
    simp [PrefixEncoder.Encode, stringRunes]
  | cons c rest ih =>
    intro hsrc
    have ih1 := ih (fun c hc => hsrc c (List.mem_cons_of_mem _ hc))
    obtain ⟨hkey, hnz⟩ := hsrc c (List.mem_cons_self _ _)
    cases hf : e.Codewords.find? (c.toNat : Int) with
    | none => exact absurd hf (GoMap.find?_ne_none_of_key _ _ hkey)
    | some v =>
      have hmem : ((c.toNat : Int), v) ∈ e.Codewords := GoMap.mem_of_find? _ _ _ hf
      have hvne : v ≠ [] := hne _ hmem
      have hdec : (invertCodewords ord e.Codewords).find? v = some (c.toNat : Int) := by
        apply invertCodewords_find? ord hord _ _ _ hmem
        intro p hp hpv
        by_contra hpk
        have hne2 : p ≠ ((c.toNat : Int), v) := fun h => hpk (by rw [h])
        exact hpf p hp _ hmem hne2 (by rw [hpv])
      have hproper : ∀ u : Str, u <+: v → u ≠ v →
          (invertCodewords ord e.Codewords).find? u = none := by
        intro u hu huv
        cases hfu : (invertCodewords ord e.Codewords).find? u with
        | none => rfl
        | some k2 =>
          exfalso
          have hm2 := invertCodewords_mem ord hord _ _ _ hfu
          exact hpf _ hm2 _ hmem (fun h => huv (Prod.mk.inj h).2) hu
      have henc : e.Encode (c :: rest) = v ++ e.Encode rest := by
        simp [PrefixEncoder.Encode, stringRunes, GoMap.get, hf]
      unfold PrefixEncoder.Decode at ih1 ⊢
      rw [henc, List.append_assoc]
      have hruns : stringRunes (v ++ (e.Encode rest ++ tail))
          = stringRunes v ++ stringRunes (e.Encode rest ++ tail) := by
        simp [stringRunes]
      rw [hruns, prefixDecode_codeword _ _ v hnz hdec hproper _ v [] (by simp) hvne, ih1,
        runeString_char]
      rfl

/-- Claim C2. Huffman round trip: for an alphabet of at least two distinct symbols, none of
them NUL (nor the marker `-1`), any corpus and any order of map iteration, training
succeeds and decoding the code of a source made of alphabet symbols returns the source. -/
theorem huffman_round_trip (alphabet : List Rune) (corpus : Str) (hnd : alphabet.Nodup)
    (hlen : 2 ≤ alphabet.length) (hsym : ∀ r ∈ alphabet, r ≠ 0 ∧ r ≠ -1) :
    ∃ e, Huffman alphabet corpus = some e ∧
      ∀ ord : MapOrder, ord.Valid →
        ∀ source : Source, (∀ c ∈ source, (c.toNat : Int) ∈ alphabet) →
          e.Decode ord (e.Encode source) = source := by
  obtain ⟨e, he, hkn, hkp, hpf, hne⟩ :=
    Huffman_table alphabet corpus hnd hlen (fun r hr => (hsym r hr).2)
  refine ⟨e, he, ?_⟩
  intro ord hord source hsrc
  have := prefix_decode_encode ord hord e hpf hne [] source
    (fun c hc => ⟨hkp.mem_iff.2 (hsrc c hc), (hsym _ (hsrc c hc)).1⟩)
  rw [List.append_nil] at this
  rw [this]
  simp [PrefixEncoder.Decode, stringRunes, prefixDecodeLoop]

/-- Scenario B of the specification: the round trip for the alphabet `{a, b, c}` with the
frequencies 5, 2 and 1. -/
theorem huffman_round_trip_witness :
    ∃ e, Huffman [97, 98, 99] "aaaaabbc".toList = some e ∧
      ∀ ord : MapOrder, ord.Valid →
        ∀ source : Source, (∀ c ∈ source, (c.toNat : Int) ∈ ([97, 98, 99] : List Rune)) →
          e.Decode ord (e.Encode source) = source :=
  huffman_round_trip [97, 98, 99] "aaaaabbc".toList (by decide) (by decide) (by decide)

/-! ## Huffman: padding, and the one-symbol alphabet -/

theorem prefixDecode_zeros (dec : GoMap Str Rune) :
    ∀ (m a : Nat), (∀ j, a < j → j ≤ a + m → dec.find? (List.replicate j '0') = none) →
      prefixDecodeLoop dec (stringRunes (List.replicate m '0')) (List.replicate a '0') = [] := by
  intro m
  induction m with
  | zero => intro a _; simp [stringRunes, prefixDecodeLoop]
  | succ m ih =>
    intro a h
    have hstep : stringRunes (List.replicate (m + 1) '0')
        = (('0' : Char).toNat : Int) :: stringRunes (List.replicate m '0') := rfl
    have hacc : List.replicate a '0' ++ ['0'] = List.replicate (a + 1) '0' := by
      rw [List.replicate_succ']
    rw [hstep, prefixDecodeLoop_cons, runeString_char, hacc]
    have hget : dec.get (List.replicate (a + 1) '0') 0 = 0 := by
      rw [GoMap.get, h (a + 1) (by omega) (by omega)]
      rfl
    rw [hget, if_neg (fun h => h rfl)]
    exact ih (a + 1) (fun j h1 h2 => h j (by omega) (by omega))

/-- Claim C7, counterexample. For the alphabet `{a, b}` and the empty corpus, the code of
`"a"` is `0`, seven pad bits follow it in the persisted form, and `Decode` of the padded
code is `"aaaaaaaa"`, not `"a"`. -/
theorem huffman_padding_decoded :
    (Huffman [97, 98] []).map (fun e =>
        (e.Encode ['a'], (8 - (e.Encode ['a']).length % 8) % 8,
          e.Decode MapOrder.insertion (e.Encode ['a'] ++ List.replicate 7 '0'),
          e.Decode MapOrder.insertion (e.Encode ['a'])))
      = some (['0'], 7, List.replicate 8 'a', ['a']) := by
  decide

/-- Claim C7, as amended. For a Huffman-trained encoder (alphabet of at least two distinct
symbols, none NUL or `-1`, any corpus), a source of alphabet symbols with code `c`, and
`k = (8 - len(c) mod 8) mod 8`: decoding `c` followed by `k` zero bits gives the decoding
of `c` followed by the decoding of the `k` zero bits; the two decodings are equal when no
codeword consists of between 1 and `k` zero bits. -/
theorem huffman_padding (alphabet : List Rune) (corpus : Str) (hnd : alphabet.Nodup)
    (hlen : 2 ≤ alphabet.length) (hsym : ∀ r ∈ alphabet, r ≠ 0 ∧ r ≠ -1) :
    ∃ e, Huffman alphabet corpus = some e ∧
      ∀ ord : MapOrder, ord.Valid →
        ∀ source : Source, (∀ c ∈ source, (c.toNat : Int) ∈ alphabet) →
          e.Decode ord
              (e.Encode source ++ List.replicate ((8 - (e.Encode source).length % 8) % 8) '0')
            = e.Decode ord (e.Encode source)
              ++ e.Decode ord (List.replicate ((8 - (e.Encode source).length % 8) % 8) '0') ∧
          ((∀ j, 1 ≤ j → j ≤ (8 - (e.Encode source).length % 8) % 8 →
              ∀ p ∈ e.Codewords, p.2 ≠ List.replicate j '0') →
            e.Decode ord
              (e.Encode source ++ List.replicate ((8 - (e.Encode source).length % 8) % 8) '0')
            = e.Decode ord (e.Encode source)) := by
  obtain ⟨e, he, -, hkp, hpf, hne⟩ :=
    Huffman_table alphabet corpus hnd hlen (fun r hr => (hsym r hr).2)
  refine ⟨e, he, ?_⟩
  intro ord hord source hsrc
  have hkeys : ∀ c ∈ source,
      (c.toNat : Int) ∈ e.Codewords.map Prod.fst ∧ (c.toNat : Int) ≠ 0 :=
    fun c hc => ⟨hkp.mem_iff.2 (hsrc c hc), (hsym _ (hsrc c hc)).1⟩
  have h0 := prefix_decode_encode ord hord e hpf hne [] source hkeys
  have hnil : e.Decode ord [] = [] := by
    simp [PrefixEncoder.Decode, stringRunes, prefixDecodeLoop]
  rw [List.append_nil, hnil, List.append_nil] at h0
  have h1 := prefix_decode_encode ord hord e hpf hne
    (List.replicate ((8 - (e.Encode source).length % 8) % 8) '0') source hkeys
  refine ⟨by rw [h1, h0], ?_⟩
  intro hz
  rw [h1, h0]
  have : e.Decode ord (List.replicate ((8 - (e.Encode source).length % 8) % 8) '0') = [] := by
    unfold PrefixEncoder.Decode
    apply prefixDecode_zeros _ _ 0
    intro j hj1 hj2
    cases hf : (invertCodewords ord e.Codewords).find? (List.replicate j '0') with
    | none => rfl
    | some k2 =>
      exfalso
      have hm := invertCodewords_mem ord hord _ _ _ hf
      exact hz j (by omega) (by omega) _ hm rfl
  rw [this, List.append_nil]

/-- Scenario B of the specification: decoding of a padded code for the alphabet
`{a, b, c}` with the frequencies 5, 2 and 1. -/
theorem huffman_padding_witness :
    ∃ e, Huffman [97, 98, 99] "aaaaabbc".toList = some e ∧
      ∀ ord : MapOrder, ord.Valid →
        ∀ source : Source, (∀ c ∈ source, (c.toNat : Int) ∈ ([97, 98, 99] : List Rune)) →
          e.Decode ord
              (e.Encode source ++ List.replicate ((8 - (e.Encode source).length % 8) % 8) '0')
            = e.Decode ord (e.Encode source)
              ++ e.Decode ord (List.replicate ((8 - (e.Encode source).length % 8) % 8) '0') ∧
          ((∀ j, 1 ≤ j → j ≤ (8 - (e.Encode source).length % 8) % 8 →
              ∀ p ∈ e.Codewords, p.2 ≠ List.replicate j '0') →
            e.Decode ord
              (e.Encode source ++ List.replicate ((8 - (e.Encode source).length % 8) % 8) '0')
            = e.Decode ord (e.Encode source)) :=
  huffman_padding [97, 98, 99] "aaaaabbc".toList (by decide) (by decide) (by decide)

/-- Claim C8, counterexample. For the alphabet `{a}` the code of `"a"` is empty and decodes
to the empty source. -/
theorem huffman_single_symbol_lost :
    (Huffman [97] ['a', 'a']).map (fun e =>
        (e.Codewords, e.Encode ['a'], e.Decode MapOrder.insertion (e.Encode ['a'])))
      = some ([(97, [])], [], []) := by
  decide

/-- Claim C8, as amended. For an alphabet of the single symbol `x`, any corpus and any `n`,
training succeeds, the codeword of `x` is empty, the code of `x` repeated `n` times is
empty and decodes to the empty source: the round trip holds for `n = 0` only. -/
theorem huffman_single_symbol (ord : MapOrder) (c : Char) (corpus : Str) (n : Nat) :
    ∃ e, Huffman [(c.toNat : Int)] corpus = some e ∧
      e.Codewords = [((c.toNat : Int), [])] ∧
      e.Encode (List.replicate n c) = [] ∧
      e.Decode ord (e.Encode (List.replicate n c)) = [] ∧
      (e.Decode ord (e.Encode (List.replicate n c)) = List.replicate n c ↔ n = 0) := by
  have hc : ((c.toNat : Int) : Rune) ≠ -1 := by
    intro h
    have : (0 : Int) ≤ (c.toNat : Int) := Int.ofNat_nonneg _
    rw [h] at this
    omega
  have hH : Huffman [(c.toNat : Int)] corpus
      = some { Alphabet := [(c.toNat : Int)], Codewords := [((c.toNat : Int), [])] } := by
    simp [Huffman, makeHuffmanTree, heapPush, heapUp, mergeLoop, heapPop, heapDown,
      PriorityQueue.Swap, makeCodewords, traverseHuffmanTree, hc, GoMap.set]
  refine ⟨_, hH, rfl, ?_⟩
  have henc : PrefixEncoder.Encode
      { Alphabet := [(c.toNat : Int)], Codewords := [((c.toNat : Int), [])] }
      (List.replicate n c) = [] := by
    induction n with
    | zero => rfl
    | succ n ih =>
      simp only [PrefixEncoder.Encode, stringRunes, List.replicate_succ, List.map_cons,
        List.flatMap_cons] at ih ⊢
      rw [ih]
      simp [GoMap.get, GoMap.find?]
  have hdec : PrefixEncoder.Decode ord
      { Alphabet := [(c.toNat : Int)], Codewords := [((c.toNat : Int), [])] } [] = [] := by
    simp [PrefixEncoder.Decode, stringRunes, prefixDecodeLoop]
  refine ⟨henc, by rw [henc, hdec], ?_⟩
  rw [henc, hdec]
  constructor
  · intro h
    have := congrArg List.length h
    simpa using this.symm
  · intro h
    subst h
    rfl

/-! ## LZW: the rounds of the encoding loop -/

theorem lzwEncodeLoop_succ (e : LZWEncoder) (characters : List Nat) (fuel i : Nat)
    (st : EncodeState) :
    lzwEncodeLoop e characters (fuel + 1) i st
      = match lzwEncodeStep e characters i st with
        | none => some st.sb
        | some s1 => lzwEncodeLoop e characters fuel s1.1 s1.2 := by
  rw [lzwEncodeLoop]
  unfold lzwEncodeStep
  cases characters[i]? with
  | none => rfl
  | some b =>
    simp only
    split <;> rfl

theorem lzwEncodeLoop_iter (e : LZWEncoder) (characters : List Nat) (fuel : Nat) :
    ∀ (n : Nat) (s : Nat × EncodeState),
      lzwEncodeLoop e characters (n + (fuel + 1)) s.1 s.2
        = lzwEncodeLoop e characters (fuel + 1) (lzwEncodeIter e characters n s).1
            (lzwEncodeIter e characters n s).2 := by
  intro n
  induction n with
  | zero => intro s; simp [lzwEncodeIter]
  | succ n ih =>
    intro s
    have h1 : n + 1 + (fuel + 1) = (n + (fuel + 1)) + 1 := by omega
    rw [h1, lzwEncodeLoop_succ]
    unfold lzwEncodeIter
    cases hs : lzwEncodeStep e characters s.1 s.2 with
    | none =>
      simp only
      rw [lzwEncodeLoop_succ, hs]
    | some s1 =>
      simp only
      exact ih s1

theorem Encode_eq_loop (fuel : Nat) (e : LZWEncoder) (source : Source) :
    e.Encode fuel source
      = lzwEncodeLoop e (stringBytes (cleanSource source e.Alphabet)) fuel 0 (lzwEncodeStart e) := rfl

theorem initialDictionary_aux (alphabet : List Rune) :
    ∀ (st : Int × GoMap Str Int), 2 ≤ st.1 → (∀ k v, st.2.find? k = some v → 2 ≤ v) →
      2 ≤ (alphabet.foldl
        (fun st character => (st.1 + 1, st.2.set (runeString character) st.1)) st).1 ∧
      (∀ k v, (alphabet.foldl
        (fun st character => (st.1 + 1, st.2.set (runeString character) st.1)) st).2.find? k
          = some v → 2 ≤ v) ∧
      (∀ k, (k ∈ alphabet.map runeString ∨ st.2.find? k ≠ none) →
        (alphabet.foldl
          (fun st character => (st.1 + 1, st.2.set (runeString character) st.1)) st).2.find? k
            ≠ none) := by
  induction alphabet with
  | nil =>
    intro st h1 h2
    refine ⟨h1, h2, ?_⟩
    intro k hk
    simpa using hk
  | cons a rest ih =>
    intro st h1 h2
    rw [List.foldl_cons]
    obtain ⟨i1, i2, i3⟩ := ih (st.1 + 1, st.2.set (runeString a) st.1) (by simp; omega) (by
      intro k v hf
      simp only at hf
      by_cases hk : runeString a = k
      · subst hk
        rw [GoMap.find?_set_self] at hf
        have := Option.some.inj hf
        omega
      · rw [GoMap.find?_set_ne _ _ _ _ hk] at hf
        exact h2 k v hf)
    refine ⟨i1, i2, ?_⟩
    intro k hk
    apply i3
    by_cases hka : runeString a = k
    · right
      subst hka
      simp only
      rw [GoMap.find?_set_self]
      simp
    · rcases hk with hk | hk
      · left
        simp only [List.map_cons, List.mem_cons] at hk
        rcases hk with hk | hk
        · exact absurd hk.symm hka
        · exact hk
      · right
        simp only
        rw [GoMap.find?_set_ne _ _ _ _ hka]
        exact hk

theorem initialDictionary_spec (alphabet : List Rune) :
    2 ≤ (initialDictionary alphabet).1 ∧
    (∀ k v, (initialDictionary alphabet).2.find? k = some v → 2 ≤ v) ∧
    (∀ r ∈ alphabet, (initialDictionary alphabet).2.find? (runeString r) ≠ none) := by
  obtain ⟨h1, h2, h3⟩ := initialDictionary_aux alphabet (2, []) (by simp) (by
    intro k v h
    simp [GoMap.find?] at h)
  exact ⟨h1, h2, fun r hr => h3 _ (Or.inl (List.mem_map_of_mem _ hr))⟩

theorem get_ne_zero_of_ge_two (d : GoMap Str Int) (k : Str)
    (hval : ∀ k v, d.find? k = some v → 2 ≤ v) (hk : d.find? k ≠ none) : d.get k 0 ≠ 0 := by
  cases hf : d.find? k with
  | none => exact absurd hf hk
  | some v =>
    have := hval k v hf
    simp only [GoMap.get, hf, Option.getD_some]
    omega

/-- Claim C18. LZW `Encode` never writes the pending pattern: for a source of one
single-byte alphabet symbol `Encode` returns the empty code (and `Decode` of the empty
code is the empty source); in general, once the input is used up the loop returns what
has been written, whatever the pattern buffer holds. -/
theorem lzw_pending_pattern_dropped (e : LZWEncoder) (c : Char)
    (hc : (c.toNat : Int) ∈ e.Alphabet) (hbyte : c.toNat < 128) (fuel : Nat)
    (hfuel : 2 ≤ fuel) :
    e.Encode fuel [c] = some [] ∧ e.Decode fuel [] = some [] ∧
    ∀ (characters : List Nat) (f i : Nat) (st : EncodeState), characters.length ≤ i →
      lzwEncodeLoop e characters (f + 1) i st = some st.sb := by
  obtain ⟨f, rfl⟩ : ∃ f, fuel = f + 2 := ⟨fuel - 2, by omega⟩
  obtain ⟨-, hval, hkeys⟩ := initialDictionary_spec e.Alphabet
  refine ⟨?_, ?_, ?_⟩
  · have hclean : cleanSource [c] e.Alphabet = [c] := by
      rw [cleanSource_eq_filter]
      simp [hc]
    have hbytes : stringBytes [c] = [c.toNat] := by
      simp [stringBytes, utf8Bytes, hbyte]
    rw [Encode_eq_loop, hclean, hbytes, lzwEncodeLoop_succ]
    have hget : (initialDictionary e.Alphabet).2.get [c] 0 ≠ 0 := by
      apply get_ne_zero_of_ge_two _ _ hval
      have := hkeys _ hc
      rwa [runeString_char] at this
    have hstep : lzwEncodeStep e [c.toNat] 0 (lzwEncodeStart e)
        = some (1, { lzwEncodeStart e with pattern := [c] }) := by
      simp [lzwEncodeStep, lzwEncodeStart, byteString, Char.ofNat_toNat, hget]
    rw [hstep]
    simp only
    rw [lzwEncodeLoop_succ]
    simp [lzwEncodeStep, lzwEncodeStart]
  · unfold LZWEncoder.Decode
    by_cases h0 : e.InitialBits = 0
    · simp [lzwDecodeLoop, h0, parseInt2, ResizeSignal]
    · have : ¬ (e.InitialBits ≤ 0) := by omega
      simp [lzwDecodeLoop, this]
  · intro characters f i st hi
    rw [lzwEncodeLoop_succ]
    have : characters[i]? = none := List.getElem?_eq_none hi
    simp [lzwEncodeStep, this]

/-- The source `a` for the alphabet `{a, b}` and codewords of 8 bits. -/
theorem lzw_pending_pattern_dropped_witness :
    (LZW [97, 98] 12 0).Encode 2 ['a'] = some [] ∧ (LZW [97, 98] 12 0).Decode 2 [] = some [] :=
  ⟨(lzw_pending_pattern_dropped (LZW [97, 98] 12 0) 'a' (by decide) (by decide) 2
      (by decide)).1,
   (lzw_pending_pattern_dropped (LZW [97, 98] 12 0) 'a' (by decide) (by decide) 2
      (by decide)).2.1⟩

/-! ## LZW: scenarios of width growth, flush and self-reference -/

/-- Claim C14. LZW width growth signalling, for the alphabet `{a, b}`, `InitialBits = 3`,
`MaxBits = 6` and the source `abababab`: the output is the codewords 2 and 3 of 3 bits,
one RESIZE codeword (value 0) of 3 bits, `000`, and the codewords 4 and 6 of 4 bits, that
is `010 011 000 0100 0110`; before the round that writes RESIZE the next free index is
`2 ^ 3 - 2 = 6` and the width 3, after it the width is 4. -/
theorem lzw_resize_scenario :
    LZWEncoder.Encode 100 ⟨[97, 98], 3, 6, 0⟩ "abababab".toList
      = some (intToCodeword 2 3 ++ intToCodeword 3 3 ++ intToCodeword ResizeSignal 3
          ++ intToCodeword 4 4 ++ intToCodeword 6 4) ∧
    intToCodeword 2 3 ++ intToCodeword 3 3 ++ intToCodeword ResizeSignal 3
        ++ intToCodeword 4 4 ++ intToCodeword 6 4 = "01001100001000110".toList ∧
    intToCodeword ResizeSignal 3 = "000".toList ∧
    (lzwEncodeIter ⟨[97, 98], 3, 6, 0⟩ (stringBytes "abababab".toList) 6
        (0, lzwEncodeStart ⟨[97, 98], 3, 6, 0⟩)).2.pointer = 2 ^ 3 - 2 ∧
    (lzwEncodeIter ⟨[97, 98], 3, 6, 0⟩ (stringBytes "abababab".toList) 6
        (0, lzwEncodeStart ⟨[97, 98], 3, 6, 0⟩)).2.codelength = 3 ∧
    (lzwEncodeIter ⟨[97, 98], 3, 6, 0⟩ (stringBytes "abababab".toList) 6
        (0, lzwEncodeStart ⟨[97, 98], 3, 6, 0⟩)).2.sb = "010011".toList ∧
    (lzwEncodeIter ⟨[97, 98], 3, 6, 0⟩ (stringBytes "abababab".toList) 7
        (0, lzwEncodeStart ⟨[97, 98], 3, 6, 0⟩)).2.sb = "0100110000100".toList ∧
    (lzwEncodeIter ⟨[97, 98], 3, 6, 0⟩ (stringBytes "abababab".toList) 7
        (0, lzwEncodeStart ⟨[97, 98], 3, 6, 0⟩)).2.codelength = 4 ∧
    (lzwEncodeIter ⟨[97, 98], 3, 6, 0⟩ (stringBytes "abababab".toList) 12
        (0, lzwEncodeStart ⟨[97, 98], 3, 6, 0⟩)).2.codelength = 4 ∧
    (lzwEncodeIter ⟨[97, 98], 3, 6, 0⟩ (stringBytes "abababab".toList) 12
        (0, lzwEncodeStart ⟨[97, 98], 3, 6, 0⟩)).2.sb = "01001100001000110".toList := by
  refine ⟨?_, ?_, ?_, ?_, ?_, ?_, ?_, ?_, ?_, ?_⟩ <;> decide

/-- Claim C15, failing input. For the alphabet `{a, b}`, `InitialBits = MaxBits = 3`,
`CompressionThreshold = 1000` and the source `abababab`, the output is the 3-bit
codewords 2, 3, 4, 4: no FLUSH codeword (value 1), although after seven rounds the next
free index is `2 ^ 3 - 2 = 6` (the dictionary is saturated), a codeword has just been
written and the ratio of the bits read to the bits written is far below the threshold;
the dictionary keeps the entry of `ab` and the next free index stays 6. -/
theorem lzw_flush_never_written :
    LZWEncoder.Encode 100 ⟨[97, 98], 3, 3, 1000⟩ "abababab".toList
      = some (intToCodeword 2 3 ++ intToCodeword 3 3 ++ intToCodeword 4 3
          ++ intToCodeword 4 3) ∧
    intToCodeword FlushSignal 3 = "001".toList ∧
    intToCodeword 2 3 ++ intToCodeword 3 3 ++ intToCodeword 4 3 ++ intToCodeword 4 3
      = "010011100100".toList ∧
    (lzwEncodeIter ⟨[97, 98], 3, 3, 1000⟩ (stringBytes "abababab".toList) 7
        (0, lzwEncodeStart ⟨[97, 98], 3, 3, 1000⟩)).2.pointer = 2 ^ 3 - 2 ∧
    (lzwEncodeIter ⟨[97, 98], 3, 3, 1000⟩ (stringBytes "abababab".toList) 7
        (0, lzwEncodeStart ⟨[97, 98], 3, 3, 1000⟩)).2.sb = "010011100".toList ∧
    (lzwEncodeIter ⟨[97, 98], 3, 3, 1000⟩ (stringBytes "abababab".toList) 7
        (0, lzwEncodeStart ⟨[97, 98], 3, 3, 1000⟩)).2.dictionary.find? ['a', 'b'] = some 4 := by
  refine ⟨?_, ?_, ?_, ?_, ?_, ?_⟩ <;> decide

/-- Claim C16, failing input. For the alphabet `{a, b}` and codewords of 8 bits, the code
of `aaaaaaa` is the codewords 2, 4, 5, and `Decode` of it is `aaa`: at the codeword 5,
which is not registered and is the next free index, the loop over the pattern buffer `a`
finds `aa` registered, so it writes nothing and registers nothing. -/
theorem lzw_decode_self_reference :
    LZWEncoder.Encode 100 (LZW [97, 98] 12 0) "aaaaaaa".toList
      = some (intToCodeword 2 8 ++ intToCodeword 4 8 ++ intToCodeword 5 8) ∧
    LZWEncoder.Decode 100 (LZW [97, 98] 12 0)
      (intToCodeword 2 8 ++ intToCodeword 4 8 ++ intToCodeword 5 8) = some "aaa".toList ∧
    (decodeWild (stringRunes ['a'])
      { pointer := 5, dictionary := [(['a'], 2), (['b'], 3), (['a', 'a'], 4)],
        reverseDictionary := [(2, ['a']), (3, ['b']), (4, ['a', 'a'])],
        codelength := 8, sb := ['a', 'a', 'a'], pattern := ['a'] }).sb = ['a', 'a', 'a'] ∧
    (decodeWild (stringRunes ['a'])
      { pointer := 5, dictionary := [(['a'], 2), (['b'], 3), (['a', 'a'], 4)],
        reverseDictionary := [(2, ['a']), (3, ['b']), (4, ['a', 'a'])],
        codelength := 8, sb := ['a', 'a', 'a'], pattern := ['a'] }).reverseDictionary.find? 5
      = none := by
  refine ⟨?_, ?_, ?_, ?_⟩ <;> decide

theorem get_index_ne_flush (d : GoMap Str Int) (entry : Option Str)
    (hval : ∀ k v, d.find? k = some v → 2 ≤ v) :
    (match entry with
      | some entry => d.get entry 0
      | none => 0) ≠ FlushSignal := by
  unfold FlushSignal
  cases entry with
  | none => simp
  | some k =>
    simp only [GoMap.get]
    cases hf : d.find? k with
    | none => simp
    | some v =>
      have := hval k v hf
      simp only [Option.getD_some]
      omega

theorem set_values_ge_two (d : GoMap Str Int) (key : Str) (p : Int) (hp : 2 ≤ p)
    (hval : ∀ k v, d.find? k = some v → 2 ≤ v) :
    ∀ k v, (d.set key p).find? k = some v → 2 ≤ v := by
  intro k v hf
  by_cases hk : key = k
  · subst hk
    rw [GoMap.find?_set_self] at hf
    have := Option.some.inj hf
    omega
  · rw [GoMap.find?_set_ne _ _ _ _ hk] at hf
    exact hval k v hf

theorem set_keeps_keys (d : GoMap Str Int) (key : Str) (p : Int) :
    ∀ k, d.find? k ≠ none → (d.set key p).find? k ≠ none := by
  intro k hk
  by_cases h : key = k
  · subst h
    rw [GoMap.find?_set_self]
    simp
  · rw [GoMap.find?_set_ne _ _ _ _ h]
    exact hk

/-- The reason: the flush check of LZW `Encode` sits behind an always-false condition. For
every encoder and state, the body of a dictionary miss leaves the two size counters
untouched, never lowers the width or the next free index, keeps every dictionary key,
and writes an optional RESIZE codeword followed by one codeword, that of the index of
the entry, which is not FLUSH when the dictionary values and the next free index are at
least 2 (as they are from the start). -/
theorem lzw_flush_disabled (e : LZWEncoder) (st : EncodeState) :
    (encodeMiss e st).uncompressedSize = st.uncompressedSize ∧
    (encodeMiss e st).compressedSize = st.compressedSize ∧
    st.codelength ≤ (encodeMiss e st).codelength ∧
    st.pointer ≤ (encodeMiss e st).pointer ∧
    (∀ k, st.dictionary.find? k ≠ none → (encodeMiss e st).dictionary.find? k ≠ none) ∧
    ∃ (resize : Str) (index : Int),
      (resize = [] ∨ resize = intToCodeword ResizeSignal st.codelength) ∧
      (encodeMiss e st).sb
        = st.sb ++ resize ++ intToCodeword index (encodeMiss e st).codelength ∧
      ((∀ k v, st.dictionary.find? k = some v → 2 ≤ v) → 2 ≤ st.pointer →
        index ≠ FlushSignal ∧
        (∀ k v, (encodeMiss e st).dictionary.find? k = some v → 2 ≤ v)) := by
  unfold encodeMiss
  simp only [Bool.and_false, Bool.false_eq_true, if_false]
  by_cases c1 : st.codelength < e.MaxBits ∧ st.pointer ≥ pow2 st.codelength - 2
  · simp only [c1, and_self, if_true]
    by_cases c2 : st.pointer < pow2 (st.codelength + 1) - 2
    · simp only [c2, if_true]
      refine ⟨trivial, trivial, by omega, by omega, set_keeps_keys _ _ _, _, _, Or.inr rfl,
        rfl, ?_⟩
      intro hval hp
      exact ⟨get_index_ne_flush _ _ (set_values_ge_two _ _ _ hp hval),
        set_values_ge_two _ _ _ hp hval⟩
    · simp only [c2, if_false]
      refine ⟨trivial, trivial, by omega, by omega, fun k hk => hk, _, _, Or.inr rfl,
        rfl, ?_⟩
      intro hval _
      exact ⟨get_index_ne_flush _ _ hval, hval⟩
  · simp only [c1, if_false]
    by_cases c2 : st.pointer < pow2 st.codelength - 2
    · simp only [c2, if_true]
      refine ⟨trivial, trivial, by omega, by omega, set_keeps_keys _ _ _, [], _, Or.inl rfl,
        by rw [List.append_nil], ?_⟩
      intro hval hp
      exact ⟨get_index_ne_flush _ _ (set_values_ge_two _ _ _ hp hval),
        set_values_ge_two _ _ _ hp hval⟩
    · simp only [c2, if_false]
      refine ⟨trivial, trivial, by omega, by omega, fun k hk => hk, [], _, Or.inl rfl,
        by rw [List.append_nil], ?_⟩
      intro hval _
      exact ⟨get_index_ne_flush _ _ hval, hval⟩

/-- The size counters after the miss on `aba` in the scenario of the flush policy. -/
theorem lzw_flush_disabled_witness :
    (encodeMiss ⟨[97, 98], 3, 3, 1000⟩
      { pointer := 6, dictionary := [(['a'], 2), (['b'], 3), (['a', 'b'], 4), (['b', 'a'], 5)],
        uncompressedSize := 1, compressedSize := 1, codelength := 3,
        sb := "010011".toList, pattern := ['a', 'b', 'a'] }).uncompressedSize = 1 ∧
    (encodeMiss ⟨[97, 98], 3, 3, 1000⟩
      { pointer := 6, dictionary := [(['a'], 2), (['b'], 3), (['a', 'b'], 4), (['b', 'a'], 5)],
        uncompressedSize := 1, compressedSize := 1, codelength := 3,
        sb := "010011".toList, pattern := ['a', 'b', 'a'] }).compressedSize = 1 :=
  ⟨(lzw_flush_disabled ⟨[97, 98], 3, 3, 1000⟩
      { pointer := 6, dictionary := [(['a'], 2), (['b'], 3), (['a', 'b'], 4), (['b', 'a'], 5)],
        uncompressedSize := 1, compressedSize := 1, codelength := 3,
        sb := "010011".toList, pattern := ['a', 'b', 'a'] }).1,
   (lzw_flush_disabled ⟨[97, 98], 3, 3, 1000⟩
      { pointer := 6, dictionary := [(['a'], 2), (['b'], 3), (['a', 'b'], 4), (['b', 'a'], 5)],
        uncompressedSize := 1, compressedSize := 1, codelength := 3,
        sb := "010011".toList, pattern := ['a', 'b', 'a'] }).2.1⟩

/-! ## Digram: termination of decoding -/

theorem digramDecodeLoop_stride (dec : GoMap Str Str) (w : Nat) (hw : 1 ≤ w) (fuel : Nat) :
    ∀ code : Code, code.length / w < fuel →
      ∃ chunks : List Code, chunks.length = code.length / w ∧
        (∀ ch ∈ chunks, ch.length = w) ∧ chunks.flatten <+: code ∧
        digramDecodeLoop dec w fuel code = some (chunks.flatMap (fun ch => dec.get ch [])) := by
  induction fuel with
  | zero => intro code h; exact absurd h (Nat.not_lt_zero _)
  | succ f ih =>
    intro code hf
    unfold digramDecodeLoop
    by_cases h : w ≤ code.length
    · simp only [h, if_true]
      have hdiv : (code.drop w).length / w = code.length / w - 1 := by
        rw [List.length_drop, Nat.div_eq_sub_div (by omega) h]
        exact (Nat.add_sub_cancel _ 1).symm
      have hpos : 1 ≤ code.length / w := (Nat.one_le_div_iff (by omega)).2 h
      obtain ⟨chunks, c1, c2, c3, c4⟩ := ih (code.drop w) (by omega)
      refine ⟨code.take w :: chunks, ?_, ?_, ?_, ?_⟩
      · simp only [List.length_cons, c1, hdiv]
        omega
      · intro ch hch
        rcases List.mem_cons.1 hch with h1 | h1
        · rw [h1, List.length_take]
          omega
        · exact c2 ch h1
      · obtain ⟨t, ht⟩ := c3
        refine ⟨t, ?_⟩
        rw [List.flatten_cons, List.append_assoc, ht, List.take_append_drop]
      · rw [c4]
        rfl
    · simp only [h, if_false]
      have : code.length / w = 0 := Nat.div_eq_of_lt (by omega)
      exact ⟨[], by simp [this], by simp, by simp, rfl⟩

theorem digramDecodeLoop_stuck (dec : GoMap Str Str) (fuel : Nat) :
    ∀ code : Code, digramDecodeLoop dec 0 fuel code = none := by
  induction fuel with
  | zero => intro code; rfl
  | succ f ih =>
    intro code
    unfold digramDecodeLoop
    simp [ih]

/-- Claim C20, counterexample. The stride is not always `floor(log2(Size))`: for
`Size = 2 ^ 49 - 1`, whose binary logarithm has the floor 48, the conversion to `float64`
is exact, `math.Log2` rounds `49 - 1.44 * 2 ^ -49` to 49 and the stride is 49. On a code of
48 characters `Decode` then makes no table lookup and returns the empty string, where
`floor(48 / 48) = 1` lookup with the stride 48 would have returned `a`. -/
theorem digram_stride_above_floor :
    2 ^ 48 ≤ 2 ^ 49 - 1 ∧ 2 ^ 49 - 1 < 2 ^ 49 ∧
    codelengthOf (2 ^ 49 - 1) = 49 ∧
    DigramEncoder.Decode MapOrder.insertion 10
        ⟨[97], [(['a'], List.replicate 48 '0')], 2 ^ 49 - 1⟩ (List.replicate 48 '0')
      = some [] ∧
    digramDecodeLoop (invertCodewords MapOrder.insertion [(['a'], List.replicate 48 '0')]) 48 10
        (List.replicate 48 '0')
      = some ['a'] := by
  refine ⟨by decide, by decide, ?_, ?_, ?_⟩ <;> decide!

/-- Claim C20, as amended. Digram `Decode` terminates: for a dictionary size of at least 2
the stride `w = int(math.Log2(float64(Size)))` is at least 1 and `Decode`, given fuel for
`len(code) / w + 1` rounds, returns after exactly `len(code) / w` table lookups, one per
chunk of `w` characters, ignoring the characters after the last whole chunk; the stride
is the binary logarithm of the size when the size is a power of two; among the positive
sizes the stride is 0 for the size 1 only, and then the loop never ends. -/
theorem digram_decode_terminates (ord : MapOrder) (e : DigramEncoder) (code : Code)
    (hsize : 2 ≤ e.Size) :
    1 ≤ codelengthOf e.Size ∧
    (∀ fuel, code.length / codelengthOf e.Size < fuel →
      ∃ chunks : List Code, chunks.length = code.length / codelengthOf e.Size ∧
        (∀ ch ∈ chunks, ch.length = codelengthOf e.Size) ∧ chunks.flatten <+: code ∧
        code.length - chunks.flatten.length < codelengthOf e.Size ∧
        e.Decode ord fuel code
          = some (chunks.flatMap (fun ch => (invertCodewords ord e.Codewords).get ch []))) ∧
    (∀ k : Nat, codelengthOf (2 ^ k) = k) ∧
    (∀ size, 1 ≤ size → (codelengthOf size = 0 ↔ size = 1)) ∧
    (∀ e1 : DigramEncoder, e1.Size = 1 → ∀ fuel code1, e1.Decode ord fuel code1 = none) := by
  have hw := codelengthOf_pos e.Size hsize
  refine ⟨hw, ?_, codelengthOf_pow, ?_, ?_⟩
  · intro fuel hfuel
    obtain ⟨chunks, c1, c2, c3, c4⟩ :=
      digramDecodeLoop_stride (invertCodewords ord e.Codewords) _ hw fuel code hfuel
    refine ⟨chunks, c1, c2, c3, ?_, c4⟩
    have hlen : chunks.flatten.length = codelengthOf e.Size * chunks.length := by
      clear c1 c3 c4
      induction chunks with
      | nil => simp
      | cons x rest ih =>
        rw [List.flatten_cons, List.length_append, ih (fun c hc => c2 c (List.mem_cons_of_mem _ hc)),
          c2 x (List.mem_cons_self _ _), List.length_cons]
        ring
    rw [hlen, c1]
    have := Nat.mod_lt code.length (show codelengthOf e.Size > 0 by omega)
    have := Nat.div_add_mod code.length (codelengthOf e.Size)
    omega
  · intro size hs
    constructor
    · intro h0
      by_contra hne
      have := codelengthOf_pos size (by omega)
      omega
    · intro h1
      rw [h1]
      exact codelengthOf_small.1
  · intro e1 h1 fuel code1
    unfold DigramEncoder.Decode
    rw [h1, codelengthOf_small.1]
    exact digramDecodeLoop_stuck _ _ _

/-- The encoder of scenario A and a code of five characters: the stride is 2 and `Decode`
returns after two lookups. -/
theorem digram_decode_terminates_witness :
    1 ≤ codelengthOf (Digram MapOrder.insertion [97, 98] "aabab".toList 4).Size ∧
    ∃ chunks : List Code,
      chunks.length
        = "11011".toList.length / codelengthOf (Digram MapOrder.insertion [97, 98] "aabab".toList 4).Size ∧
      (∀ ch ∈ chunks,
        ch.length = codelengthOf (Digram MapOrder.insertion [97, 98] "aabab".toList 4).Size) ∧
      chunks.flatten <+: "11011".toList ∧
      "11011".toList.length - chunks.flatten.length
        < codelengthOf (Digram MapOrder.insertion [97, 98] "aabab".toList 4).Size ∧
      (Digram MapOrder.insertion [97, 98] "aabab".toList 4).Decode MapOrder.insertion 10
          "11011".toList
        = some (chunks.flatMap (fun ch =>
            (invertCodewords MapOrder.insertion
              (Digram MapOrder.insertion [97, 98] "aabab".toList 4).Codewords).get ch [])) :=
  ⟨(digram_decode_terminates MapOrder.insertion
      (Digram MapOrder.insertion [97, 98] "aabab".toList 4) "11011".toList (by decide)).1,
   (digram_decode_terminates MapOrder.insertion
      (Digram MapOrder.insertion [97, 98] "aabab".toList 4) "11011".toList (by decide)).2.1 10
      (by decide!)⟩

/-! ## LZW: termination of encoding -/

theorem encodeMiss_dictionary (e : LZWEncoder) (st : EncodeState) :
    (encodeMiss e st).pattern = [] ∧
    ((encodeMiss e st).dictionary = st.dictionary ∨
      (encodeMiss e st).dictionary = st.dictionary.set st.pattern st.pointer) := by
  unfold encodeMiss
  simp only [Bool.and_false, Bool.false_eq_true, if_false]
  by_cases c1 : st.codelength < e.MaxBits ∧ st.pointer ≥ pow2 st.codelength - 2
  · simp only [c1, and_self, if_true]
    by_cases c2 : st.pointer < pow2 (st.codelength + 1) - 2
    · simp only [c2, if_true]
      simp
    · simp only [c2, if_false]
      simp
  · simp only [c1, if_false]
    by_cases c2 : st.pointer < pow2 st.codelength - 2
    · simp only [c2, if_true]
      simp
    · simp only [c2, if_false]
      simp

theorem lzwEncodeStep_decreases (e : LZWEncoder) (characters : List Nat) (i : Nat)
    (st : EncodeState) (hinv : ∀ b ∈ characters, st.dictionary.get (byteString b) 0 ≠ 0)
    (hi : i < characters.length) :
    ∃ s1, lzwEncodeStep e characters i st = some s1 ∧
      (∀ b ∈ characters, s1.2.dictionary.get (byteString b) 0 ≠ 0) ∧
      lzwMeasure characters.length s1 < lzwMeasure characters.length (i, st) := by
  have hget : characters[i]? = some characters[i] := List.getElem?_eq_getElem hi
  have hmem : characters[i] ∈ characters := List.getElem_mem hi
  unfold lzwEncodeStep
  rw [hget]
  simp only
  by_cases hmiss : st.dictionary.get (st.pattern ++ byteString characters[i]) 0 = 0
  · rw [if_pos hmiss]
    refine ⟨_, rfl, ?_, ?_⟩
    · intro b hb
      obtain ⟨-, hd⟩ := encodeMiss_dictionary e
        { st with pattern := st.pattern ++ byteString characters[i] }
      simp only at hd
      rcases hd with hd | hd
      · rw [hd]
        exact hinv b hb
      · rw [hd]
        have hne : st.pattern ++ byteString characters[i] ≠ byteString b := by
          intro h
          rw [h] at hmiss
          exact hinv b hb hmiss
        rw [GoMap.get, GoMap.find?_set_ne _ _ _ _ hne]
        exact hinv b hb
    · have hp : st.pattern ≠ [] := by
        intro h
        rw [h, List.nil_append] at hmiss
        exact hinv _ hmem hmiss
      obtain ⟨hpat, -⟩ := encodeMiss_dictionary e
        { st with pattern := st.pattern ++ byteString characters[i] }
      simp only [lzwMeasure, hpat, hp, if_true, if_false]
      omega
  · rw [if_neg hmiss]
    refine ⟨_, rfl, hinv, ?_⟩
    have hp : st.pattern ++ byteString characters[i] ≠ [] := by
      simp [byteString]
    simp only [lzwMeasure, hp, if_false]
    split <;> omega

theorem lzwEncodeLoop_terminates (e : LZWEncoder) (characters : List Nat) (fuel : Nat) :
    ∀ (i : Nat) (st : EncodeState),
      (∀ b ∈ characters, st.dictionary.get (byteString b) 0 ≠ 0) →
      lzwMeasure characters.length (i, st) < fuel →
      (lzwEncodeLoop e characters fuel i st).isSome := by
  induction fuel with
  | zero => intro i st _ h; omega
  | succ f ih =>
    intro i st hinv hm
    rw [lzwEncodeLoop_succ]
    by_cases hi : i < characters.length
    · obtain ⟨s1, hs, hinv1, hdec⟩ := lzwEncodeStep_decreases e characters i st hinv hi
      rw [hs]
      have he : lzwMeasure characters.length (s1.1, s1.2)
          = lzwMeasure characters.length s1 := rfl
      exact ih s1.1 s1.2 hinv1 (by omega)
    · have : characters[i]? = none := List.getElem?_eq_none (by omega)
      simp [lzwEncodeStep, this]

theorem lzwEncodeIter_inv (e : LZWEncoder) (characters : List Nat) :
    ∀ (n : Nat) (s : Nat × EncodeState),
      (∀ b ∈ characters, s.2.dictionary.get (byteString b) 0 ≠ 0) →
      ∀ b ∈ characters, (lzwEncodeIter e characters n s).2.dictionary.get (byteString b) 0 ≠ 0 := by
  intro n
  induction n with
  | zero => intro s h; exact h
  | succ n ih =>
    intro s h
    unfold lzwEncodeIter
    by_cases hi : s.1 < characters.length
    · obtain ⟨s1, hs, hinv1, -⟩ := lzwEncodeStep_decreases e characters s.1 s.2 h hi
      rw [hs]
      exact ih s1 hinv1
    · have : characters[s.1]? = none := List.getElem?_eq_none (by omega)
      simp only [lzwEncodeStep, this]
      exact h

theorem lzwEncodeStart_inv (e : LZWEncoder) (hascii : ∀ r ∈ e.Alphabet, 0 ≤ r ∧ r < 128)
    (source : Source) :
    stringBytes (cleanSource source e.Alphabet)
        = (cleanSource source e.Alphabet).map Char.toNat ∧
    ∀ b ∈ stringBytes (cleanSource source e.Alphabet),
      (lzwEncodeStart e).dictionary.get (byteString b) 0 ≠ 0 := by
  obtain ⟨-, hval, hkeys⟩ := initialDictionary_spec e.Alphabet
  have hmem : ∀ c ∈ cleanSource source e.Alphabet, (c.toNat : Int) ∈ e.Alphabet := by
    intro c hc
    rw [cleanSource_eq_filter] at hc
    simpa using (List.mem_filter.1 hc).2
  have hbytes : stringBytes (cleanSource source e.Alphabet)
      = (cleanSource source e.Alphabet).map Char.toNat := by
    apply stringBytes_ascii
    intro c hc
    have := (hascii _ (hmem c hc)).2
    exact_mod_cast this
  refine ⟨hbytes, ?_⟩
  intro b hb
  rw [hbytes] at hb
  obtain ⟨c, hc, rfl⟩ := List.mem_map.1 hb
  apply get_ne_zero_of_ge_two _ _ hval
  have := hkeys _ (hmem c hc)
  rw [runeString_char] at this
  simpa [lzwEncodeStart, byteString, Char.ofNat_toNat] using this

/-- Claim C19, counterexample. In the run on `abababab` for the alphabet `{a, b}`, the
second round is a dictionary miss at position 1 with the pattern buffer `a`: the quantity
`2 * (len - i) + (1 if the pattern buffer is empty else 0)` is 14 before it and 15 after
it. -/
theorem lzw_empty_measure_grows :
    lzwEncodeStep ⟨[97, 98], 3, 6, 0⟩ (stringBytes "abababab".toList)
        (lzwEncodeIter ⟨[97, 98], 3, 6, 0⟩ (stringBytes "abababab".toList) 1
          (0, lzwEncodeStart ⟨[97, 98], 3, 6, 0⟩)).1
        (lzwEncodeIter ⟨[97, 98], 3, 6, 0⟩ (stringBytes "abababab".toList) 1
          (0, lzwEncodeStart ⟨[97, 98], 3, 6, 0⟩)).2
      = some (lzwEncodeIter ⟨[97, 98], 3, 6, 0⟩ (stringBytes "abababab".toList) 2
          (0, lzwEncodeStart ⟨[97, 98], 3, 6, 0⟩)) ∧
    lzwEmptyMeasure 8 (lzwEncodeIter ⟨[97, 98], 3, 6, 0⟩ (stringBytes "abababab".toList) 1
        (0, lzwEncodeStart ⟨[97, 98], 3, 6, 0⟩)) = 14 ∧
    lzwEmptyMeasure 8 (lzwEncodeIter ⟨[97, 98], 3, 6, 0⟩ (stringBytes "abababab".toList) 2
        (0, lzwEncodeStart ⟨[97, 98], 3, 6, 0⟩)) = 15 := by
  refine ⟨rfl, ?_, ?_⟩ <;> decide

/-- Claim C19, as amended. LZW `Encode` terminates: for an alphabet of single-byte
symbols and every source, `Encode` returns a code when given fuel for more than twice
as many rounds as the source has symbols; in every round that the loop reaches, the
measure `2 * (len - i) + (1 if the pattern buffer is not empty else 0)` strictly
decreases, because a miss happens with a non-empty pattern buffer only (every single
symbol of the cleaned source is a registered pattern). -/
theorem lzw_encode_terminates (e : LZWEncoder) (hascii : ∀ r ∈ e.Alphabet, 0 ≤ r ∧ r < 128)
    (source : Source) :
    (∀ fuel, 2 * source.length < fuel → (e.Encode fuel source).isSome) ∧
    ∀ (n : Nat) (s1 : Nat × EncodeState),
      lzwEncodeStep e (stringBytes (cleanSource source e.Alphabet))
          (lzwEncodeIter e (stringBytes (cleanSource source e.Alphabet)) n
            (0, lzwEncodeStart e)).1
          (lzwEncodeIter e (stringBytes (cleanSource source e.Alphabet)) n
            (0, lzwEncodeStart e)).2 = some s1 →
      lzwMeasure (stringBytes (cleanSource source e.Alphabet)).length s1
        < lzwMeasure (stringBytes (cleanSource source e.Alphabet)).length
            (lzwEncodeIter e (stringBytes (cleanSource source e.Alphabet)) n
              (0, lzwEncodeStart e)) := by
  obtain ⟨hbytes, hinv⟩ := lzwEncodeStart_inv e hascii source
  constructor
  · intro fuel hfuel
    rw [Encode_eq_loop]
    apply lzwEncodeLoop_terminates e _ fuel 0 _ hinv
    have hlen : (stringBytes (cleanSource source e.Alphabet)).length ≤ source.length := by
      rw [hbytes, List.length_map, cleanSource_eq_filter]
      exact List.length_filter_le _ _
    simp only [lzwMeasure, lzwEncodeStart, if_true]
    omega
  · intro n s1 hs
    have hinvn := lzwEncodeIter_inv e _ n (0, lzwEncodeStart e) hinv
    by_cases hi : (lzwEncodeIter e (stringBytes (cleanSource source e.Alphabet)) n
        (0, lzwEncodeStart e)).1 < (stringBytes (cleanSource source e.Alphabet)).length
    · obtain ⟨s2, hs2, -, hdec⟩ := lzwEncodeStep_decreases e _ _ _ hinvn hi
      rw [hs2] at hs
      rw [← Option.some.inj hs]
      exact hdec
    · have : (stringBytes (cleanSource source e.Alphabet))[(lzwEncodeIter e
          (stringBytes (cleanSource source e.Alphabet)) n (0, lzwEncodeStart e)).1]? = none :=
        List.getElem?_eq_none (by omega)
      simp [lzwEncodeStep, this] at hs

/-- The source `abababab` for the alphabet `{a, b}`: fuel 17 suffices. -/
theorem lzw_encode_terminates_witness :
    (LZWEncoder.Encode 17 ⟨[97, 98], 3, 6, 0⟩ "abababab".toList).isSome :=
  (lzw_encode_terminates ⟨[97, 98], 3, 6, 0⟩ (by decide) "abababab".toList).1 17 (by decide)

/-! ## Digram: selection of the most frequent digrams -/

theorem maxScan_spec (L : List (Str × Nat)) :
    ∀ (d0 : Str) (f0 : Nat),
      f0 ≤ (maxScan L (d0, f0)).2 ∧ (∀ p ∈ L, p.2 ≤ (maxScan L (d0, f0)).2) ∧
      (maxScan L (d0, f0) ∈ L ∨ (maxScan L (d0, f0) = (d0, f0) ∧ ∀ p ∈ L, p.2 ≤ f0)) := by
  induction L with
  | nil => intro d0 f0; simp [maxScan]
  | cons q rest ih =>
    intro d0 f0
    obtain ⟨d, f⟩ := q
    unfold maxScan
    by_cases h : f > f0
    · rw [if_pos h]
      obtain ⟨a, b, c⟩ := ih d f
      refine ⟨by omega, ?_, ?_⟩
      · intro p hp
        rcases List.mem_cons.1 hp with hp | hp
        · rw [hp]
          exact a
        · exact b p hp
      · rcases c with c | ⟨c1, -⟩
        · exact Or.inl (List.mem_cons_of_mem _ c)
        · exact Or.inl (by rw [c1]; exact List.mem_cons_self _ _)
    · rw [if_neg h]
      obtain ⟨a, b, c⟩ := ih d0 f0
      refine ⟨a, ?_, ?_⟩
      · intro p hp
        rcases List.mem_cons.1 hp with hp | hp
        · rw [hp]
          simp only
          omega
        · exact b p hp
      · rcases c with c | ⟨c1, c2⟩
        · exact Or.inl (List.mem_cons_of_mem _ c)
        · refine Or.inr ⟨c1, ?_⟩
          intro p hp
          rcases List.mem_cons.1 hp with hp | hp
          · rw [hp]
            simp only
            omega
          · exact c2 p hp

namespace GoMap

variable {κ ν : Type} [DecidableEq κ]

theorem mem_delete (m : GoMap κ ν) (k : κ) (p : κ × ν) :
    p ∈ m.delete k ↔ p ∈ m ∧ p.1 ≠ k := by
  simp [delete, List.mem_filter]

theorem nodup_keys_delete (m : GoMap κ ν) (k : κ) (h : (m.map Prod.fst).Nodup) :
    ((m.delete k).map Prod.fst).Nodup :=
  List.Nodup.sublist (List.Sublist.map Prod.fst (List.filter_sublist m)) h

theorem find?_delete_ne (m : GoMap κ ν) (k k2 : κ) (h : k2 ≠ k) :
    (m.delete k).find? k2 = m.find? k2 := by
  induction m with
  | nil => rfl
  | cons q rest ih =>
    obtain ⟨k0, v0⟩ := q
    have ih2 : find? (rest.filter (fun e => decide (e.1 ≠ k))) k2 = find? rest k2 := ih
    show find? (List.filter (fun e => decide (e.1 ≠ k)) ((k0, v0) :: rest)) k2
      = find? ((k0, v0) :: rest) k2
    rw [List.filter_cons]
    by_cases h0 : k0 = k
    · have hp : ¬ (decide ((k0, v0).1 ≠ k) = true) := by simp [h0]
      have hne : ¬ k0 = k2 := fun e => h (e ▸ h0)
      rw [if_neg hp, ih2]
      simp only [find?, hne, if_false]
    · have hp : decide ((k0, v0).1 ≠ k) = true := by simp [h0]
      rw [if_pos hp]
      simp only [find?]
      rw [ih2]

theorem length_delete (m : GoMap κ ν) (k : κ) (h : (m.map Prod.fst).Nodup)
    (hk : k ∈ m.map Prod.fst) : (m.delete k).length + 1 = m.length := by
  induction m with
  | nil => simp at hk
  | cons q rest ih =>
    obtain ⟨k0, v0⟩ := q
    simp only [List.map_cons, List.nodup_cons] at h
    show (List.filter (fun e => decide (e.1 ≠ k)) ((k0, v0) :: rest)).length + 1
      = ((k0, v0) :: rest).length
    rw [List.filter_cons]
    by_cases h0 : k0 = k
    · have hp : ¬ (decide ((k0, v0).1 ≠ k) = true) := by simp [h0]
      rw [if_neg hp]
      have hall : List.filter (fun e : κ × ν => decide (e.1 ≠ k)) rest = rest := by
        rw [List.filter_eq_self]
        intro p hp
        have : p.1 ≠ k := fun e => h.1 (h0 ▸ e ▸ List.mem_map_of_mem Prod.fst hp)
        simpa using this
      rw [hall]
      rfl
    · have hp : decide ((k0, v0).1 ≠ k) = true := by simp [h0]
      rw [if_pos hp]
      have hk2 : k ∈ rest.map Prod.fst := by
        simp only [List.map_cons, List.mem_cons] at hk
        rcases hk with hk | hk
        · exact absurd hk.symm h0
        · exact hk
      have ih2 : (List.filter (fun e => decide (e.1 ≠ k)) rest).length + 1 = rest.length :=
        ih h.2 hk2
      simp only [List.length_cons]
      omega

theorem foldl_set_fresh_gen (L : List (κ × ν)) :
    ∀ M : GoMap κ ν, (L.map Prod.fst).Nodup → (∀ p ∈ L, p.1 ∉ M.map Prod.fst) →
      L.foldl (fun m e => m.set e.1 e.2) M = M ++ L := by
  induction L with
  | nil => intro M _ _; simp
  | cons q rest ih =>
    intro M hnd hfresh
    simp only [List.map_cons, List.nodup_cons] at hnd
    rw [List.foldl_cons, set_of_not_mem M q.1 q.2 (hfresh q (List.mem_cons_self _ _)),
      ih _ hnd.2]
    · simp
    · intro p hp
      rw [List.map_append, List.mem_append]
      rintro (h | h)
      · exact hfresh p (List.mem_cons_of_mem _ hp) h
      · simp only [List.map_cons, List.map_nil, List.mem_singleton] at h
        exact hnd.1 (h ▸ List.mem_map_of_mem Prod.fst hp)

theorem get_of_mem (m : GoMap κ ν) (k : κ) (v zero : ν) (hnd : (m.map Prod.fst).Nodup)
    (h : (k, v) ∈ m) : m.get k zero = v := by
  rw [get, find?_of_mem m k v hnd h]
  rfl

end GoMap

/-- The outer loop of `mostFrequentDigrams` from a map with distinct keys and positive
counts: it appends `min (limit - len) (size of the map)` distinct keys of the map, in
non-increasing order of count, and no key left out has a greater count than one taken. -/
theorem mostFrequentLoop_spec (ord : MapOrder) (hord : ord.Valid) (limit : Int) (fuel : Nat) :
    ∀ (F : GoMap Str Nat) (acc : List Str), (F.map Prod.fst).Nodup → (∀ p ∈ F, 1 ≤ p.2) →
      limit.toNat - acc.length ≤ fuel →
      ∃ S : List Str, mostFrequentLoop ord limit fuel F acc = acc ++ S ∧
        S.length = min (limit.toNat - acc.length) F.length ∧ S.Nodup ∧
        (∀ d ∈ S, d ∈ F.map Prod.fst) ∧
        S.Pairwise (fun d1 d2 => F.get d2 0 ≤ F.get d1 0) ∧
        (∀ k ∈ F.map Prod.fst, k ∉ S → ∀ d ∈ S, F.get k 0 ≤ F.get d 0) := by
  induction fuel with
  | zero =>
    intro F acc _ _ hf
    refine ⟨[], by simp [mostFrequentLoop], ?_, by simp, by simp, by simp, by simp⟩
    simp only [List.length_nil]
    omega
  | succ fuel ih =>
    intro F acc hnd hpos hf
    unfold mostFrequentLoop
    by_cases hc : (acc.length : Int) < limit ∧ F.length > 0
    · rw [if_pos hc]
      simp only
      have hperm := hord _ F
      obtain ⟨-, hmax, hin⟩ := maxScan_spec (ord.range F) [] 0
      have hmem : maxScan (ord.range F) ([], 0) ∈ F := by
        rcases hin with h | ⟨-, h⟩
        · exact hperm.mem_iff.1 h
        · exfalso
          obtain ⟨p, hp⟩ := List.exists_mem_of_length_pos hc.2
          have h1 := hpos p hp
          have h2 := h p (hperm.mem_iff.2 hp)
          omega
      set m := (maxScan (ord.range F) ([], 0)).1 with hm
      set f := (maxScan (ord.range F) ([], 0)).2 with hfm
      have hmf : (m, f) ∈ F := hmem
      have hkey : m ∈ F.map Prod.fst := List.mem_map_of_mem Prod.fst hmf
      have hgetm : F.get m 0 = f := GoMap.get_of_mem F m f 0 hnd hmf
      have hle : ∀ p ∈ F, p.2 ≤ f := fun p hp => hmax p (hperm.mem_iff.2 hp)
      have hgetle : ∀ k ∈ F.map Prod.fst, F.get k 0 ≤ f := by
        intro k hk
        obtain ⟨p, hp, rfl⟩ := List.mem_map.1 hk
        rw [GoMap.get_of_mem F p.1 p.2 0 hnd hp]
        exact hle p hp
      have hlen := GoMap.length_delete F m hnd hkey
      obtain ⟨S, e1, e2, e3, e4, e5, e6⟩ := ih (F.delete m) (acc ++ [m])
        (GoMap.nodup_keys_delete F m hnd)
        (fun p hp => hpos p ((GoMap.mem_delete F m p).1 hp).1)
        (by simp only [List.length_append, List.length_singleton]; omega)
      have hsub : ∀ d ∈ S, d ∈ F.map Prod.fst ∧ d ≠ m := by
        intro d hd
        obtain ⟨p, hp, rfl⟩ := List.mem_map.1 (e4 d hd)
        obtain ⟨hp1, hp2⟩ := (GoMap.mem_delete F m p).1 hp
        exact ⟨List.mem_map_of_mem Prod.fst hp1, hp2⟩
      have hget : ∀ k, k ≠ m → (F.delete m).get k 0 = F.get k 0 := by
        intro k hk
        rw [GoMap.get, GoMap.get, GoMap.find?_delete_ne F m k hk]
      refine ⟨m :: S, ?_, ?_, ?_, ?_, ?_, ?_⟩
      · rw [e1]
        simp
      · have hl : (acc ++ [m]).length = acc.length + 1 := by simp
        rw [hl] at e2
        rw [List.length_cons, e2]
        have := hc.1
        omega
      · rw [List.nodup_cons]
        exact ⟨fun h => (hsub m h).2 rfl, e3⟩
      · intro d hd
        rcases List.mem_cons.1 hd with h | h
        · rw [h]
          exact hkey
        · exact (hsub d h).1
      · rw [List.pairwise_cons]
        refine ⟨?_, ?_⟩
        · intro d hd
          rw [hgetm]
          exact hgetle d (hsub d hd).1
        · refine List.Pairwise.imp_of_mem ?_ e5
          intro a b ha hb hab
          rw [← hget a (hsub a ha).2, ← hget b (hsub b hb).2]
          exact hab
      · intro k hk hnot d hd
        have hkm : k ≠ m := fun h => hnot (h ▸ List.mem_cons_self _ _)
        have hkS : k ∉ S := fun h => hnot (List.mem_cons_of_mem _ h)
        rcases List.mem_cons.1 hd with h | h
        · rw [h, hgetm]
          exact hgetle k hk
        · have hk2 : k ∈ (F.delete m).map Prod.fst := by
            obtain ⟨p, hp, rfl⟩ := List.mem_map.1 hk
            exact List.mem_map_of_mem Prod.fst ((GoMap.mem_delete F m p).2 ⟨hp, hkm⟩)
          have := e6 k hk2 hkS d h
          rw [hget k hkm, hget d (hsub d h).2] at this
          exact this
    · rw [if_neg hc]
      refine ⟨[], by simp, ?_, by simp, by simp, by simp, by simp⟩
      simp only [List.length_nil]
      have : ¬ ((acc.length : Int) < limit) ∨ F.length = 0 := by
        by_cases h1 : (acc.length : Int) < limit
        · right
          by_contra h2
          exact hc ⟨h1, by omega⟩
        · exact Or.inl h1
      omega

theorem GoMap.find?_perm {κ ν : Type} [DecidableEq κ] (m1 m2 : GoMap κ ν) (hp : m1.Perm m2)
    (hnd : (m1.map Prod.fst).Nodup) (k : κ) : m1.find? k = m2.find? k := by
  cases hf : m2.find? k with
  | none =>
    rw [GoMap.find?_eq_none_iff] at hf ⊢
    exact fun p hp1 => hf p (hp.mem_iff.1 hp1)
  | some v =>
    exact GoMap.find?_of_mem m1 k v hnd (hp.mem_iff.2 (GoMap.mem_of_find? m2 k v hf))

/-- What `mostFrequentDigrams` returns for a map with distinct keys and positive counts,
under a fair order of iteration. -/
theorem mostFrequentDigrams_core (ord : MapOrder) (hord : ord.Valid) (limit : Int)
    (F : GoMap Str Nat) (hnd : (F.map Prod.fst).Nodup) (hpos : ∀ p ∈ F, 1 ≤ p.2) :
    ((ord.range F).foldl (fun m e => GoMap.set m e.1 e.2) ([] : GoMap Str Nat)).Perm F ∧
    (mostFrequentDigrams ord limit F).length = min limit.toNat F.length ∧
    (mostFrequentDigrams ord limit F).Nodup ∧
    (∀ d ∈ mostFrequentDigrams ord limit F, d ∈ F.map Prod.fst) ∧
    (mostFrequentDigrams ord limit F).Pairwise (fun d1 d2 => F.get d2 0 ≤ F.get d1 0) ∧
    (∀ k ∈ F.map Prod.fst, k ∉ mostFrequentDigrams ord limit F →
      ∀ d ∈ mostFrequentDigrams ord limit F, F.get k 0 ≤ F.get d 0) := by
  have hperm := hord _ F
  have hndr : ((ord.range F).map Prod.fst).Nodup := (hperm.map Prod.fst).nodup_iff.2 hnd
  have hcopy : (ord.range F).foldl (fun m e => GoMap.set m e.1 e.2) ([] : GoMap Str Nat)
      = ord.range F := by
    rw [GoMap.foldl_set_fresh_gen _ [] hndr (by simp)]
    rfl
  have hget : ∀ k, GoMap.get (ord.range F) k 0 = F.get k 0 := by
    intro k
    rw [GoMap.get, GoMap.get, GoMap.find?_perm _ _ hperm hndr k]
  have hkeys : ∀ k, k ∈ (ord.range F).map Prod.fst ↔ k ∈ F.map Prod.fst :=
    fun k => (hperm.map Prod.fst).mem_iff
  obtain ⟨S, e1, e2, e3, e4, e5, e6⟩ := mostFrequentLoop_spec ord hord limit limit.toNat
    (ord.range F) [] hndr (fun p hp => hpos p (hperm.mem_iff.1 hp)) (by simp)
  have hR : mostFrequentDigrams ord limit F = S := by
    unfold mostFrequentDigrams
    simp only
    rw [hcopy, e1]
    rfl
  rw [hR, hcopy]
  refine ⟨hperm, ?_, e3, fun d hd => (hkeys d).1 (e4 d hd), ?_, ?_⟩
  · rw [e2, hperm.length_eq]
    simp
  · refine List.Pairwise.imp ?_ e5
    intro a b hab
    rw [← hget a, ← hget b]
    exact hab
  · intro k hk hnot d hd
    rw [← hget k, ← hget d]
    exact e6 k ((hkeys k).2 hk) hnot d hd

/-- Claim C17. Digram selection by repeated maximum extraction: for a frequency map
(distinct keys) with positive counts, every limit and every fair order of iteration,
`mostFrequentDigrams` returns `max(0, min(limit, number of digrams))` pairwise distinct
digrams of the map, in non-increasing order of frequency, and no digram left out is more
frequent than one returned; the loop deletes from a copy holding the entries of the map,
which itself is not changed. -/
theorem most_frequent_digrams_selection (ord : MapOrder) (hord : ord.Valid) (limit : Int)
    (frequencies : GoMap Str Nat) (hnd : (frequencies.map Prod.fst).Nodup)
    (hpos : ∀ p ∈ frequencies, 1 ≤ p.2) :
    ((mostFrequentDigrams ord limit frequencies).length : Int)
      = max 0 (min limit (frequencies.length : Int)) ∧
    (mostFrequentDigrams ord limit frequencies).Nodup ∧
    (∀ d ∈ mostFrequentDigrams ord limit frequencies, d ∈ frequencies.map Prod.fst) ∧
    (mostFrequentDigrams ord limit frequencies).Pairwise
      (fun d1 d2 => frequencies.get d2 0 ≤ frequencies.get d1 0) ∧
    (∀ k ∈ frequencies.map Prod.fst, k ∉ mostFrequentDigrams ord limit frequencies →
      ∀ d ∈ mostFrequentDigrams ord limit frequencies,
        frequencies.get k 0 ≤ frequencies.get d 0) ∧
    ((ord.range frequencies).foldl (fun m e => GoMap.set m e.1 e.2) ([] : GoMap Str Nat)).Perm
      frequencies := by
  obtain ⟨c0, c1, c2, c3, c4, c5⟩ := mostFrequentDigrams_core ord hord limit frequencies hnd hpos
  refine ⟨?_, c2, c3, c4, c5, c0⟩
  rw [c1]
  omega

/-- The frequencies of scenario A (aa 1, ab 2, ba 1) with the limit 2. -/
theorem most_frequent_digrams_selection_witness :
    ((mostFrequentDigrams MapOrder.insertion 2
        [(['a', 'a'], 1), (['a', 'b'], 2), (['b', 'a'], 1)]).length : Int)
      = max 0 (min 2 (([(['a', 'a'], 1), (['a', 'b'], 2), (['b', 'a'], 1)] :
          GoMap Str Nat).length : Int)) :=
  (most_frequent_digrams_selection MapOrder.insertion (fun _ l => List.Perm.refl l) 2
    [(['a', 'a'], 1), (['a', 'b'], 2), (['b', 'a'], 1)] (by decide) (by decide)).1

/-! ## Digram: the assignment of the codewords -/

theorem runeString_length (r : Rune) : (runeString r).length = 1 := by
  unfold runeString
  split <;> rfl

theorem toNat_ofNat_valid (n : Nat) (h : n.isValidChar) : (Char.ofNat n).toNat = n := by
  unfold Char.ofNat
  rw [dif_pos h]
  rfl

theorem runeString_injective (r1 r2 : Rune) (h1 : 0 ≤ r1 ∧ r1.toNat.isValidChar)
    (h2 : 0 ≤ r2 ∧ r2.toNat.isValidChar) (h : runeString r1 = runeString r2) : r1 = r2 := by
  unfold runeString at h
  rw [if_pos h1, if_pos h2] at h
  have hc : Char.ofNat r1.toNat = Char.ofNat r2.toNat := List.head_eq_of_cons_eq h
  have hn := congrArg Char.toNat hc
  rw [toNat_ofNat_valid _ h1.2, toNat_ofNat_valid _ h2.2] at hn
  have a1 : (0 : Int) ≤ (r1 : Int) := h1.1
  have a2 : (0 : Int) ≤ (r2 : Int) := h2.1
  have e1 : ((Int.toNat r1 : Nat) : Int) = r1 := Int.toNat_of_nonneg a1
  have e2 : ((Int.toNat r2 : Nat) : Int) = r2 := Int.toNat_of_nonneg a2
  rw [← e1, ← e2, hn]

theorem digramFrequenciesLoop_inv (valid : GoMap Rune Bool) :
    ∀ (runes : List Rune) (F : GoMap Str Nat),
      ((F.map Prod.fst).Nodup ∧ ∀ p ∈ F, 1 ≤ p.2 ∧ p.1.length = 2) →
      ((digramFrequenciesLoop valid runes F).map Prod.fst).Nodup ∧
      ∀ p ∈ digramFrequenciesLoop valid runes F, 1 ≤ p.2 ∧ p.1.length = 2
  | [], F, h => by simpa [digramFrequenciesLoop] using h
  | [_], F, h => by simpa [digramFrequenciesLoop] using h
  | r1 :: r2 :: rest, F, h => by
    rw [digramFrequenciesLoop]
    apply digramFrequenciesLoop_inv valid (r2 :: rest)
    simp only
    split
    · refine ⟨GoMap.nodup_keys_set _ _ _ h.1, ?_⟩
      intro p hp
      rcases GoMap.mem_set _ _ _ p hp with hp | hp
      · exact h.2 p hp
      · rw [hp]
        simp [runeString_length]
    · exact h

theorem digramFrequencies_inv (text : Str) (alphabet : List Rune) :
    ((digramFrequencies text alphabet).map Prod.fst).Nodup ∧
    ∀ p ∈ digramFrequencies text alphabet, 1 ≤ p.2 ∧ p.1.length = 2 :=
  digramFrequenciesLoop_inv _ _ [] (by simp)

theorem assignCodewords_fresh (size : Nat) :
    ∀ (keys : List Str) (i : Nat) (T : GoMap Str Str), keys.Nodup →
      (∀ k ∈ keys, T.find? k = none) →
      (∀ (j : Nat) (h : j < keys.length),
        (assignCodewords size keys (i : Int) T).2.find? keys[j]
          = some (intToCodeword ((i + j : Nat) : Int) (codelengthOf size))) ∧
      (∀ k, k ∉ keys → (assignCodewords size keys (i : Int) T).2.find? k = T.find? k) ∧
      (assignCodewords size keys (i : Int) T).2.length = T.length + keys.length := by
  intro keys
  induction keys with
  | nil =>
    intro i T _ _
    refine ⟨fun j h => absurd h (by simp), fun k _ => rfl, by simp [assignCodewords]⟩
  | cons key rest ih =>
    intro i T hnd hfresh
    rw [List.nodup_cons] at hnd
    have hcast : ((i : Int) + 1) = ((i + 1 : Nat) : Int) := by push_cast; rfl
    have hkey : T.find? key = none := hfresh key (List.mem_cons_self _ _)
    have hnot : key ∉ T.map Prod.fst := fun h => GoMap.find?_ne_none_of_key T key h hkey
    have hunf : assignCodewords size (key :: rest) (i : Int) T
        = assignCodewords size rest ((i + 1 : Nat) : Int)
            (T.set key (intToCodeword (i : Int) (codelengthOf size))) := by
      rw [assignCodewords, hcast]
      rfl
    obtain ⟨a1, a2, a3⟩ := ih (i + 1) (T.set key (intToCodeword (i : Int) (codelengthOf size)))
      hnd.2 (by
        intro k hk
        have hne : key ≠ k := fun e => hnd.1 (e ▸ hk)
        rw [GoMap.find?_set_ne _ _ _ _ hne]
        exact hfresh k (List.mem_cons_of_mem _ hk))
    rw [hunf]
    refine ⟨?_, ?_, ?_⟩
    · intro j h
      cases j with
      | zero =>
        simp only [List.getElem_cons_zero, Nat.add_zero]
        rw [a2 key hnd.1, GoMap.find?_set_self]
      | succ j =>
        simp only [List.getElem_cons_succ]
        have := a1 j (by simpa using h)
        rw [this]
        congr 2
        omega
    · intro k hk
      simp only [List.mem_cons, not_or] at hk
      rw [a2 k hk.2, GoMap.find?_set_ne _ _ _ _ (fun e => hk.1 e.symm)]
    · rw [a3, GoMap.set_of_not_mem T key _ hnot]
      simp
      omega

/-- Claim C11. Digram codeword assignment: for an alphabet of `a` distinct symbols (valid
code points), any corpus, a dictionary size `2 ^ w` with `w ≥ 1` that holds the alphabet,
and a fair order of iteration, the trained table maps the `i`-th alphabet symbol to the
codeword of `i` and the `j`-th selected digram to the codeword of `a + j`, where the
codeword of an index below `2 ^ w` is the string of `w` binary digits of that value; the
table has `a` plus the number of selected digrams entries, at most `2 ^ w`, and distinct
keys have distinct codewords. -/
theorem digram_codeword_assignment (ord : MapOrder) (hord : ord.Valid)
    (alphabet : List Rune) (hnd : alphabet.Nodup)
    (hvalid : ∀ r ∈ alphabet, 0 ≤ r ∧ r.toNat.isValidChar) (corpus : Str) (w : Nat)
    (hw : 1 ≤ w) (ha : alphabet.length ≤ 2 ^ w) :
    (∀ (i : Nat) (h : i < alphabet.length),
      (Digram ord alphabet corpus (2 ^ w)).Codewords.find? (runeString alphabet[i])
        = some (intToCodeword (i : Int) w)) ∧
    (∀ (j : Nat) (h : j < (mostFrequentDigrams ord (((2 ^ w : Nat) : Int) - alphabet.length)
          (digramFrequencies corpus alphabet)).length),
      (Digram ord alphabet corpus (2 ^ w)).Codewords.find?
          (mostFrequentDigrams ord (((2 ^ w : Nat) : Int) - alphabet.length)
            (digramFrequencies corpus alphabet))[j]
        = some (intToCodeword ((alphabet.length + j : Nat) : Int) w)) ∧
    (∀ n : Nat, n < 2 ^ w →
      (intToCodeword (n : Int) w).length = w ∧
      (∀ c ∈ intToCodeword (n : Int) w, c = '0' ∨ c = '1') ∧
      binValue (intToCodeword (n : Int) w) 0 = some n) ∧
    (Digram ord alphabet corpus (2 ^ w)).Codewords.length
      = alphabet.length + (mostFrequentDigrams ord (((2 ^ w : Nat) : Int) - alphabet.length)
          (digramFrequencies corpus alphabet)).length ∧
    (Digram ord alphabet corpus (2 ^ w)).Codewords.length ≤ 2 ^ w ∧
    (∀ k1 k2 v, (Digram ord alphabet corpus (2 ^ w)).Codewords.find? k1 = some v →
      (Digram ord alphabet corpus (2 ^ w)).Codewords.find? k2 = some v → k1 = k2) := by
  have hwl := codelengthOf_pow w
  obtain ⟨fnd, fpos⟩ := digramFrequencies_inv corpus alphabet
  obtain ⟨-, dlen, dnd, dkeys, -, -⟩ := mostFrequentDigrams_core ord hord
    (((2 ^ w : Nat) : Int) - alphabet.length) (digramFrequencies corpus alphabet) fnd
    (fun p hp => (fpos p hp).1)
  set digrams := mostFrequentDigrams ord (((2 ^ w : Nat) : Int) - alphabet.length)
    (digramFrequencies corpus alphabet) with hd
  have hd2 : ∀ d ∈ digrams, d.length = 2 := by
    intro d hdm
    obtain ⟨p, hp, rfl⟩ := List.mem_map.1 (dkeys d hdm)
    exact (fpos p hp).2
  have hknd : (alphabet.map runeString).Nodup := by
    rw [List.nodup_map_iff_inj_on hnd]
    intro x hx y hy hxy
    exact runeString_injective x y (hvalid x hx) (hvalid y hy) hxy
  obtain ⟨a1, a2, a3⟩ := assignCodewords_fresh (2 ^ w) (alphabet.map runeString) 0 [] hknd
    (fun k _ => rfl)
  have hfst := (assignCodewords_spec (2 ^ w) (alphabet.map runeString) 0 []
    (by rw [hwl]; exact TableInv_nil w)).1
  simp only [Nat.cast_zero] at a1 a2 a3 hfst
  set T1 := (assignCodewords (2 ^ w) (alphabet.map runeString) 0 []).2 with hT1
  have hdfresh : ∀ k ∈ digrams, T1.find? k = none := by
    intro k hk
    rw [a2 k]
    · rfl
    · intro hmem
      obtain ⟨r, -, hr⟩ := List.mem_map.1 hmem
      have := hd2 k hk
      rw [← hr, runeString_length] at this
      omega
  obtain ⟨b1, b2, b3⟩ := assignCodewords_fresh (2 ^ w) digrams
    (0 + (alphabet.map runeString).length) T1 dnd hdfresh
  have hcw : (Digram ord alphabet corpus (2 ^ w)).Codewords
      = (assignCodewords (2 ^ w) digrams ((0 + (alphabet.map runeString).length : Nat) : Int)
          T1).2 := by
    simp only [Digram]
    rw [← hd, hfst]
  obtain ⟨n, hn, ⟨-, -, hinj⟩, -⟩ := Digram_table ord alphabet corpus w ha
  rw [hcw] at hinj ⊢
  rw [hwl] at a1 b1
  refine ⟨?_, ?_, ?_, ?_, ?_, hinj⟩
  · intro i h
    have hi : i < (alphabet.map runeString).length := by simpa using h
    have hk : runeString alphabet[i] = (alphabet.map runeString)[i] := by simp
    rw [b2 _ (by
      intro hmem
      have := hd2 _ hmem
      rw [runeString_length] at this
      omega), hk, a1 i hi]
    simp
  · intro j h
    rw [b1 j h]
    simp
  · intro n hn
    refine ⟨intToCodeword_length n w hw hn, ?_, binValue_intToCodeword n w⟩
    unfold intToCodeword
    apply padZeros_bits
    rw [formatInt2_natCast]
    exact binDigits_bits _ _
  · rw [b3, a3]
    simp
  · rw [b3, a3]
    simp only [List.length_nil, List.length_map, Nat.zero_add]
    rw [dlen]
    omega

/-- Scenario A of the specification: `a` and `b` get the codewords of 0 and 1. -/
theorem digram_codeword_assignment_witness :
    (Digram MapOrder.insertion [97, 98] "aabab".toList (2 ^ 2)).Codewords.find?
        (runeString 97) = some (intToCodeword 0 2) ∧
    (Digram MapOrder.insertion [97, 98] "aabab".toList (2 ^ 2)).Codewords.find?
        (runeString 98) = some (intToCodeword 1 2) :=
  ⟨(digram_codeword_assignment MapOrder.insertion (fun _ l => List.Perm.refl l) [97, 98]
      (by decide) (by decide) "aabab".toList 2 (by decide) (by decide)).1 0 (by decide),
    (digram_codeword_assignment MapOrder.insertion (fun _ l => List.Perm.refl l) [97, 98]
      (by decide) (by decide) "aabab".toList 2 (by decide) (by decide)).1 1 (by decide)⟩

/-! ## Digram: selection and the order of iteration -/

theorem pairsReversed_valid : MapOrder.pairsReversed.Valid := by
  intro α l
  show (if l.length = 2 then l.reverse else l).Perm l
  split
  · exact List.reverse_perm l
  · exact List.Perm.refl l

theorem maxScan_mem (L : List (Str × Nat)) (hne : L ≠ []) (hpos : ∀ p ∈ L, 1 ≤ p.2) :
    maxScan L ([], 0) ∈ L ∧ ∀ p ∈ L, p.2 ≤ (maxScan L ([], 0)).2 := by
  obtain ⟨-, hmax, hin⟩ := maxScan_spec L [] 0
  refine ⟨?_, hmax⟩
  rcases hin with h | ⟨-, h⟩
  · exact h
  · exfalso
    obtain ⟨p, hp⟩ := List.exists_mem_of_ne_nil L hne
    have h1 := hpos p hp
    have h2 := h p hp
    omega

theorem mostFrequentLoop_det (ord1 ord2 : MapOrder) (h1 : ord1.Valid) (h2 : ord2.Valid)
    (limit : Int) (fuel : Nat) :
    ∀ (F1 F2 : GoMap Str Nat) (acc : List Str), F1.Perm F2 → (∀ p ∈ F1, 1 ≤ p.2) →
      (∀ p ∈ F1, ∀ q ∈ F1, p.2 = q.2 → p = q) →
      mostFrequentLoop ord1 limit fuel F1 acc = mostFrequentLoop ord2 limit fuel F2 acc := by
  induction fuel with
  | zero => intro F1 F2 acc _ _ _; rfl
  | succ fuel ih =>
    intro F1 F2 acc hperm hpos hinj
    unfold mostFrequentLoop
    have hlen := hperm.length_eq
    by_cases hc : (acc.length : Int) < limit ∧ F1.length > 0
    · have hc2 : (acc.length : Int) < limit ∧ F2.length > 0 := ⟨hc.1, by omega⟩
      rw [if_pos hc, if_pos hc2]
      simp only
      have p1 := h1 _ F1
      have p2 := (h2 _ F2).trans hperm.symm
      have hne1 : ord1.range F1 ≠ [] := by
        intro h
        have := p1.length_eq
        rw [h] at this
        simp at this
        omega
      have hne2 : ord2.range F2 ≠ [] := by
        intro h
        have := p2.length_eq
        rw [h] at this
        simp at this
        omega
      obtain ⟨m1, x1⟩ := maxScan_mem (ord1.range F1) hne1
        (fun p hp => hpos p (p1.mem_iff.1 hp))
      obtain ⟨m2, x2⟩ := maxScan_mem (ord2.range F2) hne2
        (fun p hp => hpos p (p2.mem_iff.1 hp))
      have e : maxScan (ord1.range F1) ([], 0) = maxScan (ord2.range F2) ([], 0) := by
        apply hinj _ (p1.mem_iff.1 m1) _ (p2.mem_iff.1 m2)
        have a := x1 _ (p1.mem_iff.2 (p2.mem_iff.1 m2))
        have b := x2 _ (p2.mem_iff.2 (p1.mem_iff.1 m1))
        omega
      rw [e]
      apply ih
      · exact List.Perm.filter _ hperm
      · intro p hp
        exact hpos p ((GoMap.mem_delete F1 _ p).1 hp).1
      · intro p hp q hq
        exact hinj p ((GoMap.mem_delete F1 _ p).1 hp).1 q ((GoMap.mem_delete F1 _ q).1 hq).1
    · have hc2 : ¬ ((acc.length : Int) < limit ∧ F2.length > 0) := by
        intro h
        exact hc ⟨h.1, by omega⟩
      rw [if_neg hc, if_neg hc2]

/-- Claim C12, counterexample. For the alphabet `{a, b}`, the corpus `aabab` and the
dictionary size 4, with the entries visited in the order of insertion the digrams
selected are `ab`, `aa`; with another fair order (a map of two entries visited in
reverse) they are `ab`, `ba`, and the trained tables differ. -/
theorem digram_ties_depend_on_order :
    MapOrder.pairsReversed.Valid ∧
    digramFrequencies "aabab".toList [97, 98]
      = [(['a', 'a'], 1), (['a', 'b'], 2), (['b', 'a'], 1)] ∧
    mostFrequentDigrams MapOrder.insertion (4 - 2) (digramFrequencies "aabab".toList [97, 98])
      = [['a', 'b'], ['a', 'a']] ∧
    mostFrequentDigrams MapOrder.pairsReversed (4 - 2)
        (digramFrequencies "aabab".toList [97, 98])
      = [['a', 'b'], ['b', 'a']] ∧
    (Digram MapOrder.insertion [97, 98] "aabab".toList 4).Codewords.find? ['a', 'a']
      = some ['1', '1'] ∧
    (Digram MapOrder.pairsReversed [97, 98] "aabab".toList 4).Codewords.find? ['a', 'a']
      = none := by
  refine ⟨pairsReversed_valid, ?_, ?_, ?_, ?_, ?_⟩ <;> decide!

/-- Claim C12, as amended. The digrams selected by `mostFrequentDigrams` depend on the
order of iteration of the frequency map through ties only, for which the code fixes no
secondary order: for a map (distinct keys, positive counts) whose counts are pairwise
different, two fair orders select the same digrams; for the alphabet `{a, b}`, the
corpus `aabab` and the dictionary size 4 (frequencies ab 2, aa 1, ba 1) every fair order
selects `ab` first and then `aa` or `ba`. -/
theorem digram_selection_up_to_ties (ord1 ord2 : MapOrder) (h1 : ord1.Valid)
    (h2 : ord2.Valid) :
    (∀ (limit : Int) (F : GoMap Str Nat), (F.map Prod.fst).Nodup → (∀ p ∈ F, 1 ≤ p.2) →
      (∀ p ∈ F, ∀ q ∈ F, p.2 = q.2 → p = q) →
      mostFrequentDigrams ord1 limit F = mostFrequentDigrams ord2 limit F) ∧
    (mostFrequentDigrams ord1 (4 - 2) (digramFrequencies "aabab".toList [97, 98])
        = [['a', 'b'], ['a', 'a']] ∨
      mostFrequentDigrams ord1 (4 - 2) (digramFrequencies "aabab".toList [97, 98])
        = [['a', 'b'], ['b', 'a']]) := by
  constructor
  · intro limit F hnd hpos hinj
    have p1 := h1 _ F
    have p2 := h2 _ F
    have n1 : ((ord1.range F).map Prod.fst).Nodup := (p1.map Prod.fst).nodup_iff.2 hnd
    have n2 : ((ord2.range F).map Prod.fst).Nodup := (p2.map Prod.fst).nodup_iff.2 hnd
    unfold mostFrequentDigrams
    simp only
    rw [GoMap.foldl_set_fresh_gen _ [] n1 (by simp), GoMap.foldl_set_fresh_gen _ [] n2 (by simp)]
    apply mostFrequentLoop_det ord1 ord2 h1 h2
    · exact p1.trans p2.symm
    · intro p hp
      exact hpos p (p1.mem_iff.1 (by simpa using hp))
    · intro p hp q hq
      exact hinj p (p1.mem_iff.1 (by simpa using hp)) q (p1.mem_iff.1 (by simpa using hq))
  · have hF : digramFrequencies "aabab".toList [97, 98]
        = [(['a', 'a'], 1), (['a', 'b'], 2), (['b', 'a'], 1)] := by decide
    rw [hF]
    obtain ⟨-, c1, c2, c3, c4, c5⟩ := mostFrequentDigrams_core ord1 h1 (4 - 2)
      [(['a', 'a'], 1), (['a', 'b'], 2), (['b', 'a'], 1)] (by decide) (by decide)
    generalize mostFrequentDigrams ord1 (4 - 2)
      [(['a', 'a'], 1), (['a', 'b'], 2), (['b', 'a'], 1)] = R at c1 c2 c3 c4 c5 ⊢
    have hlen : R.length = 2 := by rw [c1]; decide
    obtain ⟨x, y, rfl⟩ := List.length_eq_two.1 hlen
    have hx := c3 x (by simp)
    have hy := c3 y (by simp)
    simp only [List.map_cons, List.map_nil, List.mem_cons, List.mem_singleton,
      List.not_mem_nil, or_false] at hx hy
    have hne : x ≠ y := by
      intro h
      rw [h] at c2
      simp at c2
    have hord : GoMap.get [(['a', 'a'], 1), (['a', 'b'], 2), (['b', 'a'], 1)] y 0
        ≤ GoMap.get [(['a', 'a'], 1), (['a', 'b'], 2), (['b', 'a'], 1)] x 0 := by
      have := List.pairwise_cons.1 c4
      exact this.1 y (by simp)
    rcases hx with rfl | rfl | rfl <;> rcases hy with rfl | rfl | rfl
    · exact absurd rfl hne
    · exact absurd hord (by decide)
    · exfalso
      have := c5 ['a', 'b'] (by simp) (by decide) ['a', 'a'] (by simp)
      exact absurd this (by decide)
    · exact Or.inl rfl
    · exact absurd rfl hne
    · exact Or.inr rfl
    · exfalso
      have := c5 ['a', 'b'] (by simp) (by decide) ['b', 'a'] (by simp)
      exact absurd this (by decide)
    · exact absurd hord (by decide)
    · exact absurd rfl hne

/-- The order of insertion and the order that reverses maps of two entries, on a map with
the counts 3, 2 and 1. -/
theorem digram_selection_up_to_ties_witness :
    mostFrequentDigrams MapOrder.insertion 2
        [(['a', 'a'], 3), (['a', 'b'], 2), (['b', 'a'], 1)]
      = mostFrequentDigrams MapOrder.pairsReversed 2
        [(['a', 'a'], 3), (['a', 'b'], 2), (['b', 'a'], 1)] :=
  (digram_selection_up_to_ties MapOrder.insertion MapOrder.pairsReversed
    (fun _ l => List.Perm.refl l) pairsReversed_valid).1 2
    [(['a', 'a'], 3), (['a', 'b'], 2), (['b', 'a'], 1)] (by decide) (by decide) (by decide)

/-! ## The priority queue is a min-heap -/

theorem Swap_length (h : PriorityQueue) (i j : Nat) : (h.Swap i j).length = h.length := by
  simp [PriorityQueue.Swap]

theorem Swap_getD (h : PriorityQueue) (i j k : Nat) (hi : i < h.length) (hj : j < h.length) :
    (h.Swap i j).getD k .nil
      = if k = j then h.getD i .nil else if k = i then h.getD j .nil else h.getD k .nil := by
  unfold PriorityQueue.Swap
  simp only [List.getD_eq_getElem?_getD, List.getElem?_set, List.length_set]
  by_cases hkj : k = j
  · subst hkj
    simp [hj]
  · have hjk : ¬ j = k := fun e => hkj e.symm
    simp only [hjk, hkj, if_false]
    by_cases hki : k = i
    · subst hki
      simp [hi]
    · have hik : ¬ i = k := fun e => hki e.symm
      simp [hik, hki]

theorem queueKey_Swap (h : PriorityQueue) (i j k : Nat) (hi : i < h.length)
    (hj : j < h.length) :
    queueKey (h.Swap i j) k
      = if k = j then queueKey h i else if k = i then queueKey h j else queueKey h k := by
  unfold queueKey
  rw [Swap_getD h i j k hi hj]
  split
  · rfl
  · split <;> rfl

theorem Less_iff (h : PriorityQueue) (i j : Nat) :
    h.Less i j = true ↔ queueKey h i < queueKey h j := by
  simp [PriorityQueue.Less, queueKey]

theorem heapUp_heap (fuel : Nat) :
    ∀ (h : PriorityQueue) (j : Nat), j < h.length → j < fuel →
      (∀ k, 0 < k → k < h.length → k ≠ j → queueKey h ((k - 1) / 2) ≤ queueKey h k) →
      (∀ k, 0 < k → k < h.length → (k - 1) / 2 = j → 0 < j →
        queueKey h ((j - 1) / 2) ≤ queueKey h k) →
      IsHeap (heapUp fuel h j) := by
  induction fuel with
  | zero => intro h j _ hf; omega
  | succ f ih =>
    intro h j hj hf h1 h2
    unfold heapUp
    simp only
    by_cases hb : (j - 1) / 2 = j ∨ (!h.Less j ((j - 1) / 2)) = true
    · rw [if_pos hb]
      intro k hk0 hkl
      by_cases hkj : k = j
      · subst hkj
        rcases hb with hb | hb
        · omega
        · have : ¬ (h.Less k ((k - 1) / 2) = true) := by simpa using hb
          rw [Less_iff] at this
          omega
      · exact h1 k hk0 hkl hkj
    · rw [if_neg hb]
      have hij : (j - 1) / 2 ≠ j := fun e => hb (Or.inl e)
      have hless : queueKey h j < queueKey h ((j - 1) / 2) := by
        rw [← Less_iff]
        by_contra hn
        exact hb (Or.inr (by simpa using hn))
      have hj0 : 0 < j := by omega
      have hi : (j - 1) / 2 < h.length := by omega
      have hlen := Swap_length h ((j - 1) / 2) j
      apply ih (h.Swap ((j - 1) / 2) j) ((j - 1) / 2) (by omega) (by omega)
      · intro k hk0 hkl hki
        rw [hlen] at hkl
        rw [queueKey_Swap h _ _ _ hi hj, queueKey_Swap h _ _ _ hi hj]
        by_cases hkj : k = j
        · subst hkj
          rw [if_neg hij, if_pos rfl, if_pos rfl]
          omega
        · rw [if_neg hkj, if_neg hki]
          by_cases hpj : (k - 1) / 2 = j
          · rw [if_pos hpj]
            have := h2 k hk0 hkl hpj hj0
            exact this
          · rw [if_neg hpj]
            by_cases hpi : (k - 1) / 2 = (j - 1) / 2
            · rw [if_pos hpi]
              have := h1 k hk0 hkl hkj
              rw [hpi] at this
              omega
            · rw [if_neg hpi]
              exact h1 k hk0 hkl hkj
      · intro k hk0 hkl hpk hi0
        rw [hlen] at hkl
        rw [queueKey_Swap h _ _ _ hi hj, queueKey_Swap h _ _ _ hi hj]
        have hpi1 : ((j - 1) / 2 - 1) / 2 ≠ j := by omega
        have hpi2 : ((j - 1) / 2 - 1) / 2 ≠ (j - 1) / 2 := by omega
        rw [if_neg hpi1, if_neg hpi2]
        have c1 := h1 ((j - 1) / 2) hi0 hi hij
        by_cases hkj : k = j
        · rw [if_pos hkj]
          exact c1
        · have hki : k ≠ (j - 1) / 2 := by omega
          rw [if_neg hkj, if_neg hki]
          have := h1 k hk0 hkl hkj
          rw [hpk] at this
          omega

theorem queueKey_append_left (q : PriorityQueue) (x : Node) (k : Nat) (hk : k < q.length) :
    queueKey (q ++ [x]) k = queueKey q k := by
  unfold queueKey
  rw [List.getD_append _ _ _ _ hk]

theorem heapPush_heap (queue : PriorityQueue) (node : Node) (h : IsHeap queue) :
    IsHeap (heapPush queue node) := by
  unfold heapPush
  simp only
  have hlen : (queue ++ [node]).length = queue.length + 1 := by simp
  apply heapUp_heap _ _ _ (by omega) (by omega)
  · intro k hk0 hkl hkn
    rw [hlen] at hkl
    have hk : k < queue.length := by
      rw [hlen] at hkn
      omega
    rw [queueKey_append_left _ _ _ hk, queueKey_append_left _ _ _ (by omega)]
    exact h k hk0 hk
  · intro k hk0 hkl hpk _
    rw [hlen] at hkl hpk
    omega

theorem heapDown_heap (fuel : Nat) :
    ∀ (h : PriorityQueue) (i n : Nat), n ≤ h.length → n - i ≤ fuel →
      (∀ k, 0 < k → k < n → (k - 1) / 2 ≠ i → queueKey h ((k - 1) / 2) ≤ queueKey h k) →
      (∀ k, 0 < k → k < n → (k - 1) / 2 = i → 0 < i →
        queueKey h ((i - 1) / 2) ≤ queueKey h k) →
      HeapUpTo n (heapDown fuel h i n) ∧
      (∀ k, n ≤ k → (heapDown fuel h i n).getD k .nil = h.getD k .nil) ∧
      (heapDown fuel h i n).length = h.length := by
  induction fuel with
  | zero =>
    intro h i n _ hf h1 _
    refine ⟨?_, fun k _ => rfl, rfl⟩
    intro k hk0 hkn
    exact h1 k hk0 hkn (by omega)
  | succ f ih =>
    intro h i n hn hf h1 h2
    unfold heapDown
    simp only
    by_cases hj1 : 2 * i + 1 ≥ n
    · rw [if_pos hj1]
      refine ⟨?_, fun k _ => rfl, rfl⟩
      intro k hk0 hkn
      exact h1 k hk0 hkn (by omega)
    · rw [if_neg hj1]
      generalize hjdef : (if 2 * i + 1 + 1 < n ∧ h.Less (2 * i + 1 + 1) (2 * i + 1) = true
        then 2 * i + 1 + 1 else 2 * i + 1) = j
      have hjfacts : j < n ∧ (j - 1) / 2 = i ∧ i < j ∧
          queueKey h j ≤ queueKey h (2 * i + 1) ∧
          (2 * i + 1 + 1 < n → queueKey h j ≤ queueKey h (2 * i + 1 + 1)) := by
        rw [← hjdef]
        by_cases hc : 2 * i + 1 + 1 < n ∧ h.Less (2 * i + 1 + 1) (2 * i + 1) = true
        · rw [if_pos hc]
          have := (Less_iff h _ _).1 hc.2
          refine ⟨hc.1, by omega, by omega, by omega, fun _ => le_refl _⟩
        · rw [if_neg hc]
          refine ⟨by omega, by omega, by omega, le_refl _, ?_⟩
          intro h3
          have : ¬ (h.Less (2 * i + 1 + 1) (2 * i + 1) = true) := fun e => hc ⟨h3, e⟩
          rw [Less_iff] at this
          omega
      obtain ⟨hjn, hpj, hij, hmin1, hmin2⟩ := hjfacts
      have hchild : ∀ k, (k - 1) / 2 = i → 0 < k → k < n → queueKey h j ≤ queueKey h k := by
        intro k hpk hk0 hkn
        have : k = 2 * i + 1 ∨ k = 2 * i + 1 + 1 := by omega
        rcases this with e | e
        · rw [e]
          exact hmin1
        · rw [e]
          exact hmin2 (by omega)
      by_cases hl : (!h.Less j i) = true
      · rw [if_pos hl]
        refine ⟨?_, fun k _ => rfl, rfl⟩
        have hle : queueKey h i ≤ queueKey h j := by
          have : ¬ (h.Less j i = true) := by simpa using hl
          rw [Less_iff] at this
          omega
        intro k hk0 hkn
        by_cases hpk : (k - 1) / 2 = i
        · rw [hpk]
          exact le_trans hle (hchild k hpk hk0 hkn)
        · exact h1 k hk0 hkn hpk
      · rw [if_neg hl]
        have hless : queueKey h j < queueKey h i := by
          rw [← Less_iff]
          by_contra hn2
          exact hl (by simpa using hn2)
        have hi : i < h.length := by omega
        have hj : j < h.length := by omega
        have hlen := Swap_length h i j
        obtain ⟨r1, r2, r3⟩ := ih (h.Swap i j) j n (by omega) (by omega)
          (by
            intro k hk0 hkn hpk
            rw [queueKey_Swap h _ _ _ hi hj, queueKey_Swap h _ _ _ hi hj]
            by_cases hkj : k = j
            · subst hkj
              have hne : ¬ (k - 1) / 2 = k := by omega
              rw [if_neg hne, if_pos hpj, if_pos rfl]
              omega
            · rw [if_neg hpk, if_neg hkj]
              by_cases hki : k = i
              · subst hki
                have hne : ¬ (k - 1) / 2 = k := by omega
                rw [if_neg hne, if_pos rfl]
                exact h2 j (by omega) hjn hpj hk0
              · rw [if_neg hki]
                by_cases hpi : (k - 1) / 2 = i
                · rw [if_pos hpi]
                  exact hchild k hpi hk0 hkn
                · rw [if_neg hpi]
                  exact h1 k hk0 hkn hpi)
          (by
            intro k hk0 hkn hpk _
            rw [queueKey_Swap h _ _ _ hi hj, queueKey_Swap h _ _ _ hi hj]
            have hne : ¬ (j - 1) / 2 = j := by omega
            rw [if_neg hne, if_pos hpj]
            have hkj : ¬ k = j := by omega
            have hki : ¬ k = i := by omega
            rw [if_neg hkj, if_neg hki]
            have := h1 k hk0 hkn (by omega)
            rw [hpk] at this
            exact this)
        refine ⟨r1, ?_, by rw [r3, hlen]⟩
        intro k hk
        rw [r2 k hk, Swap_getD h i j k hi hj, if_neg (by omega), if_neg (by omega)]

theorem heap_root_min (h : PriorityQueue) (hh : IsHeap h) :
    ∀ i, i < h.length → queueKey h 0 ≤ queueKey h i := by
  intro i
  induction i using Nat.strong_induction_on with
  | _ i ih =>
    intro hi
    by_cases h0 : i = 0
    · subst h0
      exact le_refl _
    · have a := ih ((i - 1) / 2) (by omega) (by omega)
      have b := hh i (by omega) hi
      omega

theorem heapPop_eq (queue : PriorityQueue) (hne : queue ≠ []) :
    heapPop queue
      = some ((heapDown queue.length (queue.Swap 0 (queue.length - 1)) 0
                (queue.length - 1)).getD (queue.length - 1) .nil,
              (heapDown queue.length (queue.Swap 0 (queue.length - 1)) 0
                (queue.length - 1)).take (queue.length - 1)) := by
  unfold heapPop
  have : ¬ queue.length = 0 := fun h => hne (List.length_eq_zero.1 h)
  rw [if_neg this]

/-- What `heap.Pop` does on a non-empty min-heap: the node returned has the least
frequency, the others stay in the queue, which stays a min-heap. -/
theorem heapPop_spec (queue : PriorityQueue) (hne : queue ≠ []) (hh : IsHeap queue) :
    ∃ x q, heapPop queue = some (x, q) ∧ (x :: q).Perm queue ∧ IsHeap q ∧
      ∀ t ∈ queue, x.frequency ≤ t.frequency := by
  obtain ⟨x, q, e, hp⟩ := heapPop_perm queue hne
  refine ⟨x, q, e, hp, ?_, ?_⟩
  all_goals
    rw [heapPop_eq queue hne] at e
    have hlen : 0 < queue.length := List.length_pos.2 hne
    have hs0 := Swap_length queue 0 (queue.length - 1)
    obtain ⟨r1, r2, r3⟩ := heapDown_heap queue.length (queue.Swap 0 (queue.length - 1)) 0
      (queue.length - 1) (by omega) (by omega)
      (by
        intro k hk0 hkn hpk
        rw [queueKey_Swap queue _ _ _ hlen (by omega),
          queueKey_Swap queue _ _ _ hlen (by omega)]
        rw [if_neg (by omega), if_neg hpk, if_neg (by omega), if_neg (by omega)]
        exact hh k hk0 (by omega))
      (by
        intro k _ _ _ h0
        omega)
    obtain ⟨ex, eq⟩ := Prod.mk.inj (Option.some.inj e)
  · rw [← eq]
    intro k hk0 hkl
    have hkn : k < queue.length - 1 := by
      simp only [List.length_take] at hkl
      omega
    have hk : ∀ m, m < queue.length - 1 →
        queueKey (List.take (queue.length - 1)
          (heapDown queue.length (queue.Swap 0 (queue.length - 1)) 0 (queue.length - 1))) m
        = queueKey (heapDown queue.length (queue.Swap 0 (queue.length - 1)) 0
            (queue.length - 1)) m := by
      intro m hm
      simp [queueKey, List.getD_eq_getElem?_getD, List.getElem?_take, hm]
    rw [hk k hkn, hk _ (by omega)]
    exact r1 k hk0 hkn
  · intro t ht
    have hx : x = queue.getD 0 .nil := by
      rw [← ex, r2 _ (le_refl _), Swap_getD queue 0 (queue.length - 1) _ hlen (by omega),
        if_pos rfl]
    obtain ⟨i, hi, rfl⟩ := List.getElem_of_mem ht
    have := heap_root_min queue hh i hi
    unfold queueKey at this
    rw [← hx, List.getD_eq_getElem _ _ hi] at this
    exact this

/-! ## Depths in the Huffman tree -/

theorem treeCodes_prepend (t : Node) :
    ∀ pre : Str, treeCodes t pre = (treeCodes t []).map (fun p => (p.1, pre ++ p.2)) := by
  induction t with
  | nil => intro pre; rfl
  | node c f l r ihl ihr =>
    intro pre
    unfold treeCodes
    rw [ihl (pre ++ ['0']), ihr (pre ++ ['1']), ihl ([] ++ ['0']), ihr ([] ++ ['1'])]
    simp only [List.map_append, List.map_map, List.nil_append]
    congr 1
    · congr 1
      · split <;> simp
      · apply List.map_congr_left
        intro p _
        simp
    · apply List.map_congr_left
      intro p _
      simp

theorem find?_map_snd (L : List (Rune × Str)) (g : Str → Str) (x : Rune) :
    GoMap.find? (L.map (fun p => (p.1, g p.2))) x = (GoMap.find? L x).map g := by
  induction L with
  | nil => rfl
  | cons q rest ih =>
    obtain ⟨k, v⟩ := q
    by_cases h : k = x
    · simp [GoMap.find?, h]
    · simp [GoMap.find?, h, ih]

theorem find?_append (L1 L2 : List (Rune × Str)) (x : Rune) :
    GoMap.find? (L1 ++ L2) x
      = match GoMap.find? L1 x with
        | some v => some v
        | none => GoMap.find? L2 x := by
  induction L1 with
  | nil => rfl
  | cons q rest ih =>
    obtain ⟨k, v⟩ := q
    by_cases h : k = x
    · simp [GoMap.find?, h]
    · simp [GoMap.find?, h, ih]

theorem codeDepth_merged (f : Nat) (A B : Node) (x : Rune) :
    codeDepth (.node (-1) f A B) x
      = match codeDepth A x with
        | some k => some (k + 1)
        | none => (codeDepth B x).map (fun k => k + 1) := by
  unfold codeDepth
  have h : treeCodes (.node (-1) f A B) []
      = (treeCodes A []).map (fun p => (p.1, ['0'] ++ p.2))
        ++ (treeCodes B []).map (fun p => (p.1, ['1'] ++ p.2)) := by
    rw [treeCodes]
    simp only [ne_eq, not_true_eq_false, if_false, List.nil_append]
    rw [treeCodes_prepend A ['0'], treeCodes_prepend B ['1']]
  rw [h, find?_append, find?_map_snd, find?_map_snd]
  cases GoMap.find? (treeCodes A []) x with
  | some v => simp
  | none =>
    cases GoMap.find? (treeCodes B []) x with
    | some v => simp
    | none => simp

theorem codeDepth_mem (t : Node) (x : Rune) (k : Nat) (h : codeDepth t x = some k) :
    x ∈ treeSymbols t := by
  unfold codeDepth at h
  cases hf : GoMap.find? (treeCodes t []) x with
  | none => simp [hf] at h
  | some v =>
    have := GoMap.mem_of_find? _ _ _ hf
    rw [← treeCodes_keys t []]
    exact List.mem_map_of_mem Prod.fst this

theorem codeDepth_none (t : Node) (x : Rune) (h : x ∉ treeSymbols t) :
    codeDepth t x = none := by
  cases hd : codeDepth t x with
  | none => rfl
  | some k => exact absurd (codeDepth_mem t x k hd) h

/-- The merging loop leaves one tree; below it every tree of the queue sits at a depth
`fd`, and a tree of the queue that is lighter than another by less than `k` times the
least frequency of the queue sits at most `k` levels higher. -/
theorem mergeLoop_depths (fuel : Nat) :
    ∀ queue : PriorityQueue, queue ≠ [] → queue.length ≤ fuel → IsHeap queue →
      (queue.flatMap treeSymbols).Nodup → (∀ t ∈ queue, treeSymbols t ≠ []) →
      ∃ (t : Node) (fd : Node → Nat), mergeLoop fuel queue = some [t] ∧
        (∀ U ∈ queue, ∀ x k, codeDepth U x = some k → codeDepth t x = some (k + fd U)) ∧
        (∀ U ∈ queue, ∀ Y ∈ queue, ∀ k m : Nat, (∀ X ∈ queue, m ≤ X.frequency) →
          Y.frequency < U.frequency + k * m → fd U ≤ fd Y + k) := by
  induction fuel with
  | zero =>
    intro queue hne hlen _ _ _
    exact absurd (List.length_eq_zero.1 (by omega)) hne
  | succ f ih =>
    intro queue hne hlen hheap hnd hsym
    unfold mergeLoop
    by_cases h1 : queue.length > 1
    · rw [if_pos h1]
      obtain ⟨n1, q1, e1, p1, hh1, hmin1⟩ := heapPop_spec queue hne hheap
      have hq1 : q1 ≠ [] := by
        intro h
        have := p1.length_eq
        rw [h] at this
        simp at this
        omega
      obtain ⟨n2, q2, e2, p2, hh2, hmin2⟩ := heapPop_spec q1 hq1 hh1
      rw [e1]
      simp only
      rw [e2]
      simp only
      obtain ⟨M, hM⟩ : ∃ M, M = Node.node (-1) (n1.frequency + n2.frequency) n1 n2 := ⟨_, rfl⟩
      rw [← hM]
      have hMf : M.frequency = n1.frequency + n2.frequency := by rw [hM]; rfl
      have hMs : treeSymbols M = treeSymbols n1 ++ treeSymbols n2 := by
        rw [hM]
        simp [treeSymbols]
      have pp := heapPush_perm q2 M
      have pall : (n1 :: n2 :: q2).Perm queue := (List.Perm.cons n1 p2).trans p1
      have hlen2 : (heapPush q2 M).length ≤ f := by
        have a := pp.length_eq
        have b := pall.length_eq
        simp only [List.length_cons] at a b
        omega
      have hndall : (treeSymbols n1 ++ (treeSymbols n2 ++ q2.flatMap treeSymbols)).Nodup := by
        have := (List.Perm.flatMap_right treeSymbols pall).nodup_iff.2 hnd
        rwa [List.flatMap_cons, List.flatMap_cons] at this
      have hs1 : treeSymbols n1 ≠ [] := hsym n1 (pall.mem_iff.1 (by simp))
      have hs2 : treeSymbols n2 ≠ [] := hsym n2 (pall.mem_iff.1 (by simp))
      obtain ⟨_, hnd2q, hdis1⟩ := List.nodup_append.1 hndall
      obtain ⟨_, _, hdis2⟩ := List.nodup_append.1 hnd2q
      have hne1 : ∀ U ∈ q2, U ≠ n1 := by
        intro U hU h
        obtain ⟨x, hx⟩ := List.exists_mem_of_ne_nil _ hs1
        refine hdis1 hx (List.mem_append_right _ (List.mem_flatMap.2 ⟨U, hU, ?_⟩))
        rw [h]
        exact hx
      have hne2 : ∀ U ∈ q2, U ≠ n2 := by
        intro U hU h
        obtain ⟨x, hx⟩ := List.exists_mem_of_ne_nil _ hs2
        refine hdis2 hx (List.mem_flatMap.2 ⟨U, hU, ?_⟩)
        rw [h]
        exact hx
      have hMmem : M ∈ heapPush q2 M := pp.mem_iff.2 (by simp)
      have hqmem : ∀ U ∈ q2, U ∈ heapPush q2 M := fun U hU => pp.mem_iff.2 (by simp [hU])
      have hqmem0 : ∀ U ∈ q2, U ∈ queue := fun U hU => pall.mem_iff.1 (by simp [hU])
      have hab : n1.frequency ≤ n2.frequency := hmin1 n2 (pall.mem_iff.1 (by simp))
      have hbq : ∀ U ∈ q2, n2.frequency ≤ U.frequency :=
        fun U hU => hmin2 U (p2.mem_iff.1 (by simp [hU]))
      obtain ⟨t, fd1, ht, hd, hf⟩ := ih (heapPush q2 M) (by
          intro h
          have := pp.length_eq
          rw [h] at this
          simp at this) hlen2 (heapPush_heap q2 M hh2) (by
          refine (List.Perm.flatMap_right treeSymbols pp).nodup_iff.2 ?_
          rw [List.flatMap_cons, hMs, List.append_assoc]
          exact hndall) (by
          intro t ht
          rcases List.mem_cons.1 (pp.mem_iff.1 ht) with h | h
          · rw [h, hMs]
            simp [hs1]
          · exact hsym t (hqmem0 t h))
      obtain ⟨fd, hfd1, hfd2⟩ : ∃ fd : Node → Nat,
          (∀ U, U = n1 ∨ U = n2 → fd U = fd1 M + 1) ∧
          (∀ U, U ≠ n1 → U ≠ n2 → fd U = fd1 U) :=
        ⟨fun U => if U = n1 ∨ U = n2 then fd1 M + 1 else fd1 U,
          fun U h => by simp only [h, if_true],
          fun U a b => by simp only [a, b, or_self, if_false]⟩
      have hsplit : ∀ U ∈ queue, (U = n1 ∨ U = n2) ∨ U ∈ q2 := by
        intro U hU
        have := pall.mem_iff.2 hU
        simp only [List.mem_cons] at this
        tauto
      refine ⟨t, fd, ht, ?_, ?_⟩
      · intro U hU x k hk
        rcases hsplit U hU with hp | hq
        · rw [hfd1 U hp]
          have hMx : codeDepth M x = some (k + 1) := by
            rw [hM, codeDepth_merged]
            rcases hp with h | h
            · rw [h] at hk
              rw [hk]
            · rw [h] at hk
              have hx2 := codeDepth_mem n2 x k hk
              have hx1 : x ∉ treeSymbols n1 :=
                fun hx1 => hdis1 hx1 (List.mem_append_left _ hx2)
              rw [codeDepth_none n1 x hx1, hk]
              rfl
          rw [hd M hMmem x (k + 1) hMx]
          congr 1
          omega
        · rw [hfd2 U (hne1 U hq) (hne2 U hq)]
          exact hd U (hqmem U hq) x k hk
      · intro U hU Y hY k m hm hlt
        have hma : m ≤ n1.frequency := hm n1 (pall.mem_iff.1 (by simp))
        rcases hsplit U hU with hp | hq
        · have hUf : U.frequency = n1.frequency ∨ U.frequency = n2.frequency := by
            rcases hp with h | h
            · exact Or.inl (by rw [h])
            · exact Or.inr (by rw [h])
          rcases hsplit Y hY with hp2 | hq2
          · rw [hfd1 U hp, hfd1 Y hp2]
            omega
          · rw [hfd1 U hp, hfd2 Y (hne1 Y hq2) (hne2 Y hq2)]
            have hYb := hbq Y hq2
            cases k with
            | zero =>
              simp only [Nat.zero_mul, Nat.add_zero] at hlt
              omega
            | succ k1 =>
              have := hf M hMmem Y (hqmem Y hq2) k1 m (by
                  intro X hX
                  rcases List.mem_cons.1 (pp.mem_iff.1 hX) with h | h
                  · rw [h, hMf]
                    omega
                  · exact hm X (hqmem0 X h)) (by
                  rw [hMf]
                  rw [Nat.succ_mul] at hlt
                  omega)
              omega
        · have hUb := hbq U hq
          rcases hsplit Y hY with hp2 | hq2
          · have hYf : Y.frequency = n1.frequency ∨ Y.frequency = n2.frequency := by
              rcases hp2 with h | h
              · exact Or.inl (by rw [h])
              · exact Or.inr (by rw [h])
            rw [hfd2 U (hne1 U hq) (hne2 U hq), hfd1 Y hp2]
            have hmul : k * m ≤ k * n2.frequency := Nat.mul_le_mul_left k (le_trans hma hab)
            have := hf U (hqmem U hq) M hMmem (k + 1) n2.frequency (by
                intro X hX
                rcases List.mem_cons.1 (pp.mem_iff.1 hX) with h | h
                · rw [h, hMf]
                  omega
                · exact hbq X h) (by
                rw [hMf, Nat.succ_mul]
                omega)
            omega
          · rw [hfd2 U (hne1 U hq) (hne2 U hq), hfd2 Y (hne1 Y hq2) (hne2 Y hq2)]
            exact hf U (hqmem U hq) Y (hqmem Y hq2) k m (by
                intro X hX
                rcases List.mem_cons.1 (pp.mem_iff.1 hX) with h | h
                · rw [h, hMf]
                  omega
                · exact hm X (hqmem0 X h)) hlt
    · rw [if_neg h1]
      obtain ⟨t, rfl⟩ : ∃ t, queue = [t] := by
        cases queue with
        | nil => exact absurd rfl hne
        | cons t rest =>
          cases rest with
          | nil => exact ⟨t, rfl⟩
          | cons _ _ => simp at h1
      refine ⟨t, fun _ => 0, rfl, ?_, ?_⟩
      · intro U hU x k hk
        rw [List.mem_singleton.1 hU] at hk
        simpa using hk
      · intro U _ Y _ k m _ _
        exact Nat.zero_le _

/-! ## Codeword length against frequency -/

theorem characterFrequencies_loop (rs : List Rune) :
    ∀ (m : GoMap Rune Nat) (x : Rune),
      GoMap.get (rs.foldl (fun frequencies character =>
        GoMap.set frequencies character (GoMap.get frequencies character 0 + 1)) m) x 0
        = GoMap.get m x 0 + rs.count x := by
  induction rs with
  | nil => intro m x; simp
  | cons r rest ih =>
    intro m x
    rw [List.foldl_cons, ih]
    by_cases h : r = x
    · rw [h, List.count_cons_self]
      unfold GoMap.get
      rw [GoMap.find?_set_self]
      simp only [Option.getD_some]
      omega
    · rw [List.count_cons_of_ne (Ne.symm h)]
      unfold GoMap.get
      rw [GoMap.find?_set_ne _ _ _ _ h]

/-- The table of `characterFrequencies` holds, for each character, the number of its
occurrences in the text. -/
theorem characterFrequencies_count (text : Str) (x : Rune) :
    GoMap.get (characterFrequencies text) x 0 = (stringRunes text).count x := by
  unfold characterFrequencies
  rw [characterFrequencies_loop]
  simp [GoMap.get, GoMap.find?]

theorem IsHeap_nil : IsHeap [] := by
  intro k _ hk
  simp at hk

theorem foldl_heapPush_heap (nodes : List Node) :
    ∀ queue : PriorityQueue, IsHeap queue → IsHeap (nodes.foldl heapPush queue) := by
  induction nodes with
  | nil => intro queue h; exact h
  | cons n rest ih =>
    intro queue h
    rw [List.foldl_cons]
    exact ih _ (heapPush_heap queue n h)

theorem codeDepth_leaf (c : Rune) (f : Nat) (hc : c ≠ -1) :
    codeDepth (.node c f .nil .nil) c = some 0 := by
  simp [codeDepth, treeCodes, hc, GoMap.find?]

theorem leaves_symbols (frequencies : GoMap Rune Nat) :
    ∀ alphabet : List Rune, (∀ r ∈ alphabet, r ≠ -1) →
      (alphabet.map (fun character =>
        Node.node character (frequencies.get character 0) .nil .nil)).flatMap treeSymbols
        = alphabet := by
  intro alphabet
  induction alphabet with
  | nil => intro _; rfl
  | cons c rest ih =>
    intro hsym
    have hc : c ≠ -1 := hsym c (List.mem_cons_self _ _)
    have := ih (fun r hr => hsym r (List.mem_cons_of_mem _ hr))
    simp only [List.map_cons, List.flatMap_cons, this]
    simp [treeSymbols, hc]

/-- In the tree of `makeHuffmanTree` a symbol of strictly greater frequency is not deeper
than a symbol of smaller frequency. -/
theorem makeHuffmanTree_depths (alphabet : List Rune) (frequencies : GoMap Rune Nat)
    (hnd : alphabet.Nodup) (hne : alphabet ≠ []) (hsym : ∀ r ∈ alphabet, r ≠ -1) :
    ∃ t, makeHuffmanTree alphabet frequencies = some t ∧
      ∀ x ∈ alphabet, ∀ y ∈ alphabet, frequencies.get y 0 < frequencies.get x 0 →
        ∃ dx dy, codeDepth t x = some dx ∧ codeDepth t y = some dy ∧ dx ≤ dy := by
  unfold makeHuffmanTree
  simp only
  set nodes := alphabet.map (fun character =>
    Node.node character (frequencies.get character 0) .nil .nil) with hnodes
  have hq : (nodes.foldl heapPush []).Perm nodes := by
    simpa using foldl_heapPush_perm nodes []
  have hqne : nodes.foldl heapPush [] ≠ [] := by
    intro h
    have := hq.length_eq
    rw [h, hnodes] at this
    simp at this
    exact hne (List.length_eq_zero.1 this.symm)
  have hflat : nodes.flatMap treeSymbols = alphabet := leaves_symbols frequencies alphabet hsym
  obtain ⟨t, fd, ht, hd, hf⟩ := mergeLoop_depths _ _ hqne (Nat.le_succ _)
    (foldl_heapPush_heap nodes [] IsHeap_nil)
    ((List.Perm.flatMap_right treeSymbols hq).nodup_iff.2 (by rw [hflat]; exact hnd))
    (by
      intro t ht
      obtain ⟨c, hc, rfl⟩ := List.mem_map.1 (hq.mem_iff.1 ht)
      simp [treeSymbols, hsym c hc])
  rw [ht]
  simp only
  obtain ⟨x, q, ex, px⟩ := heapPop_perm [t] (by simp)
  have hx : x = t := by
    have := List.perm_singleton.1 px
    simp at this
    exact this.1
  refine ⟨t, by rw [ex, hx]; rfl, ?_⟩
  intro a ha b hb hlt
  have hma : Node.node a (frequencies.get a 0) .nil .nil ∈ nodes.foldl heapPush [] :=
    hq.mem_iff.2 (List.mem_map.2 ⟨a, ha, rfl⟩)
  have hmb : Node.node b (frequencies.get b 0) .nil .nil ∈ nodes.foldl heapPush [] :=
    hq.mem_iff.2 (List.mem_map.2 ⟨b, hb, rfl⟩)
  refine ⟨_, _, hd _ hma a 0 (codeDepth_leaf a _ (hsym a ha)),
    hd _ hmb b 0 (codeDepth_leaf b _ (hsym b hb)), ?_⟩
  have := hf _ hma _ hmb 0 0 (fun _ _ => Nat.zero_le _) (by
    simp only [Node.frequency, Nat.zero_mul, Nat.add_zero]
    exact hlt)
  omega

/-- Claim C13. Huffman codeword length is monotone in frequency: for a non-empty alphabet
of distinct symbols (code points, so none is the marker `-1`) and any corpus, training
succeeds, and whenever the alphabet symbol `x` occurs strictly more often in the corpus
than the alphabet symbol `y`, both have a codeword and the codeword of `x` is no longer
than the codeword of `y`; in particular a symbol that occurs strictly more often than
every other alphabet symbol has a codeword of minimum length. -/
theorem huffman_length_monotone (alphabet : List Rune) (corpus : Str) (hnd : alphabet.Nodup)
    (hne : alphabet ≠ []) (hsym : ∀ r ∈ alphabet, r ≠ -1) :
    ∃ e, Huffman alphabet corpus = some e ∧
      (∀ x ∈ alphabet, ∀ y ∈ alphabet,
        (stringRunes corpus).count y < (stringRunes corpus).count x →
        ∃ cx cy, e.Codewords.find? x = some cx ∧ e.Codewords.find? y = some cy ∧
          cx.length ≤ cy.length) ∧
      (∀ x ∈ alphabet,
        (∀ y ∈ alphabet, y ≠ x →
          (stringRunes corpus).count y < (stringRunes corpus).count x) →
        ∃ cx, e.Codewords.find? x = some cx ∧
          ∀ y ∈ alphabet, ∃ cy, e.Codewords.find? y = some cy ∧ cx.length ≤ cy.length) := by
  obtain ⟨t, ht, hdep⟩ :=
    makeHuffmanTree_depths alphabet (characterFrequencies corpus) hnd hne hsym
  obtain ⟨t1, ht1, -, hpt⟩ := makeHuffmanTree_spec alphabet (characterFrequencies corpus) hne hsym
  have htt : t1 = t := Option.some.inj (ht1.symm.trans ht)
  rw [htt] at hpt
  have hndt : (treeSymbols t).Nodup := hpt.nodup_iff.2 hnd
  have hmono : ∀ x ∈ alphabet, ∀ y ∈ alphabet,
      (stringRunes corpus).count y < (stringRunes corpus).count x →
      ∃ cx cy, GoMap.find? (makeCodewords t) x = some cx ∧
        GoMap.find? (makeCodewords t) y = some cy ∧ cx.length ≤ cy.length := by
    intro x hx y hy hlt
    rw [← characterFrequencies_count, ← characterFrequencies_count] at hlt
    obtain ⟨dx, dy, hdx, hdy, hle⟩ := hdep x hx y hy hlt
    rw [makeCodewords_eq t hndt]
    unfold codeDepth at hdx hdy
    cases hfx : GoMap.find? (treeCodes t []) x with
    | none => simp [hfx] at hdx
    | some cx =>
      cases hfy : GoMap.find? (treeCodes t []) y with
      | none => simp [hfy] at hdy
      | some cy =>
        refine ⟨cx, cy, rfl, rfl, ?_⟩
        rw [hfx] at hdx
        rw [hfy] at hdy
        simp only [Option.map_some', Option.some.injEq] at hdx hdy
        omega
  refine ⟨{ Alphabet := alphabet, Codewords := makeCodewords t }, ?_, hmono, ?_⟩
  · unfold Huffman
    simp only
    rw [ht]
    rfl
  · intro x hx hmax
    have hkx : x ∈ (makeCodewords t).map Prod.fst := by
      rw [makeCodewords_eq t hndt, treeCodes_keys]
      exact hpt.mem_iff.2 hx
    cases hfx : GoMap.find? (makeCodewords t) x with
    | none => exact absurd hfx (GoMap.find?_ne_none_of_key _ _ hkx)
    | some cx =>
      refine ⟨cx, rfl, ?_⟩
      intro y hy
      by_cases hyx : y = x
      · rw [hyx]
        exact ⟨cx, hfx, le_refl _⟩
      · obtain ⟨cx1, cy, h1, h2, h3⟩ := hmono x hx y hy (hmax y hy hyx)
        rw [hfx] at h1
        rw [← Option.some.inj h1] at h3
        exact ⟨cy, h2, h3⟩

/-- Scenario B of the specification: for the alphabet `{a, b, c}` with the frequencies 5,
2 and 1 no symbol has a shorter codeword than a less frequent one, and `a` has a codeword
of minimum length. -/
theorem huffman_length_monotone_witness :
    ∃ e, Huffman [97, 98, 99] "aaaaabbc".toList = some e ∧
      (∀ x ∈ ([97, 98, 99] : List Rune), ∀ y ∈ ([97, 98, 99] : List Rune),
        (stringRunes "aaaaabbc".toList).count y < (stringRunes "aaaaabbc".toList).count x →
        ∃ cx cy, e.Codewords.find? x = some cx ∧ e.Codewords.find? y = some cy ∧
          cx.length ≤ cy.length) ∧
      (∀ x ∈ ([97, 98, 99] : List Rune),
        (∀ y ∈ ([97, 98, 99] : List Rune), y ≠ x →
          (stringRunes "aaaaabbc".toList).count y < (stringRunes "aaaaabbc".toList).count x) →
        ∃ cx, e.Codewords.find? x = some cx ∧
          ∀ y ∈ ([97, 98, 99] : List Rune),
            ∃ cy, e.Codewords.find? y = some cy ∧ cx.length ≤ cy.length) :=
  huffman_length_monotone [97, 98, 99] "aaaaabbc".toList (by decide) (by decide) (by decide)

end Tamp
